import Mathlib

/-!
# Unigine::Hash — open addressing table with linear probing

Shallow embedding of `src/include/UnigineHash.h` (class `Hash<Key, Data, HashType, Counter>`)
and proofs about lookup, insertion, backward-shift deletion, growth and shrinking.

Conventions of the embedding

* `Counter` is the default `unsigned int`: every arithmetic operation the source performs on a
  `Counter` is taken modulo `2 ^ 32` (`cinc`, `cdec`, `cshl1`, `cmask`, `step`).
* `float` is IEEE-754 binary32 with round-to-nearest-even.  The float values that occur are
  non-negative multiples of `2 ^ (-64)`, so a float `x` is represented by the natural number
  `x * 2 ^ 64` (`f32`, `fdiv`, `fadd`, `float_of`, `HASH_LOAD_FACTOR`).
* The slot array `Data **data` is a list of optional entries; `nullptr` slots are `none`, the
  unallocated array is `[]`.  Reading a slot outside the array makes the operation fail.
* Loops that the source does not bound (`while (data[index])`) carry a fuel argument; an operation
  returns `none` when it runs out of fuel or reads outside the array, i.e. when it does not
  return a result.
-/

namespace Unigine

/-! ## Counter arithmetic (unsigned int, modulo 2 ^ 32) -/

/-- Number of values of the type `Counter` (`unsigned int`). -/
def COUNTER_SIZE : Nat := 2 ^ 32

/-- The operation `c + 1` on a `Counter`. -/
def cinc (c : Nat) : Nat := (c + 1) % COUNTER_SIZE

/-- The operation `c - 1` on a `Counter`. -/
def cdec (c : Nat) : Nat := (c + COUNTER_SIZE - 1) % COUNTER_SIZE

/-- The operation `c << 1` on a `Counter`. -/
def cshl1 (c : Nat) : Nat := (c * 2) % COUNTER_SIZE

/-- The probing mask `capacity - 1`. -/
def cmask (capacity : Nat) : Nat := cdec capacity

/-- The probing step `(index + i) & mask`. -/
def step (index i mask : Nat) : Nat := ((index + i) % COUNTER_SIZE) &&& mask

/-! ## binary32 arithmetic on values scaled by 2 ^ 64 -/

/-- Scaling factor of the float representation: the float `x` is stored as `x * FSCALE`. -/
def FSCALE : Nat := 2 ^ 64

/-- Nearest integer to `n / d`, ties to even. -/
def rne (n d : Nat) : Nat :=
  let q := n / d
  let r := n % d
  if 2 * r < d then q
  else if d < 2 * r then q + 1
  else if q % 2 = 0 then q else q + 1

/-- Position of the leading bit of `n` (0 for `n < 2`), by repeated halving. -/
def ilog2 : Nat → Nat → Nat
  | 0, _ => 0
  | fuel + 1, n => if n < 2 then 0 else ilog2 fuel (n / 2) + 1

/-- Round the scaled real `n / d` to the nearest binary32 value (24 significant bits). -/
def f32 (n d : Nat) : Nat :=
  let e := ilog2 (n / d) (n / d)
  let u := 2 ^ (e - 23)
  rne n (d * u) * u

/-- The conversion `float(c)` of a `Counter`. -/
def float_of (c : Nat) : Nat := f32 (c * FSCALE) 1

/-- The float division `x / y`. -/
def fdiv (x y : Nat) : Nat := f32 (x * FSCALE) y

/-- The float addition `x + y`. -/
def fadd (x y : Nat) : Nat := f32 (x + y) 1

/-- The literal `0.85f`. -/
def HASH_LOAD_FACTOR : Nat := f32 (85 * FSCALE) 100

/-- The literal `0.5f`. -/
def HALF : Nat := f32 (5 * FSCALE) 10

/-- The conversion `static_cast<Counter>(x)` of a float (truncation). -/
def counter_of (x : Nat) : Nat := x / FSCALE

/-! ## Data model -/

/-- An entry `Data`: the stored hash, the key, and the rest of the object (its payload). -/
structure Data (Key Val : Type) where
  hash : Nat
  key : Key
  value : Val
deriving DecidableEq, Repr

/-- The table: slot array `data`, `length` and `capacity`. -/
structure Hash (Key Val : Type) where
  data : List (Option (Data Key Val))
  length : Nat
  capacity : Nat
deriving DecidableEq, Repr

/-- The table a default-constructed `Hash` holds: no array, length 0, capacity 0. -/
def Hash.init {Key Val : Type} : Hash Key Val := ⟨[], 0, 0⟩

/-- Outcome of the probing loop shared by `do_find`, `do_append` and `do_remove`. -/
inductive Probe where
  | found (index : Nat)
  | empty (index : Nat)
deriving DecidableEq, Repr

variable {Key Val : Type} [DecidableEq Key]

/-- The loop `while (data[index]) { if (data[index]->hash == hash && data[index]->key == key) ...;
index = (index + 1) & (capacity - 1); }` of `do_find`, `do_append` and `do_remove`: it ends at a
matching occupied slot or at an empty slot. -/
def probe (data : List (Option (Data Key Val))) (mask hash : Nat) (key : Key) :
    Nat → Nat → Option Probe
  | 0, _ => none
  | fuel + 1, index =>
    match data[index]? with
    | none => none
    | some none => some (Probe.empty index)
    | some (some d) =>
      if d.hash = hash ∧ d.key = key then some (Probe.found index)
      else probe data mask hash key fuel (step index 1 mask)

/-- The loop `while (new_data[new_index]) new_index = (new_index + 1) & mask;` of `rehash` and
`rehash_data`: the first empty slot in probe order. -/
def find_empty (data : List (Option (Data Key Val))) (mask : Nat) : Nat → Nat → Option Nat
  | 0, _ => none
  | fuel + 1, index =>
    match data[index]? with
    | none => none
    | some none => some index
    | some (some _) => find_empty data mask fuel (step index 1 mask)

/-- The assignment `data[index] = v`; it fails outside the array. -/
def store (data : List (Option (Data Key Val))) (index : Nat) (v : Option (Data Key Val)) :
    Option (List (Option (Data Key Val))) :=
  if index < data.length then some (data.set index v) else none

/-- The body of the `for` loop of `rehash` from `i` on, `n` iterations left. -/
def rehash_loop (fuel : Nat) (data : List (Option (Data Key Val))) (mask : Nat) :
    Nat → Nat → List (Option (Data Key Val)) → Option (List (Option (Data Key Val)))
  | 0, _, new_data => some new_data
  | n + 1, i, new_data =>
    match data[i]? with
    | none => none
    | some none => rehash_loop fuel data mask n (i + 1) new_data
    | some (some d) =>
      match find_empty new_data mask fuel (d.hash &&& mask) with
      | none => none
      | some new_index =>
        match store new_data new_index (some d) with
        | none => none
        | some new_data1 => rehash_loop fuel data mask n (i + 1) new_data1

/-- The function `rehash(new_capacity)` (called without the optional `index`). -/
def rehash (fuel : Nat) (t : Hash Key Val) (new_capacity : Nat) : Option (Hash Key Val) :=
  match rehash_loop fuel t.data (cmask new_capacity) t.capacity 0
      (List.replicate new_capacity none) with
  | none => none
  | some new_data => some ⟨new_data, t.length, new_capacity⟩

/-- The test `is_need_realloc()`. -/
def is_need_realloc (t : Hash Key Val) : Bool :=
  decide (HASH_LOAD_FACTOR ≤ fdiv (float_of (cinc t.length)) (float_of (cinc t.capacity)))

/-- The function `realloc()`. -/
def realloc (fuel : Nat) (t : Hash Key Val) : Option (Hash Key Val) :=
  rehash fuel t (if t.capacity = 0 then 8 else cshl1 t.capacity)

/-- The function `do_find(key)`: the index of the slot it returns, `none` for `nullptr`. -/
def do_find (hasher : Key → Nat) (fuel : Nat) (t : Hash Key Val) (key : Key) :
    Option (Option Nat) :=
  if t.length = 0 then some none
  else
    match probe t.data (cmask t.capacity) (hasher key) key fuel
        (hasher key &&& cmask t.capacity) with
    | none => none
    | some (Probe.found index) => some (some index)
    | some (Probe.empty _) => some none

/-- The function `find(key)`/`contains(key)`: whether the key is reported present. -/
def contains (hasher : Key → Nat) (fuel : Nat) (t : Hash Key Val) (key : Key) : Option Bool :=
  if t.length = 0 then some false
  else (do_find hasher fuel t key).map (fun r => r.isSome)

/-- The function `do_append(const Key &key)`: the table afterwards and the entry it returns.
`val` is the rest of the object that `new Data(hash, key)` constructs. -/
def do_append (hasher : Key → Nat) (fuel : Nat) (t : Hash Key Val) (key : Key) (val : Val) :
    Option (Hash Key Val × Data Key Val) :=
  match (if t.capacity = 0 then realloc fuel t else some t) with
  | none => none
  | some t1 =>
    match probe t1.data (cmask t1.capacity) (hasher key) key fuel
        (hasher key &&& cmask t1.capacity) with
    | none => none
    | some (Probe.found index) =>
      match t1.data[index]? with
      | some (some d) => some (t1, d)
      | _ => none
    | some (Probe.empty index) =>
      match store t1.data index (some ⟨hasher key, key, val⟩) with
      | none => none
      | some data1 =>
        if is_need_realloc (⟨data1, cinc t1.length, t1.capacity⟩ : Hash Key Val) then
          match realloc fuel ⟨data1, cinc t1.length, t1.capacity⟩ with
          | none => none
          | some t2 => some (t2, ⟨hasher key, key, val⟩)
        else some (⟨data1, cinc t1.length, t1.capacity⟩, ⟨hasher key, key, val⟩)

/-- The macro `CHECK(i)` of `rehash_data`: whether it leaves the loop at `(index + i) & mask`. -/
def check (data : List (Option (Data Key Val))) (mask index i : Nat) : Option Bool :=
  match data[step index i mask]? with
  | none => none
  | some none => some true
  | some (some d) => some (decide ((d.hash &&& mask) ≠ step index i mask))

/-- The sequence `CHECK(1) ... CHECK(6)`: the index at which one of them breaks, if any. -/
def checks (data : List (Option (Data Key Val))) (mask index : Nat) :
    List Nat → Option (Option Nat)
  | [] => some none
  | i :: is =>
    match check data mask index i with
    | none => none
    | some true => some (some (step index i mask))
    | some false => checks data mask index is

/-- The first loop of `rehash_data` (the unrolled forward scan): the index it ends at. -/
def scan (data : List (Option (Data Key Val))) (mask : Nat) : Nat → Nat → Option Nat
  | 0, _ => none
  | fuel + 1, index =>
    match data[index]? with
    | none => none
    | some none => some index
    | some (some d) =>
      if (d.hash &&& mask) ≠ index then some index
      else
        match checks data mask index [1, 2, 3, 4, 5, 6] with
        | none => none
        | some (some index1) => some index1
        | some none => scan data mask fuel (step index 7 mask)

/-- The second loop of `rehash_data`: vacate every slot up to the first empty one and put its
entry at the first empty slot in probe order from its ideal index. -/
def reinsert (fuel0 mask : Nat) :
    Nat → List (Option (Data Key Val)) → Nat → Option (List (Option (Data Key Val)))
  | 0, _, _ => none
  | fuel + 1, data, index =>
    match data[index]? with
    | none => none
    | some none => some data
    | some (some d) =>
      match store data index none with
      | none => none
      | some data1 =>
        match find_empty data1 mask fuel0 (d.hash &&& mask) with
        | none => none
        | some new_index =>
          match store data1 new_index (some d) with
          | none => none
          | some data2 => reinsert fuel0 mask fuel data2 (step index 1 mask)

/-- The function `rehash_data(index)` on the slot array. -/
def rehash_data (fuel : Nat) (data : List (Option (Data Key Val))) (capacity index : Nat) :
    Option (List (Option (Data Key Val))) :=
  match scan data (cmask capacity) fuel (step index 1 (cmask capacity)) with
  | none => none
  | some index1 => reinsert fuel (cmask capacity) fuel data index1

/-- The function `do_remove(hash, key)`: the table afterwards and the returned flag. -/
def do_remove (fuel : Nat) (t : Hash Key Val) (hash : Nat) (key : Key) :
    Option (Hash Key Val × Bool) :=
  if t.length = 0 then some (t, false)
  else
    match probe t.data (cmask t.capacity) hash key fuel (hash &&& cmask t.capacity) with
    | none => none
    | some (Probe.empty _) => some (t, false)
    | some (Probe.found index) =>
      match store t.data index none with
      | none => none
      | some data1 =>
        match rehash_data fuel data1 t.capacity index with
        | none => none
        | some data2 => some (⟨data2, cdec t.length, t.capacity⟩, true)

/-- The function `remove(const Key &key)`. -/
def remove (hasher : Key → Nat) (fuel : Nat) (t : Hash Key Val) (key : Key) :
    Option (Hash Key Val × Bool) :=
  do_remove fuel t (hasher key) key

/-- The loop `for (Counter i = 1; i < sizeof(v) * 8; i *= 2) v |= v >> i;` of `round_up`. -/
def round_up_loop : Nat → Nat → Nat → Nat
  | 0, _, v => v
  | fuel + 1, i, v => if i < 32 then round_up_loop fuel (i * 2) (v ||| (v >>> i)) else v

/-- The function `round_up(v)`. -/
def round_up (v : Nat) : Nat := cinc (round_up_loop 32 1 (cdec v))

/-- The value `static_cast<Counter>(float(size) / HASH_LOAD_FACTOR + 0.5f)` of `reserve` and
`shrink`, before the conversion to `Counter`. -/
def target (size : Nat) : Nat :=
  counter_of (fadd (fdiv (float_of size) HASH_LOAD_FACTOR) HALF)

/-- The function `clear()`: the loop stores `nullptr` in the slots `0 .. capacity - 1`. -/
def clear_loop : Nat → Nat → List (Option (Data Key Val)) →
    Option (List (Option (Data Key Val)))
  | 0, _, data => some data
  | n + 1, i, data =>
    match store data i none with
    | none => none
    | some data1 => clear_loop n (i + 1) data1

/-- The function `clear()`. -/
def clear (t : Hash Key Val) : Option (Hash Key Val) :=
  match clear_loop t.capacity 0 t.data with
  | none => none
  | some data1 => some ⟨data1, 0, t.capacity⟩

/-- The function `destroy()`. -/
def destroy (_t : Hash Key Val) : Hash Key Val := ⟨[], 0, 0⟩

/-- The function `reserve(size)`; the float to `Counter` conversion is defined only for values
below `2 ^ 32`. -/
def reserve (fuel : Nat) (t : Hash Key Val) (size : Nat) : Option (Hash Key Val) :=
  if COUNTER_SIZE ≤ target size then none
  else if target size ≤ t.capacity then some t
  else rehash fuel t (round_up (target size))

/-- The function `shrink()`. -/
def shrink (fuel : Nat) (t : Hash Key Val) : Option (Hash Key Val) :=
  if t.capacity = 0 then some t
  else if t.length = 0 then some (destroy t)
  else if COUNTER_SIZE ≤ target t.length then none
  else if t.capacity ≤ target t.length then some t
  else rehash fuel t (round_up (target t.length))

/-! ## Invariants -/

/-- The entries the table owns, in physical slot order. -/
def entries (data : List (Option (Data Key Val))) : List (Data Key Val) :=
  data.filterMap id

/-- The entry in slot `i`, `none` when the slot is empty or outside the array. -/
def slot (data : List (Option (Data Key Val))) (i : Nat) : Option (Data Key Val) :=
  (data[i]?).join

/-- The ideal index `hash & (capacity - 1)` of an entry. -/
def ideal (capacity : Nat) (d : Data Key Val) : Nat := d.hash &&& cmask capacity

/-- Number of probing steps `(idx + 1) & mask` that lead from index `a` to index `b`. -/
def cdist (capacity a b : Nat) : Nat := if a ≤ b then b - a else b + capacity - a

/-- The slot array has `capacity` slots and `capacity` is a value of `Counter`. -/
def Shape (t : Hash Key Val) : Prop :=
  t.data.length = t.capacity ∧ t.capacity < COUNTER_SIZE

/-- I1: `length` equals the number of occupied slots. -/
def I1 (t : Hash Key Val) : Prop := t.length = (entries t.data).length

/-- I2: every occupied slot is reached from its ideal index by linear probing without passing
through an empty slot. -/
def I2 (t : Hash Key Val) : Prop :=
  ∀ i, i < t.capacity → ∀ d ∈ slot t.data i, ∀ j, j < t.capacity →
    cdist t.capacity (ideal t.capacity d) j < cdist t.capacity (ideal t.capacity d) i →
    (slot t.data j).isSome = true

/-- I3: `capacity` is 0 or a power of two. -/
def I3 (t : Hash Key Val) : Prop := t.capacity = 0 ∨ ∃ k, k < 32 ∧ t.capacity = 2 ^ k

/-- I4: no two occupied slots hold equal `(hash, key)` pairs. -/
def I4 (t : Hash Key Val) : Prop :=
  ((entries t.data).map (fun d => (d.hash, d.key))).Nodup

/-- The invariants I1-I4 of a table whose array has `capacity` slots. -/
def Inv (t : Hash Key Val) : Prop := Shape t ∧ I1 t ∧ I2 t ∧ I3 t ∧ I4 t

/-- At least one slot of the array is empty. -/
def HasEmpty (t : Hash Key Val) : Prop :=
  ∃ j, j < t.capacity ∧ (slot t.data j).isSome = false

/-- The key is present: some occupied slot holds an entry with this key and its hash. -/
def Present (hasher : Key → Nat) (t : Hash Key Val) (key : Key) : Prop :=
  ∃ d ∈ entries t.data, d.hash = hasher key ∧ d.key = key

instance (t : Hash Key Val) : Decidable (Shape t) := by unfold Shape; infer_instance
instance (t : Hash Key Val) : Decidable (I1 t) := by unfold I1; infer_instance
instance (t : Hash Key Val) : Decidable (I2 t) := by unfold I2; infer_instance
instance (t : Hash Key Val) : Decidable (I3 t) := by unfold I3; infer_instance
instance (t : Hash Key Val) : Decidable (I4 t) := by unfold I4; infer_instance
instance (t : Hash Key Val) : Decidable (Inv t) := by unfold Inv; infer_instance
instance (t : Hash Key Val) : Decidable (HasEmpty t) := by unfold HasEmpty; infer_instance
instance (hasher : Key → Nat) (t : Hash Key Val) (key : Key) :
    Decidable (Present hasher t key) := by unfold Present; infer_instance

/-- The next index in probe order, `(i + 1) & mask` for `i < capacity`. -/
def next (capacity i : Nat) : Nat := if i + 1 = capacity then 0 else i + 1

/-- Every slot from `x` up to, not including, `i` in probe order is occupied by an entry that
satisfies `p`. -/
def Run (data : List (Option (Data Key Val))) (capacity : Nat) (p : Data Key Val → Prop)
    (x i : Nat) : Prop :=
  ∀ j, j < capacity → cdist capacity x j < cdist capacity x i →
    ∃ e, slot data j = some e ∧ p e

/-- Insert the keys in order with `do_append`; the result is the final table and the entries
the calls returned, in call order. -/
def appends (hasher : Key → Nat) (fuel : Nat) :
    Hash Key Val → List (Key × Val) → Option (Hash Key Val × List (Data Key Val))
  | t, [] => some (t, [])
  | t, kv :: rest =>
    match do_append hasher fuel t kv.1 kv.2 with
    | none => none
    | some (t1, d) =>
      match appends hasher fuel t1 rest with
      | none => none
      | some (t2, ds) => some (t2, d :: ds)

/-- Slot `j` is occupied by an entry whose ideal index is `j` itself. -/
def Placed (data : List (Option (Data Key Val))) (capacity j : Nat) : Prop :=
  ∃ e, slot data j = some e ∧ ideal capacity e = j

/-- The function `find(key)`: the position of the iterator it returns; the position of `end()`
is `capacity`. -/
def find (hasher : Key → Nat) (fuel : Nat) (t : Hash Key Val) (key : Key) : Option Nat :=
  if t.length = 0 then some t.capacity
  else
    match do_find hasher fuel t key with
    | none => none
    | some none => some t.capacity
    | some (some index) => some index

/-- A table of capacity 8 with the keys 1, 9 and 2 (identity hashes): 1 and 9 share the ideal
index 1, so 9 sits in slot 2 and 2 is displaced to slot 3. -/
def sample : Hash Nat Nat :=
  ⟨[none, some ⟨1, 1, 10⟩, some ⟨9, 9, 90⟩, some ⟨2, 2, 20⟩, none, none, none, none], 3, 8⟩

/-- A call of the public interface that the reachability claims range over. -/
inductive Op (Key Val : Type) where
  | append (key : Key) (val : Val)
  | remove (key : Key)
  | reserve (size : Nat)
  | shrink
  | clear
  | destroy

/-- The table after one call. -/
def apply_op (hasher : Key → Nat) (fuel : Nat) (t : Hash Key Val) :
    Op Key Val → Option (Hash Key Val)
  | Op.append key val => (do_append hasher fuel t key val).map (fun r => r.1)
  | Op.remove key => (remove hasher fuel t key).map (fun r => r.1)
  | Op.reserve size => reserve fuel t size
  | Op.shrink => shrink fuel t
  | Op.clear => clear t
  | Op.destroy => some (destroy t)

/-- The table after a sequence of calls, in order. -/
def run (hasher : Key → Nat) (fuel : Nat) : Hash Key Val → List (Op Key Val) →
    Option (Hash Key Val)
  | t, [] => some t
  | t, op :: ops =>
    match apply_op hasher fuel t op with
    | none => none
    | some t1 => run hasher fuel t1 ops

/-- The call is `do_append` or `remove`. -/
def is_append_or_remove : Op Key Val → Bool
  | Op.append _ _ => true
  | Op.remove _ => true
  | _ => false

/-- Bit `n` of `x` is set exactly when one of the bits `n .. n + m - 1` of `w` is set. -/
def Smear (m x w : Nat) : Prop :=
  ∀ n, x.testBit n = true ↔ ∃ j, j < m ∧ w.testBit (n + j) = true

/-- Loop invariant of the second loop of `rehash_data`: `g` is the hole the removal or the last
relocation left, `j` the index the loop is about to visit, `n` the number of probing steps from
`g` to `j` (`n = capacity` when the loop is back at the hole).  The slots strictly between `g`
and `j` are occupied and reachable; every other entry is reachable from its ideal index except
possibly for the hole `g` on its way. -/
structure Repair (data : List (Option (Data Key Val))) (c g j n : Nat) : Prop where
  len : data.length = c
  hg : g < c
  hj : j < c
  hole : slot data g = none
  pos : 0 < n
  at_ : (n < c ∧ cdist c g j = n) ∨ (n = c ∧ j = g)
  block : ∀ y, y < c → 0 < cdist c g y → cdist c g y < n → (slot data y).isSome = true
  weak : ∀ p, p < c → ∀ d ∈ slot data p, ∀ y, y < c →
    cdist c (ideal c d) y < cdist c (ideal c d) p → y ≠ g → (slot data y).isSome = true
  done : ∀ p, p < c → ∀ d ∈ slot data p, 0 < cdist c g p → cdist c g p < n →
    ¬(cdist c (ideal c d) g < cdist c (ideal c d) p)

/-- The table after `do_append` of the keys 1, 2, 3 (identity hashes) on the initial table. -/
def table123 : Hash Nat Nat :=
  ⟨[none, some ⟨1, 1, 10⟩, some ⟨2, 2, 20⟩, some ⟨3, 3, 30⟩, none, none, none, none], 3, 8⟩

/-- The probing loop of `do_find` with the comparison reduced to the key: it ends at an occupied
slot whose key is `key` or at an empty slot. -/
def probe_key (data : List (Option (Data Key Val))) (mask : Nat) (key : Key) :
    Nat → Nat → Option Probe
  | 0, _ => none
  | fuel + 1, index =>
    match data[index]? with
    | none => none
    | some none => some (Probe.empty index)
    | some (some d) =>
      if d.key = key then some (Probe.found index)
      else probe_key data mask key fuel (step index 1 mask)

/-- The lookup that probes like `do_find` but compares keys only. -/
def do_find_key (hasher : Key → Nat) (fuel : Nat) (t : Hash Key Val) (key : Key) :
    Option (Option Nat) :=
  if t.length = 0 then some none
  else
    match probe_key t.data (cmask t.capacity) key fuel (hasher key &&& cmask t.capacity) with
    | none => none
    | some (Probe.found index) => some (some index)
    | some (Probe.empty _) => some none

/-- The loop of `getKeys(keys)`: append the key of every occupied slot `i .. capacity - 1`. -/
def getKeys_loop (data : List (Option (Data Key Val))) :
    Nat → Nat → List Key → Option (List Key)
  | 0, _, keys => some keys
  | n + 1, i, keys =>
    match data[i]? with
    | none => none
    | some none => getKeys_loop data n (i + 1) keys
    | some (some d) => getKeys_loop data n (i + 1) (keys ++ [d.key])

/-- The function `keys()`. -/
def keys (t : Hash Key Val) : Option (List Key) :=
  getKeys_loop t.data t.capacity 0 []

/-- The test `is_need_realloc()` as a function of `length` and `capacity`. -/
def grow_test (length capacity : Nat) : Bool :=
  decide (HASH_LOAD_FACTOR ≤ fdiv (float_of (cinc length)) (float_of (cinc capacity)))

/-- The capacity after `n` further insertions of new keys into a table with the given `length`
and `capacity`: each insertion doubles the capacity when `is_need_realloc()` holds after it. -/
def capacity_after : Nat → Nat → Nat → Nat
  | _, capacity, 0 => capacity
  | length, capacity, n + 1 =>
    capacity_after (length + 1)
      (if grow_test (length + 1) capacity then 2 * capacity else capacity) n

/-! ## Iteration

An iterator is the position `ptr` of its slot pointer, an index into the array; its `end`
member and the iterator `end()` are at the position `capacity`. -/

/-- The function `end()`. -/
def end_ (t : Hash Key Val) : Nat := t.capacity

/-- The loop `while (ptr != end && *ptr == nullptr) ptr++;` of `begin()`. -/
def begin_loop (data : List (Option (Data Key Val))) (end_pos : Nat) : Nat → Nat → Option Nat
  | 0, _ => none
  | fuel + 1, ptr =>
    if ptr = end_pos then some ptr
    else
      match data[ptr]? with
      | none => none
      | some none => begin_loop data end_pos fuel (ptr + 1)
      | some (some _) => some ptr

/-- The function `begin()`. -/
def begin (fuel : Nat) (t : Hash Key Val) : Option Nat :=
  begin_loop t.data t.capacity fuel 0

/-- The loop `while (++ptr != end && *ptr == nullptr);` of `IteratorTemplate::next()`. -/
def next_loop (data : List (Option (Data Key Val))) (end_pos : Nat) : Nat → Nat → Option Nat
  | 0, _ => none
  | fuel + 1, ptr =>
    if ptr + 1 = end_pos then some (ptr + 1)
    else
      match data[ptr + 1]? with
      | none => none
      | some none => next_loop data end_pos fuel (ptr + 1)
      | some (some _) => some (ptr + 1)

/-- The function `IteratorTemplate::next()` (`operator++`) on an iterator of the table. -/
def iterator_next (fuel : Nat) (t : Hash Key Val) (ptr : Nat) : Option Nat :=
  if ptr < t.capacity then next_loop t.data t.capacity fuel ptr else some ptr

/-- The loop `for (it = begin(); it != end(); ++it)`: the positions it visits, in order. -/
def iterate_loop (fuel0 : Nat) (t : Hash Key Val) : Nat → Nat → List Nat → Option (List Nat)
  | 0, _, _ => none
  | fuel + 1, ptr, visited =>
    if ptr = end_ t then some visited
    else
      match iterator_next fuel0 t ptr with
      | none => none
      | some ptr1 => iterate_loop fuel0 t fuel ptr1 (visited ++ [ptr])

/-- Iterating from `begin()` with `operator++` until the iterator equals `end()`. -/
def iterate (fuel : Nat) (t : Hash Key Val) : Option (List Nat) :=
  match begin fuel t with
  | none => none
  | some ptr => iterate_loop fuel t fuel ptr []

/-! ## Rehash as the specification words it -/

/-- Spec wording: the first empty slot found by linear probing from `start` in an array of
`capacity` slots, that is the first of `start`, `start + 1`, ... (wrapping around at `capacity`)
whose slot is empty. -/
def first_empty (data : List (Option (Data Key Val))) (capacity start : Nat) : Option Nat :=
  ((List.range capacity).map (fun o => (start + o) % capacity)).find?
    (fun j => (slot data j).isNone)

/-- Spec wording: re-insert the entries, in the order given, each at the first empty slot found
by linear probing from `hash & (capacity - 1)`. -/
def place_in_order (capacity : Nat) :
    List (Data Key Val) → List (Option (Data Key Val)) → Option (List (Option (Data Key Val)))
  | [], data => some data
  | d :: rest, data =>
    match first_empty data capacity (d.hash &&& (capacity - 1)) with
    | none => none
    | some j => place_in_order capacity rest (data.set j (some d))

/-- Spec wording of `rehash(new_capacity)`: a fresh array of `new_capacity` empty slots into
which the entries are re-inserted in old physical slot order; `length` is kept. -/
def rehash_by_words (t : Hash Key Val) (new_capacity : Nat) : Option (Hash Key Val) :=
  (place_in_order new_capacity (entries t.data) (List.replicate new_capacity none)).map
    (fun new_data => ⟨new_data, t.length, new_capacity⟩)

/-! ## The repair walk as the specification words it -/

/-- Spec wording: advance one slot at a time while the slot is occupied and the ideal index
`hash & mask` of its entry equals its physical index; the result is the index the walk stops
at. -/
def walk_placed (data : List (Option (Data Key Val))) (capacity : Nat) : Nat → Nat → Option Nat
  | 0, _ => none
  | fuel + 1, i =>
    match slot data i with
    | none => some i
    | some d =>
      if d.hash &&& (capacity - 1) = i then walk_placed data capacity fuel ((i + 1) % capacity)
      else some i

/-- Spec wording: until the first empty slot, vacate each occupied slot and re-insert its entry
at the first empty slot found by linear probing from its ideal index. -/
def walk_reinsert (capacity : Nat) :
    Nat → List (Option (Data Key Val)) → Nat → Option (List (Option (Data Key Val)))
  | 0, _, _ => none
  | fuel + 1, data, i =>
    match slot data i with
    | none => some data
    | some d =>
      match first_empty (data.set i none) capacity (d.hash &&& (capacity - 1)) with
      | none => none
      | some j =>
        walk_reinsert capacity fuel ((data.set i none).set j (some d)) ((i + 1) % capacity)

/-- Spec wording of the repair after vacating `index`: the single-step walk from `index + 1`. -/
def rehash_data_single (fuel : Nat) (data : List (Option (Data Key Val)))
    (capacity index : Nat) : Option (List (Option (Data Key Val))) :=
  match walk_placed data capacity fuel ((index + 1) % capacity) with
  | none => none
  | some i => walk_reinsert capacity fuel data i

/-- Total displacement of the entries of `data`, whose first slot has index `i`: the sum over
the occupied slots of the number of probing steps from the ideal index to the slot. -/
def disp (c : Nat) : Nat → List (Option (Data Key Val)) → Nat
  | _, [] => 0
  | i, none :: xs => disp c (i + 1) xs
  | i, some d :: xs => cdist c (ideal c d) i + disp c (i + 1) xs

/-- The function `erase(it)` for an iterator at position `ptr`: the table afterwards and the
position of the returned iterator. Reading `it->hash` fails on an empty slot. -/
def erase (fuel : Nat) (t : Hash Key Val) (ptr : Nat) : Option (Hash Key Val × Nat) :=
  match t.data[ptr]? with
  | none => none
  | some none => none
  | some (some d) =>
    match do_remove fuel t d.hash d.key with
    | none => none
    | some (t1, _) =>
      match t1.data[ptr]? with
      | none => none
      | some (some _) => some (t1, ptr)
      | some none =>
        match iterator_next fuel t1 ptr with
        | none => none
        | some ptr1 => some (t1, ptr1)

/-- A table whose cluster wraps around the end of the array: the keys 7, 15, 1, 2 (hash = key)
inserted in this order into the initial table. -/
def wrapped : Hash Nat Nat :=
  ⟨[some ⟨15, 15, 0⟩, some ⟨1, 1, 0⟩, some ⟨2, 2, 0⟩, none, none, none, none, some ⟨7, 7, 0⟩],
    4, 8⟩

/-- Spec wording of where the repair is said to stop: walking forward from `i`, the first slot
that is empty or holds an entry whose ideal index equals its physical index. -/
def stop_slot (data : List (Option (Data Key Val))) (capacity : Nat) : Nat → Nat → Option Nat
  | 0, _ => none
  | fuel + 1, i =>
    match slot data i with
    | none => some i
    | some d =>
      if d.hash &&& (capacity - 1) = i then some i
      else stop_slot data capacity fuel ((i + 1) % capacity)

/-- The table after `do_append` of the keys 0, 1, 8 (hash = key) on the initial table: the
entry of key 8 has ideal index 0 and sits in slot 2, behind the entry of key 1 in slot 1. -/
def crowded : Hash Nat Nat :=
  ⟨[some ⟨0, 0, 0⟩, some ⟨1, 1, 0⟩, some ⟨8, 8, 0⟩, none, none, none, none, none], 3, 8⟩

/-- Spec wording: the full-table scan for a key: the first slot of the array, in physical
order, that holds an entry with this key and the hash of this key. -/
def find_by_scan (hasher : Key → Nat) (t : Hash Key Val) (key : Key) : Option Nat :=
  (List.range t.capacity).find? (fun i =>
    match slot t.data i with
    | none => false
    | some d => decide (d.hash = hasher key ∧ d.key = key))

/-- The loop `while (it != end()) it = erase(it);` from the iterator position `it`: the states
(table and iterator position) at each test of the loop condition, in order. -/
def erase_loop (fuel0 : Nat) : Nat → Hash Key Val → Nat → Option (List (Hash Key Val × Nat))
  | 0, _, _ => none
  | fuel + 1, t, it =>
    if it = end_ t then some [(t, it)]
    else
      match erase fuel0 t it with
      | none => none
      | some (t1, it1) =>
        match erase_loop fuel0 fuel t1 it1 with
        | none => none
        | some rest => some ((t, it) :: rest)

/-- The erase-while-iterating loop `it = begin(); while (it != end()) it = erase(it);`. -/
def erase_all (fuel : Nat) (t : Hash Key Val) : Option (List (Hash Key Val × Nat)) :=
  match begin fuel t with
  | none => none
  | some it => erase_loop fuel fuel t it

/-! # Proofs -/

set_option linter.unusedSectionVars false
set_option linter.unusedVariables false

/-! ## Counter and mask arithmetic -/

theorem cdec_pos {c : Nat} (h0 : 0 < c) (h : c < COUNTER_SIZE) : cdec c = c - 1 := by
  unfold cdec COUNTER_SIZE at *
  omega

theorem cinc_small {c : Nat} (h : c + 1 < COUNTER_SIZE) : cinc c = c + 1 := by
  unfold cinc
  exact Nat.mod_eq_of_lt h

theorem pow_lt_counter {k : Nat} (hk : k < 32) : 2 ^ k < COUNTER_SIZE := by
  unfold COUNTER_SIZE
  exact Nat.pow_lt_pow_right (by norm_num) hk

theorem land_cmask {k : Nat} (hk : k < 32) (x : Nat) : x &&& cmask (2 ^ k) = x % 2 ^ k := by
  unfold cmask
  rw [cdec_pos (Nat.pos_pow_of_pos k (by norm_num)) (pow_lt_counter hk)]
  exact Nat.and_pow_two_sub_one_eq_mod x k

theorem step_eq {k : Nat} (hk : k < 32) {i j : Nat} (hi : i < 2 ^ k) (hj : j ≤ 7) :
    step i j (cmask (2 ^ k)) = (i + j) % 2 ^ k := by
  unfold step
  rw [land_cmask hk]
  have h1 : 2 ^ k ≤ 2 ^ 31 := Nat.pow_le_pow_right (by norm_num) (by omega)
  have h2 : i + j < COUNTER_SIZE := by
    unfold COUNTER_SIZE
    norm_num at h1 ⊢
    omega
  rw [Nat.mod_eq_of_lt h2]

theorem step_one {k : Nat} (hk : k < 32) {i : Nat} (hi : i < 2 ^ k) :
    step i 1 (cmask (2 ^ k)) = next (2 ^ k) i := by
  rw [step_eq hk hi (by norm_num)]
  unfold next
  split
  · next h => rw [h]; exact Nat.mod_self _
  · next h => exact Nat.mod_eq_of_lt (by omega)

theorem ideal_lt {k : Nat} (hk : k < 32) (d : Data Key Val) : ideal (2 ^ k) d < 2 ^ k := by
  unfold ideal
  rw [land_cmask hk]
  exact Nat.mod_lt _ (Nat.pos_pow_of_pos k (by norm_num))

/-! ## Slots and entries -/

theorem slot_eq_of_get {data : List (Option (Data Key Val))} {i : Nat}
    {x : Option (Data Key Val)} (h : data[i]? = some x) : slot data i = x := by
  simp [slot, h]

theorem get_eq_slot {data : List (Option (Data Key Val))} {i : Nat} (h : i < data.length) :
    data[i]? = some (slot data i) := by
  simp [slot, List.getElem?_eq_getElem h]

theorem slot_none_of_ge {data : List (Option (Data Key Val))} {i : Nat}
    (h : data.length ≤ i) : slot data i = none := by
  simp [slot, List.getElem?_eq_none h]

theorem slot_set_self {data : List (Option (Data Key Val))} {i : Nat}
    (v : Option (Data Key Val)) (h : i < data.length) : slot (data.set i v) i = v := by
  simp [slot, List.getElem?_set_self h]

theorem slot_set_ne {data : List (Option (Data Key Val))} {i j : Nat}
    (v : Option (Data Key Val)) (h : i ≠ j) : slot (data.set i v) j = slot data j := by
  simp [slot, List.getElem?_set_ne h]

theorem slot_cons_succ (x : Option (Data Key Val)) (data : List (Option (Data Key Val)))
    (i : Nat) : slot (x :: data) (i + 1) = slot data i := by
  simp [slot]

theorem slot_cons_zero (x : Option (Data Key Val)) (data : List (Option (Data Key Val))) :
    slot (x :: data) 0 = x := by
  simp [slot]

theorem entries_cons_none (data : List (Option (Data Key Val))) :
    entries (none :: data) = entries data := by
  simp [entries]

theorem entries_cons_some (d : Data Key Val) (data : List (Option (Data Key Val))) :
    entries (some d :: data) = d :: entries data := by
  simp [entries]

theorem mem_entries {data : List (Option (Data Key Val))} {d : Data Key Val} :
    d ∈ entries data ↔ ∃ i, i < data.length ∧ slot data i = some d := by
  induction data with
  | nil => simp [entries]
  | cons x xs ih =>
    constructor
    · intro h
      cases x with
      | none =>
        rw [entries_cons_none] at h
        obtain ⟨i, hi, hs⟩ := ih.mp h
        exact ⟨i + 1, by simpa using hi, by rw [slot_cons_succ]; exact hs⟩
      | some e =>
        rw [entries_cons_some] at h
        rcases List.mem_cons.mp h with h | h
        · exact ⟨0, by simp, by rw [slot_cons_zero, h]⟩
        · obtain ⟨i, hi, hs⟩ := ih.mp h
          exact ⟨i + 1, by simpa using hi, by rw [slot_cons_succ]; exact hs⟩
    · rintro ⟨i, hi, hs⟩
      cases i with
      | zero =>
        rw [slot_cons_zero] at hs
        subst hs
        rw [entries_cons_some]
        exact List.mem_cons_self _ _
      | succ i =>
        rw [slot_cons_succ] at hs
        have hm : d ∈ entries xs := ih.mpr ⟨i, by simpa using hi, hs⟩
        cases x with
        | none => rw [entries_cons_none]; exact hm
        | some e => rw [entries_cons_some]; exact List.mem_cons_of_mem _ hm

theorem entries_set_some {data : List (Option (Data Key Val))} {i : Nat} (d : Data Key Val)
    (hi : i < data.length) (hs : slot data i = none) :
    (entries (data.set i (some d))).Perm (d :: entries data) := by
  induction data generalizing i with
  | nil => simp at hi
  | cons x xs ih =>
    cases i with
    | zero =>
      rw [slot_cons_zero] at hs
      subst hs
      simp [entries]
    | succ i =>
      rw [slot_cons_succ] at hs
      have h := ih (by simpa using hi) hs
      cases x with
      | none => simpa [entries] using h
      | some e =>
        simp only [List.set_cons_succ, entries_cons_some]
        exact (List.Perm.cons e h).trans (List.Perm.swap d e _)

theorem entries_set_none {data : List (Option (Data Key Val))} {i : Nat} {d : Data Key Val}
    (hs : slot data i = some d) :
    (d :: entries (data.set i none)).Perm (entries data) := by
  induction data generalizing i with
  | nil => simp [slot] at hs
  | cons x xs ih =>
    cases i with
    | zero =>
      rw [slot_cons_zero] at hs
      subst hs
      simp [entries]
    | succ i =>
      rw [slot_cons_succ] at hs
      have h := ih hs
      cases x with
      | none => simpa [entries] using h
      | some e =>
        simp only [List.set_cons_succ, entries_cons_some]
        exact (List.Perm.swap e d _).trans (List.Perm.cons e h)

theorem slot_inj {β : Type} {f : Data Key Val → β} {data : List (Option (Data Key Val))}
    (hn : ((entries data).map f).Nodup) {i j : Nat} {d e : Data Key Val}
    (hi : slot data i = some d) (hj : slot data j = some e) (hf : f d = f e) : i = j := by
  induction data generalizing i j with
  | nil => simp [slot] at hi
  | cons x xs ih =>
    have hlen : ∀ {a : Nat} {c : Data Key Val}, slot xs a = some c → c ∈ entries xs := by
      intro a c h
      refine mem_entries.mpr ⟨a, ?_, h⟩
      by_contra hge
      rw [slot_none_of_ge (by omega)] at h
      cases h
    cases x with
    | none =>
      rw [entries_cons_none] at hn
      cases i with
      | zero => simp [slot] at hi
      | succ i =>
        cases j with
        | zero => simp [slot] at hj
        | succ j =>
          rw [slot_cons_succ] at hi hj
          rw [ih hn hi hj]
    | some c =>
      rw [entries_cons_some, List.map_cons, List.nodup_cons] at hn
      cases i with
      | zero =>
        cases j with
        | zero => rfl
        | succ j =>
          rw [slot_cons_zero] at hi
          rw [slot_cons_succ] at hj
          cases hi
          exact absurd (hf ▸ List.mem_map_of_mem f (hlen hj)) hn.1
      | succ i =>
        cases j with
        | zero =>
          rw [slot_cons_zero] at hj
          rw [slot_cons_succ] at hi
          cases hj
          exact absurd (hf ▸ List.mem_map_of_mem f (hlen hi)) hn.1
        | succ j =>
          rw [slot_cons_succ] at hi hj
          rw [ih hn.2 hi hj]

/-! ## The probing loops -/

theorem next_lt {c i : Nat} (hi : i < c) : next c i < c := by
  unfold next
  split <;> omega

theorem run_step {data : List (Option (Data Key Val))} {c : Nat} {p : Data Key Val → Prop}
    {x i : Nat} {e : Data Key Val} (hx : x < c) (hi : i < c) (hxi : x ≠ i)
    (hs : slot data x = some e) (hp : p e) (h : Run data c p (next c x) i) :
    Run data c p x i := by
  intro j hj hd
  by_cases hjx : j = x
  · subst hjx
    exact ⟨e, hs, hp⟩
  · apply h j hj
    unfold cdist next at *
    split_ifs at * <;> omega

theorem run_self (data : List (Option (Data Key Val))) (c : Nat) (p : Data Key Val → Prop)
    (x : Nat) : Run data c p x x := by
  intro j hj hd
  unfold cdist at hd
  split_ifs at hd <;> omega

theorem probe_sound {k : Nat} (hk : k < 32) {data : List (Option (Data Key Val))}
    (hlen : data.length = 2 ^ k) (hash : Nat) (key : Key) :
    ∀ (fuel x : Nat) (r : Probe), x < 2 ^ k →
      probe data (cmask (2 ^ k)) hash key fuel x = some r →
      (∀ i, r = Probe.found i → i < 2 ^ k ∧
        (∃ d, slot data i = some d ∧ d.hash = hash ∧ d.key = key) ∧
        Run data (2 ^ k) (fun e => ¬(e.hash = hash ∧ e.key = key)) x i) ∧
      (∀ i, r = Probe.empty i → i < 2 ^ k ∧ slot data i = none ∧
        Run data (2 ^ k) (fun e => ¬(e.hash = hash ∧ e.key = key)) x i) := by
  intro fuel
  induction fuel with
  | zero => intro x r _ h; simp [probe] at h
  | succ fuel ih =>
    intro x r hx h
    rw [probe, get_eq_slot (by omega)] at h
    cases hs : slot data x with
    | none =>
      rw [hs] at h
      simp only [Option.some.injEq] at h
      subst h
      refine ⟨fun i hi => (by cases hi), fun i hi => ?_⟩
      cases hi
      exact ⟨hx, hs, run_self _ _ _ _⟩
    | some d =>
      rw [hs] at h
      simp only at h
      split_ifs at h with hm
      · simp only [Option.some.injEq] at h
        subst h
        refine ⟨fun i hi => ?_, fun i hi => (by cases hi)⟩
        cases hi
        exact ⟨hx, ⟨d, hs, hm.1, hm.2⟩, run_self _ _ _ _⟩
      · rw [step_one hk hx] at h
        obtain ⟨h1, h2⟩ := ih (next (2 ^ k) x) r (next_lt hx) h
        refine ⟨fun i hi => ?_, fun i hi => ?_⟩
        · obtain ⟨a, ⟨e, he, hme⟩, c⟩ := h1 i hi
          have hne : x ≠ i := by
            rintro rfl
            rw [hs] at he
            cases he
            exact hm ⟨hme.1, hme.2⟩
          exact ⟨a, ⟨e, he, hme⟩, run_step hx a hne hs hm c⟩
        · obtain ⟨a, he, c⟩ := h2 i hi
          have hne : x ≠ i := by
            rintro rfl
            rw [hs] at he
            cases he
          exact ⟨a, he, run_step hx a hne hs hm c⟩

theorem probe_total {k : Nat} (hk : k < 32) {data : List (Option (Data Key Val))}
    (hlen : data.length = 2 ^ k) (hash : Nat) (key : Key) {E : Nat} (hE : E < 2 ^ k)
    (hEs : slot data E = none) :
    ∀ (fuel x : Nat), x < 2 ^ k → cdist (2 ^ k) x E < fuel →
      ∃ r, probe data (cmask (2 ^ k)) hash key fuel x = some r := by
  intro fuel
  induction fuel with
  | zero => intro x _ h; omega
  | succ fuel ih =>
    intro x hx hf
    rw [probe, get_eq_slot (by omega)]
    cases hs : slot data x with
    | none => exact ⟨_, rfl⟩
    | some d =>
      simp only
      split_ifs with hm
      · exact ⟨_, rfl⟩
      · rw [step_one hk hx]
        apply ih _ (next_lt hx)
        have hne : x ≠ E := by
          rintro rfl
          rw [hs] at hEs
          cases hEs
        unfold cdist next at *
        split_ifs at * <;> omega

theorem find_empty_sound {k : Nat} (hk : k < 32) {data : List (Option (Data Key Val))}
    (hlen : data.length = 2 ^ k) :
    ∀ (fuel x i : Nat), x < 2 ^ k →
      find_empty data (cmask (2 ^ k)) fuel x = some i →
      i < 2 ^ k ∧ slot data i = none ∧ Run data (2 ^ k) (fun _ => True) x i := by
  intro fuel
  induction fuel with
  | zero => intro x i _ h; simp [find_empty] at h
  | succ fuel ih =>
    intro x i hx h
    rw [find_empty, get_eq_slot (by omega)] at h
    cases hs : slot data x with
    | none =>
      rw [hs] at h
      simp only [Option.some.injEq] at h
      subst h
      exact ⟨hx, hs, run_self _ _ _ _⟩
    | some d =>
      rw [hs] at h
      simp only at h
      rw [step_one hk hx] at h
      obtain ⟨a, he, c⟩ := ih (next (2 ^ k) x) i (next_lt hx) h
      have hne : x ≠ i := by
        rintro rfl
        rw [hs] at he
        cases he
      exact ⟨a, he, run_step hx a hne hs trivial c⟩

theorem find_empty_total {k : Nat} (hk : k < 32) {data : List (Option (Data Key Val))}
    (hlen : data.length = 2 ^ k) {E : Nat} (hE : E < 2 ^ k) (hEs : slot data E = none) :
    ∀ (fuel x : Nat), x < 2 ^ k → cdist (2 ^ k) x E < fuel →
      ∃ i, find_empty data (cmask (2 ^ k)) fuel x = some i := by
  intro fuel
  induction fuel with
  | zero => intro x _ h; omega
  | succ fuel ih =>
    intro x hx hf
    rw [find_empty, get_eq_slot (by omega)]
    cases hs : slot data x with
    | none => exact ⟨_, rfl⟩
    | some d =>
      simp only
      rw [step_one hk hx]
      apply ih _ (next_lt hx)
      have hne : x ≠ E := by
        rintro rfl
        rw [hs] at hEs
        cases hEs
      unfold cdist next at *
      split_ifs at * <;> omega

/-! ## Lookup on a table that satisfies the invariants -/

theorem cdist_lt {c a b : Nat} (ha : a < c) (hb : b < c) : cdist c a b < c := by
  unfold cdist
  split_ifs <;> omega

theorem Inv.pow {t : Hash Key Val} (h : Inv t) (h0 : t.capacity ≠ 0) :
    ∃ k, k < 32 ∧ t.capacity = 2 ^ k ∧ t.data.length = 2 ^ k := by
  obtain ⟨hs, _, _, h3, _⟩ := h
  rcases h3 with h3 | ⟨k, hk, h3⟩
  · exact absurd h3 h0
  · exact ⟨k, hk, h3, by rw [hs.1, h3]⟩

theorem mem_entries_slot {data : List (Option (Data Key Val))} {i : Nat} {d : Data Key Val}
    (h : slot data i = some d) : d ∈ entries data ∧ i < data.length := by
  have hi : i < data.length := by
    by_contra hge
    rw [slot_none_of_ge (by omega)] at h
    cases h
  exact ⟨mem_entries.mpr ⟨i, hi, h⟩, hi⟩

theorem capacity_ne_zero_of_slot {t : Hash Key Val} (h : Inv t) {i : Nat} {d : Data Key Val}
    (hs : slot t.data i = some d) : t.capacity ≠ 0 := by
  have := (mem_entries_slot hs).2
  have := h.1.1
  omega

theorem length_ne_zero_of_slot {t : Hash Key Val} (h : Inv t) {i : Nat} {d : Data Key Val}
    (hs : slot t.data i = some d) : t.length ≠ 0 := by
  have hm := (mem_entries_slot hs).1
  have h1 : t.length = (entries t.data).length := h.2.1
  rw [h1]
  exact fun h0 => by rw [List.length_eq_zero.mp h0] at hm; cases hm

theorem probe_present {t : Hash Key Val} (hinv : Inv t) (hE : HasEmpty t) {i : Nat}
    {d : Data Key Val} (hs : slot t.data i = some d) {fuel : Nat} (hf : t.capacity ≤ fuel) :
    probe t.data (cmask t.capacity) d.hash d.key fuel (d.hash &&& cmask t.capacity)
      = some (Probe.found i) := by
  obtain ⟨k, hk, hc, hlen⟩ := hinv.pow (capacity_ne_zero_of_slot hinv hs)
  obtain ⟨E, hEc, hEs⟩ := hE
  rw [hc] at hEc hf ⊢
  have hEs0 : slot t.data E = none := by
    cases h : slot t.data E with
    | none => rfl
    | some e => rw [h] at hEs; cases hEs
  have hi : i < 2 ^ k := by rw [← hlen]; exact (mem_entries_slot hs).2
  have hx : d.hash &&& cmask (2 ^ k) < 2 ^ k := ideal_lt hk d
  obtain ⟨r, hr⟩ := probe_total hk hlen d.hash d.key hEc hEs0 fuel _ hx
    (lt_of_lt_of_le (cdist_lt hx hEc) hf)
  obtain ⟨h1, h2⟩ := probe_sound hk hlen d.hash d.key fuel _ r hx hr
  rw [hr]
  cases r with
  | found i' =>
    obtain ⟨_, ⟨d', hd', hh, hkk⟩, _⟩ := h1 i' rfl
    have h4 : I4 t := hinv.2.2.2.2
    have : i' = i := slot_inj (f := fun d => (d.hash, d.key)) h4 hd' hs (by simp [hh, hkk])
    rw [this]
  | empty e =>
    exfalso
    obtain ⟨he, hes, hrun⟩ := h2 e rfl
    have h2' : I2 t := hinv.2.2.1
    have hlt : cdist (2 ^ k) (d.hash &&& cmask (2 ^ k)) i
        < cdist (2 ^ k) (d.hash &&& cmask (2 ^ k)) e := by
      by_contra hge
      have hne : e ≠ i := by
        rintro rfl
        rw [hs] at hes
        cases hes
      have hlt' : cdist (2 ^ k) (d.hash &&& cmask (2 ^ k)) e
          < cdist (2 ^ k) (d.hash &&& cmask (2 ^ k)) i := by
        unfold cdist at *
        split_ifs at * <;> omega
      have := h2' i (by rw [hc]; exact hi) d (by simp [hs]) e (by rw [hc]; exact he)
        (by rw [hc]; exact hlt')
      rw [hes] at this
      cases this
    obtain ⟨e', he', hne'⟩ := hrun i hi hlt
    rw [hs] at he'
    cases he'
    exact hne' ⟨rfl, rfl⟩

theorem probe_absent {t : Hash Key Val} (hinv : Inv t) (hE : HasEmpty t) (hash : Nat) (key : Key)
    (habs : ∀ d ∈ entries t.data, ¬(d.hash = hash ∧ d.key = key))
    {fuel : Nat} (hf : t.capacity ≤ fuel) :
    ∃ e, probe t.data (cmask t.capacity) hash key fuel (hash &&& cmask t.capacity)
        = some (Probe.empty e) ∧ e < t.capacity ∧ slot t.data e = none ∧
      Run t.data t.capacity (fun _ => True) (hash &&& cmask t.capacity) e := by
  obtain ⟨E, hEc, hEs⟩ := hE
  obtain ⟨k, hk, hc, hlen⟩ := hinv.pow (by omega)
  rw [hc] at hEc hf ⊢
  have hEs0 : slot t.data E = none := by
    cases h : slot t.data E with
    | none => rfl
    | some e => rw [h] at hEs; cases hEs
  have hx : hash &&& cmask (2 ^ k) < 2 ^ k := by
    rw [land_cmask hk]
    exact Nat.mod_lt _ (Nat.pos_pow_of_pos k (by norm_num))
  obtain ⟨r, hr⟩ := probe_total hk hlen hash key hEc hEs0 fuel _ hx
    (lt_of_lt_of_le (cdist_lt hx hEc) hf)
  obtain ⟨h1, h2⟩ := probe_sound hk hlen hash key fuel _ r hx hr
  cases r with
  | found i' =>
    obtain ⟨_, ⟨d', hd', hh, hkk⟩, _⟩ := h1 i' rfl
    exact absurd ⟨hh, hkk⟩ (habs d' (mem_entries_slot hd').1)
  | empty e =>
    obtain ⟨he, hes, hrun⟩ := h2 e rfl
    refine ⟨e, hr, he, hes, ?_⟩
    intro j hj hd
    obtain ⟨e', he', _⟩ := hrun j hj hd
    exact ⟨e', he', trivial⟩

/-! ## Filling an empty slot and `rehash` -/

theorem slot_isSome_false {data : List (Option (Data Key Val))} {j : Nat} :
    (slot data j).isSome = false ↔ slot data j = none := by
  cases slot data j <;> simp

theorem exists_empty_of_lt {data : List (Option (Data Key Val))}
    (h : (entries data).length < data.length) :
    ∃ j, j < data.length ∧ slot data j = none := by
  induction data with
  | nil => simp at h
  | cons x xs ih =>
    cases x with
    | none => exact ⟨0, by simp, slot_cons_zero _ _⟩
    | some e =>
      rw [entries_cons_some] at h
      obtain ⟨j, hj, hs⟩ := ih (by simpa using h)
      exact ⟨j + 1, by simpa using hj, by rw [slot_cons_succ]; exact hs⟩

theorem entries_length_le (data : List (Option (Data Key Val))) :
    (entries data).length ≤ data.length := by
  unfold entries
  exact List.length_filterMap_le _ _

theorem entries_length_lt {data : List (Option (Data Key Val))} {j : Nat}
    (hj : j < data.length) (hs : slot data j = none) :
    (entries data).length < data.length := by
  induction data generalizing j with
  | nil => simp at hj
  | cons x xs ih =>
    cases j with
    | zero =>
      rw [slot_cons_zero] at hs
      subst hs
      rw [entries_cons_none]
      have := entries_length_le xs
      simp only [List.length_cons]
      omega
    | succ j =>
      rw [slot_cons_succ] at hs
      have := ih (by simpa using hj) hs
      cases x with
      | none => rw [entries_cons_none]; simp only [List.length_cons]; omega
      | some e => rw [entries_cons_some]; simp only [List.length_cons]; omega

theorem I2_set_some {data : List (Option (Data Key Val))} {l l' c e : Nat} {d : Data Key Val}
    (h2 : I2 (⟨data, l, c⟩ : Hash Key Val)) (hlen : data.length = c) (he : e < c)
    (hes : slot data e = none) (hrun : Run data c (fun _ => True) (ideal c d) e) :
    I2 (⟨data.set e (some d), l', c⟩ : Hash Key Val) := by
  intro i hi d' hd' j hj hdist
  simp only at hi hd' hj hdist ⊢
  by_cases hje : e = j
  · subst hje
    rw [slot_set_self _ (by omega)]
    rfl
  · rw [slot_set_ne _ hje]
    by_cases hie : e = i
    · subst hie
      rw [slot_set_self _ (by omega)] at hd'
      cases hd'
      obtain ⟨x, hx, _⟩ := hrun j hj hdist
      rw [hx]
      rfl
    · rw [slot_set_ne _ hie] at hd'
      exact h2 i hi d' hd' j hj hdist

theorem entries_drop {data : List (Option (Data Key Val))} {i : Nat} (hi : i < data.length) :
    entries (data.drop i) =
      (match slot data i with | none => [] | some d => [d]) ++ entries (data.drop (i + 1)) := by
  rw [List.drop_eq_getElem_cons hi]
  have : slot data i = data[i] := by simp [slot, List.getElem?_eq_getElem hi]
  rw [this]
  cases data[i] with
  | none => simp [entries]
  | some d => simp [entries]

theorem rehash_loop_spec {k : Nat} (hk : k < 32) (data : List (Option (Data Key Val)))
    {fuel : Nat} (hf : 2 ^ k ≤ fuel) :
    ∀ (n i : Nat) (new_data : List (Option (Data Key Val))), i + n = data.length →
      new_data.length = 2 ^ k → I2 (⟨new_data, 0, 2 ^ k⟩ : Hash Key Val) →
      (entries new_data).length + (entries (data.drop i)).length ≤ 2 ^ k →
      ∃ nd, rehash_loop fuel data (cmask (2 ^ k)) n i new_data = some nd ∧
        nd.length = 2 ^ k ∧ I2 (⟨nd, 0, 2 ^ k⟩ : Hash Key Val) ∧
        (entries nd).Perm (entries new_data ++ entries (data.drop i)) := by
  intro n
  induction n with
  | zero =>
    intro i nd hi hlen h2 _
    refine ⟨nd, rfl, hlen, h2, ?_⟩
    rw [List.drop_of_length_le (by omega)]
    simp [entries]
  | succ n ih =>
    intro i nd hi hlen h2 hroom
    have hil : i < data.length := by omega
    rw [rehash_loop, get_eq_slot hil]
    rw [entries_drop hil] at hroom ⊢
    cases hs : slot data i with
    | none =>
      rw [hs] at hroom
      simp only [List.nil_append] at hroom ⊢
      exact ih (i + 1) nd (by omega) hlen h2 hroom
    | some d =>
      rw [hs] at hroom
      simp only [List.length_append, List.length_cons, List.length_nil] at hroom
      simp only
      have hroom' : (entries nd).length < nd.length := by omega
      obtain ⟨E, hE, hEs⟩ := exists_empty_of_lt hroom'
      rw [hlen] at hE
      have hx : d.hash &&& cmask (2 ^ k) < 2 ^ k := ideal_lt hk d
      obtain ⟨e, he⟩ := find_empty_total hk hlen hE hEs fuel _ hx
        (lt_of_lt_of_le (cdist_lt hx hE) hf)
      obtain ⟨hec, hes, hrun⟩ := find_empty_sound hk hlen fuel _ e hx he
      rw [he]
      simp only [store, hlen, hec, if_true]
      have hperm := entries_set_some d (by omega : e < nd.length) hes
      obtain ⟨nd', h1, h3, h4, h5⟩ := ih (i + 1) (nd.set e (some d)) (by omega)
        (by simp [hlen]) (I2_set_some h2 hlen hec hes hrun)
        (by rw [hperm.length_eq]; simp only [List.length_cons]; omega)
      refine ⟨nd', h1, h3, h4, h5.trans ?_⟩
      refine (List.Perm.append_right _ hperm).trans ?_
      simp only [List.cons_append, List.nil_append]
      exact List.perm_middle.symm

theorem slot_replicate (n i : Nat) :
    slot (List.replicate n (none : Option (Data Key Val))) i = none := by
  unfold slot
  by_cases h : i < n
  · simp [List.getElem?_replicate, h]
  · simp [List.getElem?_replicate, h]

theorem entries_replicate (n : Nat) :
    entries (List.replicate n (none : Option (Data Key Val))) = [] := by
  induction n with
  | zero => rfl
  | succ n ih => rw [List.replicate_succ, entries_cons_none, ih]

theorem hasEmpty_iff {t : Hash Key Val} (hs : Shape t) (h1 : I1 t) :
    HasEmpty t ↔ t.length < t.capacity := by
  unfold I1 at h1
  constructor
  · rintro ⟨j, hj, hjs⟩
    rw [h1, ← hs.1]
    exact entries_length_lt (by rw [hs.1]; exact hj) (slot_isSome_false.mp hjs)
  · intro h
    have hlt' : (entries t.data).length < t.data.length := by rw [← h1, hs.1]; exact h
    obtain ⟨j, hj, hjs⟩ := exists_empty_of_lt hlt'
    exact ⟨j, by rw [← hs.1]; exact hj, slot_isSome_false.mpr hjs⟩

theorem rehash_spec {t : Hash Key Val} (hinv : Inv t) {k : Nat} (hk : k < 32)
    (hroom : t.length ≤ 2 ^ k) {fuel : Nat} (hf : 2 ^ k ≤ fuel) :
    ∃ t', rehash fuel t (2 ^ k) = some t' ∧ Inv t' ∧ t'.capacity = 2 ^ k ∧
      t'.length = t.length ∧ (entries t'.data).Perm (entries t.data) := by
  obtain ⟨hs, h1, _, _, h4⟩ := hinv
  unfold I1 at h1
  have h0 : I2 (⟨List.replicate (2 ^ k) none, 0, 2 ^ k⟩ : Hash Key Val) := by
    intro i _ d hd
    simp only [slot_replicate] at hd
    cases hd
  obtain ⟨nd, e1, e2, e3, e4⟩ := rehash_loop_spec hk t.data hf t.capacity 0
    (List.replicate (2 ^ k) none) (by rw [hs.1]; omega) (by simp) h0
    (by rw [entries_replicate]; simpa [← h1] using hroom)
  rw [entries_replicate] at e4
  simp only [List.nil_append, List.drop_zero] at e4
  refine ⟨⟨nd, t.length, 2 ^ k⟩, by simp [rehash, e1], ?_, rfl, rfl, e4⟩
  refine ⟨⟨e2, pow_lt_counter hk⟩, ?_, e3, Or.inr ⟨k, hk, rfl⟩, ?_⟩
  · unfold I1
    simp only
    rw [e4.length_eq, h1]
  · unfold I4 at h4 ⊢
    exact ((e4.map _).nodup_iff).mpr h4

/-! ## binary32 rounding -/

theorem ilog2_spec : ∀ (fuel n : Nat), n ≤ fuel → 0 < n →
    2 ^ ilog2 fuel n ≤ n ∧ n < 2 ^ (ilog2 fuel n + 1) := by
  intro fuel
  induction fuel with
  | zero => intro n h h0; omega
  | succ fuel ih =>
    intro n h h0
    rw [ilog2]
    split_ifs with h2
    · have : n = 1 := by omega
      subst this
      norm_num
    · obtain ⟨a, b⟩ := ih (n / 2) (by omega) (by omega)
      simp only [pow_succ] at b ⊢
      constructor <;> omega

theorem ilog2_mono {a b : Nat} (h : a ≤ b) : ilog2 a a ≤ ilog2 b b := by
  rcases Nat.eq_zero_or_pos a with h0 | h0
  · subst h0
    simp [ilog2]
  · obtain ⟨h1, _⟩ := ilog2_spec a a le_rfl h0
    obtain ⟨_, h2⟩ := ilog2_spec b b le_rfl (by omega)
    have : 2 ^ ilog2 a a < 2 ^ (ilog2 b b + 1) := by omega
    have := (Nat.pow_lt_pow_iff_right (by norm_num : 1 < 2)).mp this
    omega

theorem div_le_div_of_cross {n1 d1 n2 d2 : Nat} (h1 : 0 < d1) (h2 : 0 < d2)
    (h : n1 * d2 ≤ n2 * d1) : n1 / d1 ≤ n2 / d2 := by
  rw [Nat.le_div_iff_mul_le h2]
  have h3 : n1 / d1 * d1 ≤ n1 := Nat.div_mul_le_self n1 d1
  have h4 : n1 / d1 * d2 * d1 ≤ n2 * d1 := by
    calc n1 / d1 * d2 * d1 = n1 / d1 * d1 * d2 := by ring
      _ ≤ n1 * d2 := Nat.mul_le_mul_right _ h3
      _ ≤ n2 * d1 := h
  exact Nat.le_of_mul_le_mul_right h4 h1

theorem rne_ge (n d : Nat) : n / d ≤ rne n d := by
  unfold rne
  simp only
  split_ifs <;> omega

theorem rne_le (n d : Nat) : rne n d ≤ n / d + 1 := by
  unfold rne
  simp only
  split_ifs <;> omega

theorem rne_exact {n d : Nat} (hd : 0 < d) (h : d ∣ n) : rne n d = n / d := by
  unfold rne
  simp only
  rw [Nat.mod_eq_zero_of_dvd h]
  simp [hd]

theorem rne_mono {n1 d1 n2 d2 : Nat} (h1 : 0 < d1) (h2 : 0 < d2)
    (h : n1 * d2 ≤ n2 * d1) : rne n1 d1 ≤ rne n2 d2 := by
  have hq := div_le_div_of_cross h1 h2 h
  rcases Nat.lt_or_ge (n1 / d1) (n2 / d2) with hlt | hge
  · exact le_trans (rne_le n1 d1) (le_trans hlt (rne_ge n2 d2))
  · have hqe : n1 / d1 = n2 / d2 := le_antisymm hq hge
    have e1 := Nat.div_add_mod n1 d1
    have e2 := Nat.div_add_mod n2 d2
    have hr1 := Nat.mod_lt n1 h1
    have hr2 := Nat.mod_lt n2 h2
    have hr : (n1 % d1) * d2 ≤ (n2 % d2) * d1 := by
      have : (d1 * (n1 / d1) + n1 % d1) * d2 ≤ (d2 * (n2 / d2) + n2 % d2) * d1 := by
        rw [e1, e2]; exact h
      rw [hqe] at this
      nlinarith
    unfold rne
    simp only
    rw [hqe]
    generalize n1 % d1 = r1 at *
    generalize n2 % d2 = r2 at *
    generalize n2 / d2 = q at *
    have key1 : d1 < 2 * r1 → d2 < 2 * r2 := by
      intro hgt
      by_contra hcon
      have : 2 * r2 ≤ d2 := by omega
      nlinarith
    have key2 : d1 ≤ 2 * r1 → d2 ≤ 2 * r2 := by
      intro hgt
      by_contra hcon
      have : 2 * r2 < d2 := by omega
      nlinarith
    split_ifs <;> omega

theorem ilog2_bounds (q : Nat) : (0 < q → 2 ^ ilog2 q q ≤ q) ∧ q < 2 ^ (ilog2 q q + 1) := by
  rcases Nat.eq_zero_or_pos q with h0 | h0
  · subst h0
    simp [ilog2]
  · exact ⟨fun _ => (ilog2_spec q q le_rfl h0).1, (ilog2_spec q q le_rfl h0).2⟩

theorem f32_ge {n d : Nat} (hd : 0 < d) (h : d ≤ n) : 2 ^ ilog2 (n / d) (n / d) ≤ f32 n d := by
  unfold f32
  simp only
  generalize he : ilog2 (n / d) (n / d) = e
  have hq : 0 < n / d := Nat.div_pos h hd
  have h1 : 2 ^ e ≤ n / d := he ▸ (ilog2_bounds (n / d)).1 hq
  have hsplit : 2 ^ e = 2 ^ (e - (e - 23)) * 2 ^ (e - 23) := by
    rw [← pow_add]
    congr 1
    omega
  have hu : 0 < 2 ^ (e - 23) := Nat.pos_pow_of_pos _ (by norm_num)
  have h2 : 2 ^ (e - (e - 23)) ≤ n / (d * 2 ^ (e - 23)) := by
    rw [← Nat.div_div_eq_div_mul, Nat.le_div_iff_mul_le hu, ← hsplit]
    exact h1
  calc 2 ^ e = 2 ^ (e - (e - 23)) * 2 ^ (e - 23) := hsplit
    _ ≤ rne n (d * 2 ^ (e - 23)) * 2 ^ (e - 23) :=
      Nat.mul_le_mul_right _ (le_trans h2 (rne_ge _ _))

theorem f32_le (n d : Nat) : f32 n d ≤ 2 ^ (ilog2 (n / d) (n / d) + 1) := by
  unfold f32
  simp only
  generalize he : ilog2 (n / d) (n / d) = e
  have h1 : n / d < 2 ^ (e + 1) := he ▸ (ilog2_bounds (n / d)).2
  have hsplit : 2 ^ (e + 1) = 2 ^ (e + 1 - (e - 23)) * 2 ^ (e - 23) := by
    rw [← pow_add]
    congr 1
    omega
  have hu : 0 < 2 ^ (e - 23) := Nat.pos_pow_of_pos _ (by norm_num)
  have h2 : n / (d * 2 ^ (e - 23)) < 2 ^ (e + 1 - (e - 23)) := by
    rw [← Nat.div_div_eq_div_mul, Nat.div_lt_iff_lt_mul hu, ← hsplit]
    exact h1
  calc rne n (d * 2 ^ (e - 23)) * 2 ^ (e - 23)
      ≤ 2 ^ (e + 1 - (e - 23)) * 2 ^ (e - 23) :=
        Nat.mul_le_mul_right _ (le_trans (rne_le _ _) h2)
    _ = 2 ^ (e + 1) := hsplit.symm

theorem f32_mono {n1 d1 n2 d2 : Nat} (h1 : 0 < d1) (h2 : 0 < d2)
    (h : n1 * d2 ≤ n2 * d1) : f32 n1 d1 ≤ f32 n2 d2 := by
  have hq := div_le_div_of_cross h1 h2 h
  have he := ilog2_mono hq
  rcases Nat.lt_or_ge (ilog2 (n1 / d1) (n1 / d1)) (ilog2 (n2 / d2) (n2 / d2)) with hlt | hge
  · have hq2 : 0 < n2 / d2 := by
      rcases Nat.eq_zero_or_pos (n2 / d2) with h0 | h0
      · rw [h0] at hlt
        simp [ilog2] at hlt
      · exact h0
    have hd2 : d2 ≤ n2 := by
      by_contra hcon
      rw [Nat.div_eq_of_lt (by omega)] at hq2
      omega
    calc f32 n1 d1 ≤ 2 ^ (ilog2 (n1 / d1) (n1 / d1) + 1) := f32_le n1 d1
      _ ≤ 2 ^ ilog2 (n2 / d2) (n2 / d2) := Nat.pow_le_pow_right (by norm_num) hlt
      _ ≤ f32 n2 d2 := f32_ge h2 hd2
  · have hee : ilog2 (n1 / d1) (n1 / d1) = ilog2 (n2 / d2) (n2 / d2) := le_antisymm he hge
    unfold f32
    simp only
    rw [hee]
    have hu : 0 < 2 ^ (ilog2 (n2 / d2) (n2 / d2) - 23) := Nat.pos_pow_of_pos _ (by norm_num)
    apply Nat.mul_le_mul_right
    apply rne_mono (Nat.mul_pos h1 hu) (Nat.mul_pos h2 hu)
    calc n1 * (d2 * 2 ^ (ilog2 (n2 / d2) (n2 / d2) - 23))
        = n1 * d2 * 2 ^ (ilog2 (n2 / d2) (n2 / d2) - 23) := by ring
      _ ≤ n2 * d1 * 2 ^ (ilog2 (n2 / d2) (n2 / d2) - 23) := Nat.mul_le_mul_right _ h
      _ = n2 * (d1 * 2 ^ (ilog2 (n2 / d2) (n2 / d2) - 23)) := by ring

theorem f32_exact {n : Nat} (h : 2 ^ (ilog2 n n - 23) ∣ n) : f32 n 1 = n := by
  unfold f32
  simp only [Nat.div_one, one_mul]
  rw [rne_exact (Nat.pos_pow_of_pos _ (by norm_num)) h]
  exact Nat.div_mul_cancel h

theorem float_of_exact {c : Nat} (h : c < 2 ^ 24) : float_of c = c * FSCALE := by
  unfold float_of
  apply f32_exact
  have hb := (ilog2_bounds (c * FSCALE)).1
  rcases Nat.eq_zero_or_pos c with h0 | h0
  · subst h0
    simp
  · have h1 : 2 ^ ilog2 (c * FSCALE) (c * FSCALE) ≤ c * FSCALE :=
      hb (Nat.mul_pos h0 (by unfold FSCALE; norm_num))
    have h2 : c * FSCALE < 2 ^ 88 := by
      unfold FSCALE
      calc c * 2 ^ 64 < 2 ^ 24 * 2 ^ 64 := Nat.mul_lt_mul_of_pos_right h (by norm_num)
        _ = 2 ^ 88 := by norm_num
    have h3 : ilog2 (c * FSCALE) (c * FSCALE) < 88 :=
      (Nat.pow_lt_pow_iff_right (by norm_num : 1 < 2)).mp (lt_of_le_of_lt h1 h2)
    have h4 : 2 ^ (ilog2 (c * FSCALE) (c * FSCALE) - 23) ∣ 2 ^ 64 :=
      Nat.pow_dvd_pow 2 (by omega)
    unfold FSCALE
    exact Dvd.dvd.mul_left h4 c

/-! ## The growth test -/

theorem FSCALE_pos : 0 < FSCALE := by unfold FSCALE; norm_num

theorem float_of_pos {c : Nat} (h : 0 < c) : 0 < float_of c := by
  unfold float_of
  have h1 : 1 ≤ c * FSCALE := Nat.mul_pos h FSCALE_pos
  exact lt_of_lt_of_le (Nat.pos_pow_of_pos _ (by norm_num)) (f32_ge (by norm_num) h1)

theorem load_factor_le_fdiv {x y : Nat} (hy : 0 < y) (h : 85 * y ≤ 100 * x) :
    HASH_LOAD_FACTOR ≤ fdiv x y := by
  unfold HASH_LOAD_FACTOR fdiv
  apply f32_mono (by norm_num) hy
  nlinarith [FSCALE_pos]

theorem fdiv_lt_load_factor {x y : Nat} (hy : 0 < y) (h : 2 * x ≤ y) :
    fdiv x y < HASH_LOAD_FACTOR := by
  have h1 : fdiv x y ≤ f32 (2 ^ 63) 1 := by
    unfold fdiv
    apply f32_mono hy (by norm_num)
    unfold FSCALE
    have : x * 2 ^ 64 = 2 * x * 2 ^ 63 := by ring
    rw [this, mul_one, mul_comm (2 ^ 63) y]
    exact Nat.mul_le_mul_right _ h
  have h2 : f32 (2 ^ 63) 1 < HASH_LOAD_FACTOR := by decide
  omega

theorem is_need_realloc_full {t : Hash Key Val} (h : t.capacity = t.length)
    (hc : t.capacity + 1 < COUNTER_SIZE) : is_need_realloc t = true := by
  unfold is_need_realloc
  rw [decide_eq_true_iff, ← h, cinc_small hc]
  exact load_factor_le_fdiv (float_of_pos (by omega)) (by omega)

theorem is_need_realloc_false {t : Hash Key Val} (hc : t.capacity + 1 < 2 ^ 24)
    (hl : t.length ≤ t.capacity) (h : is_need_realloc t = false) :
    100 * (t.length + 1) < 85 * (t.capacity + 1) := by
  unfold is_need_realloc at h
  rw [decide_eq_false_iff_not] at h
  have hc' : t.capacity + 1 < COUNTER_SIZE := by unfold COUNTER_SIZE; omega
  have hl' : t.length + 1 < COUNTER_SIZE := by omega
  rw [cinc_small hc', cinc_small hl', float_of_exact hc, float_of_exact (by omega)] at h
  by_contra hcon
  apply h
  apply load_factor_le_fdiv (Nat.mul_pos (by omega) FSCALE_pos)
  nlinarith [FSCALE_pos]

theorem is_need_realloc_true {t : Hash Key Val} (hc : t.capacity + 1 < 2 ^ 24)
    (hl : t.length ≤ t.capacity) (h : is_need_realloc t = true) :
    t.capacity + 1 < 2 * (t.length + 1) := by
  unfold is_need_realloc at h
  rw [decide_eq_true_iff] at h
  have hc' : t.capacity + 1 < COUNTER_SIZE := by unfold COUNTER_SIZE; omega
  have hl' : t.length + 1 < COUNTER_SIZE := by omega
  rw [cinc_small hc', cinc_small hl', float_of_exact hc, float_of_exact (by omega)] at h
  by_contra hcon
  have := fdiv_lt_load_factor (x := (t.length + 1) * FSCALE) (y := (t.capacity + 1) * FSCALE)
    (Nat.mul_pos (by omega) FSCALE_pos) (by nlinarith [FSCALE_pos])
  omega

/-! ## Insertion -/

theorem do_append_present (hasher : Key → Nat) {t : Hash Key Val} (hinv : Inv t)
    (hE : HasEmpty t) {key : Key} {d : Data Key Val} (hd : d ∈ entries t.data)
    (hh : d.hash = hasher key) (hk : d.key = key) (val : Val) {fuel : Nat}
    (hf : t.capacity ≤ fuel) :
    do_append hasher fuel t key val = some (t, d) := by
  obtain ⟨i, hi, hs⟩ := mem_entries.mp hd
  have hc : t.capacity ≠ 0 := capacity_ne_zero_of_slot hinv hs
  have hp := probe_present hinv hE hs hf
  rw [hh, hk] at hp
  unfold do_append
  simp only [hc, if_false, hp]
  rw [get_eq_slot hi, hs]

theorem cshl1_pow {k : Nat} (hk : k + 1 < 32) : cshl1 (2 ^ k) = 2 ^ (k + 1) := by
  unfold cshl1
  rw [← pow_succ]
  exact Nat.mod_eq_of_lt (pow_lt_counter hk)

theorem do_append_absent (hasher : Key → Nat) {t : Hash Key Val} (hinv : Inv t)
    (hE : HasEmpty t) {key : Key}
    (habs : ∀ d ∈ entries t.data, ¬(d.hash = hasher key ∧ d.key = key)) (val : Val)
    (hcap : t.capacity < 2 ^ 31) {fuel : Nat} (hf : 2 * t.capacity ≤ fuel) :
    ∃ t', do_append hasher fuel t key val = some (t', ⟨hasher key, key, val⟩) ∧
      Inv t' ∧ HasEmpty t' ∧
      (entries t'.data).Perm (⟨hasher key, key, val⟩ :: entries t.data) ∧
      t'.length = t.length + 1 ∧
      t'.capacity = (if is_need_realloc (⟨[], t.length + 1, t.capacity⟩ : Hash Key Val)
        then 2 * t.capacity else t.capacity) := by
  have hlt : t.length < t.capacity := (hasEmpty_iff hinv.1 hinv.2.1).mp hE
  have hc : t.capacity ≠ 0 := by omega
  obtain ⟨k, hk, hck, hlen⟩ := hinv.pow hc
  have hk31 : k < 31 := by
    rw [hck] at hcap
    exact (Nat.pow_lt_pow_iff_right (by norm_num : 1 < 2)).mp hcap
  obtain ⟨e, hp, he, hes, hrun⟩ := probe_absent hinv hE (hasher key) key habs
    (by omega : t.capacity ≤ fuel)
  have hcs : t.capacity < COUNTER_SIZE := hinv.1.2
  have hinc : cinc t.length = t.length + 1 := cinc_small (by omega)
  obtain ⟨hs, h1, h2, h3, h4⟩ := hinv
  have hperm := entries_set_some (⟨hasher key, key, val⟩ : Data Key Val)
    (by rw [hs.1]; exact he : e < t.data.length) hes
  have hinv2 : Inv (⟨t.data.set e (some ⟨hasher key, key, val⟩), t.length + 1, t.capacity⟩ :
      Hash Key Val) := by
    refine ⟨⟨by simpa using hs.1, hs.2⟩, ?_, ?_, h3, ?_⟩
    · unfold I1 at h1 ⊢
      simp only
      rw [hperm.length_eq, List.length_cons, h1]
    · exact I2_set_some (l := t.length) h2 hs.1 he hes hrun
    · unfold I4 at h4 ⊢
      simp only
      rw [(hperm.map _).nodup_iff, List.map_cons, List.nodup_cons]
      refine ⟨?_, h4⟩
      intro hmem
      obtain ⟨d, hd, hde⟩ := List.mem_map.mp hmem
      simp only [Prod.mk.injEq] at hde
      exact habs d hd hde
  unfold do_append
  simp only [hc, if_false, hp, store, hs.1, he, if_true, hinc]
  have hrw : is_need_realloc (⟨[], t.length + 1, t.capacity⟩ : Hash Key Val)
      = is_need_realloc (⟨t.data.set e (some ⟨hasher key, key, val⟩), t.length + 1,
          t.capacity⟩ : Hash Key Val) := rfl
  rw [hrw]
  cases hn : is_need_realloc (⟨t.data.set e (some ⟨hasher key, key, val⟩), t.length + 1,
      t.capacity⟩ : Hash Key Val) with
  | true =>
    simp only [if_true]
    have hpow : 0 < 2 ^ k := Nat.pos_pow_of_pos k (by norm_num)
    have hf2 : 2 ^ (k + 1) ≤ fuel := by rw [pow_succ]; omega
    obtain ⟨t3, e1, e2, e3, e4, e5⟩ := rehash_spec hinv2 (k := k + 1) (by omega)
      (by simp only; rw [pow_succ]; omega) hf2
    have hre : realloc fuel (⟨t.data.set e (some ⟨hasher key, key, val⟩), t.length + 1,
        t.capacity⟩ : Hash Key Val) = some t3 := by
      unfold realloc
      simp only [hc, if_false]
      have hsh : cshl1 t.capacity = 2 ^ (k + 1) := by rw [hck]; exact cshl1_pow (by omega)
      rw [hsh]
      exact e1
    rw [hre]
    refine ⟨t3, rfl, e2, ?_, e5.trans hperm, e4, ?_⟩
    · rw [hasEmpty_iff e2.1 e2.2.1, e3, e4]
      simp only
      rw [pow_succ]
      omega
    · rw [e3, pow_succ, hck]
      omega
  | false =>
    simp only [Bool.false_eq_true, if_false]
    refine ⟨_, rfl, hinv2, ?_, hperm, rfl, rfl⟩
    rw [hasEmpty_iff hinv2.1 hinv2.2.1]
    simp only
    by_contra hcon
    have hfull := is_need_realloc_full (t := (⟨t.data.set e (some ⟨hasher key, key, val⟩),
      t.length + 1, t.capacity⟩ : Hash Key Val)) (by simp only; omega)
      (by simp only; unfold COUNTER_SIZE; omega)
    rw [hfull] at hn
    cases hn

theorem ilog2_pow (m : Nat) : ilog2 (2 ^ m) (2 ^ m) = m := by
  obtain ⟨h1, h2⟩ := ilog2_bounds (2 ^ m)
  have h1' := h1 (Nat.pos_pow_of_pos m (by norm_num))
  have a := (Nat.pow_le_pow_iff_right (by norm_num : 1 < 2)).mp h1'
  have b := (Nat.pow_lt_pow_iff_right (by norm_num : 1 < 2)).mp h2
  omega

theorem float_of_pow (j : Nat) : float_of (2 ^ j) = 2 ^ j * FSCALE := by
  unfold float_of
  apply f32_exact
  unfold FSCALE
  rw [← pow_add, ilog2_pow]
  exact Nat.pow_dvd_pow 2 (by omega)

theorem float_of_mono {a b : Nat} (h : a ≤ b) : float_of a ≤ float_of b := by
  unfold float_of
  apply f32_mono (by norm_num) (by norm_num)
  simp only [mul_one]
  exact Nat.mul_le_mul_right _ h

theorem is_need_realloc_pow {t : Hash Key Val} {k : Nat} (hk : k < 32)
    (hc : t.capacity = 2 ^ k) (hl : t.length ≤ t.capacity)
    (h : is_need_realloc t = true) : t.capacity + 1 < 2 * (t.length + 1) := by
  unfold is_need_realloc at h
  rw [decide_eq_true_iff] at h
  have hcs : t.capacity < COUNTER_SIZE := by rw [hc]; exact pow_lt_counter hk
  have hcs' : t.capacity + 1 < COUNTER_SIZE := by
    have h31 : 2 ^ k ≤ 2 ^ 31 := Nat.pow_le_pow_right (by norm_num) (by omega)
    unfold COUNTER_SIZE
    rw [hc]
    norm_num at h31 ⊢
    omega
  rw [cinc_small hcs', cinc_small (by omega)] at h
  by_contra hcon
  have hpos : 0 < float_of (t.capacity + 1) := float_of_pos (by omega)
  have hkey : 2 * float_of (t.length + 1) ≤ float_of (t.capacity + 1) := by
    rcases Nat.eq_zero_or_pos k with hk0 | hk0
    · subst hk0
      have hl0 : t.length = 0 := by rw [hc] at hcon; omega
      rw [hl0, hc]
      decide
    · obtain ⟨j, rfl⟩ : ∃ j, k = j + 1 := ⟨k - 1, by omega⟩
      have hA : t.length + 1 ≤ 2 ^ j := by
        rw [hc, pow_succ] at hcon
        omega
      have h1 := float_of_mono hA
      have h2 : float_of (2 ^ (j + 1)) ≤ float_of (t.capacity + 1) :=
        float_of_mono (by rw [hc]; omega)
      rw [float_of_pow] at h1 h2
      rw [pow_succ] at h2
      calc 2 * float_of (t.length + 1) ≤ 2 * (2 ^ j * FSCALE) := Nat.mul_le_mul_left _ h1
        _ = 2 ^ j * 2 * FSCALE := by ring
        _ ≤ float_of (t.capacity + 1) := h2
  have := fdiv_lt_load_factor hpos hkey
  omega

/-- The table after the first `realloc()` of an empty table. -/
theorem realloc_init (fuel : Nat) :
    realloc fuel (Hash.init : Hash Key Val) = some ⟨List.replicate 8 none, 0, 8⟩ := rfl

theorem eq_init_of_capacity_zero {t : Hash Key Val} (hinv : Inv t) (h : t.capacity = 0) :
    t = Hash.init := by
  obtain ⟨hs, h1, _⟩ := hinv
  have hd : t.data = [] := List.length_eq_zero.mp (by rw [hs.1, h])
  unfold I1 at h1
  rw [hd] at h1
  cases t
  simp only [Hash.init] at *
  subst hd h
  simp [h1, entries]

theorem do_append_init (hasher : Key → Nat) (fuel : Nat) (key : Key) (val : Val) :
    do_append hasher fuel (Hash.init : Hash Key Val) key val =
      do_append hasher fuel ⟨List.replicate 8 none, 0, 8⟩ key val := by
  unfold do_append
  simp [Hash.init, realloc_init, realloc, rehash, rehash_loop]

theorem inv_first : Inv (⟨List.replicate 8 none, 0, 8⟩ : Hash Key Val) := by
  refine ⟨⟨by simp, by unfold COUNTER_SIZE; norm_num⟩, ?_, ?_, Or.inr ⟨3, by norm_num, rfl⟩, ?_⟩
  · unfold I1
    show 0 = (entries (List.replicate 8 none)).length
    rw [entries_replicate]
    rfl
  · intro i _ d hd
    simp only [slot_replicate] at hd
    cases hd
  · unfold I4
    show ((entries (List.replicate 8 none)).map _).Nodup
    rw [entries_replicate]
    exact List.nodup_nil

theorem do_find_present (hasher : Key → Nat) {t : Hash Key Val} (hinv : Inv t)
    (hE : HasEmpty t) {key : Key} {d : Data Key Val} (hd : d ∈ entries t.data)
    (hh : d.hash = hasher key) (hk : d.key = key) {fuel : Nat} (hf : t.capacity ≤ fuel) :
    ∃ i, do_find hasher fuel t key = some (some i) ∧ t.data[i]? = some (some d) := by
  obtain ⟨i, hi, hs⟩ := mem_entries.mp hd
  have hp := probe_present hinv hE hs hf
  rw [hh, hk] at hp
  refine ⟨i, ?_, by rw [get_eq_slot hi, hs]⟩
  unfold do_find
  simp only [length_ne_zero_of_slot hinv hs, if_false, hp]

theorem do_find_absent (hasher : Key → Nat) {t : Hash Key Val} (hinv : Inv t)
    (hE : HasEmpty t) {key : Key}
    (habs : ∀ d ∈ entries t.data, ¬(d.hash = hasher key ∧ d.key = key)) {fuel : Nat}
    (hf : t.capacity ≤ fuel) :
    do_find hasher fuel t key = some none := by
  unfold do_find
  split_ifs with h0
  · rfl
  · obtain ⟨e, hp, _⟩ := probe_absent hinv hE (hasher key) key habs hf
    simp only [hp]

theorem appends_spec (hasher : Key → Nat) {fuel : Nat} :
    ∀ (kvs : List (Key × Val)) (t : Hash Key Val), Inv t → HasEmpty t →
      t.capacity ≤ max 8 (4 * t.length) →
      (kvs.map Prod.fst).Nodup →
      (∀ kv ∈ kvs, ∀ d ∈ entries t.data, ¬(d.hash = hasher kv.1 ∧ d.key = kv.1)) →
      t.length + kvs.length ≤ 2 ^ 29 → 16 + 8 * (t.length + kvs.length) ≤ fuel →
      ∃ t', appends hasher fuel t kvs
          = some (t', kvs.map (fun kv => ⟨hasher kv.1, kv.1, kv.2⟩)) ∧
        Inv t' ∧ HasEmpty t' ∧ t'.capacity ≤ max 8 (4 * t'.length) ∧
        t'.length = t.length + kvs.length ∧
        (entries t'.data).Perm
          ((kvs.map (fun kv => (⟨hasher kv.1, kv.1, kv.2⟩ : Data Key Val))).reverse
            ++ entries t.data) := by
  intro kvs
  induction kvs with
  | nil =>
    intro t hinv hE hcap _ _ _ _
    exact ⟨t, rfl, hinv, hE, hcap, rfl, by simp⟩
  | cons kv rest ih =>
    intro t hinv hE hcap hnd habs hn hf
    simp only [List.length_cons] at hn hf
    have hlt : t.length < t.capacity := (hasEmpty_iff hinv.1 hinv.2.1).mp hE
    obtain ⟨k, hk, hck, _⟩ := hinv.pow (by omega)
    have hf2 : 2 * t.capacity ≤ fuel := by omega
    obtain ⟨t1, e1, e2, e3, e4, e5, e6⟩ := do_append_absent hasher hinv hE
      (habs kv (List.mem_cons_self _ _)) kv.2 (by omega) hf2
    have hcap1 : t1.capacity ≤ max 8 (4 * t1.length) := by
      rw [e6, e5]
      split_ifs with hneed
      · have := is_need_realloc_pow (t := (⟨[], t.length + 1, t.capacity⟩ : Hash Key Val))
          hk hck (by simp only; omega) hneed
        simp only at this
        omega
      · omega
    rw [List.map_cons, List.nodup_cons] at hnd
    have habs1 : ∀ kv' ∈ rest, ∀ d ∈ entries t1.data,
        ¬(d.hash = hasher kv'.1 ∧ d.key = kv'.1) := by
      intro kv' hkv' d hd
      rcases List.mem_cons.mp (e4.subset hd) with h | h
      · subst h
        simp only
        intro hcon
        exact hnd.1 (hcon.2 ▸ List.mem_map_of_mem Prod.fst hkv')
      · exact habs kv' (List.mem_cons_of_mem _ hkv') d h
    obtain ⟨t2, f1, f2, f3, f4, f5, f6⟩ := ih t1 e2 e3 hcap1 hnd.2 habs1
      (by rw [e5]; omega) (by rw [e5]; omega)
    refine ⟨t2, ?_, f2, f3, f4, by rw [f5, e5, List.length_cons]; omega, ?_⟩
    · simp only [appends, e1, f1, List.map_cons]
    · refine f6.trans ?_
      simp only [List.map_cons, List.reverse_cons, List.append_assoc, List.singleton_append]
      exact List.Perm.append_left _ e4

theorem hasEmpty_first : HasEmpty (⟨List.replicate 8 none, 0, 8⟩ : Hash Key Val) :=
  ⟨0, by norm_num, rfl⟩

theorem appends_init (hasher : Key → Nat) (fuel : Nat) (kv : Key × Val)
    (rest : List (Key × Val)) :
    appends hasher fuel (Hash.init : Hash Key Val) (kv :: rest) =
      appends hasher fuel ⟨List.replicate 8 none, 0, 8⟩ (kv :: rest) := by
  simp only [appends, do_append_init]

/-! ## The forward scan of `rehash_data` -/

theorem next_mod {c : Nat} (y : Nat) : next c (y % c) = (y + 1) % c := by
  rcases Nat.eq_zero_or_pos c with h0 | h0
  · subst h0
    simp [next]
  · have hr := Nat.mod_lt y h0
    rw [← Nat.mod_add_mod y c 1]
    unfold next
    split_ifs with h
    · rw [h, Nat.mod_self]
    · exact (Nat.mod_eq_of_lt (by omega)).symm

theorem iter_next {c x : Nat} (hx : x < c) (m : Nat) : (next c)^[m] x = (x + m) % c := by
  induction m with
  | zero => simp [Nat.mod_eq_of_lt hx]
  | succ m ih => rw [Function.iterate_succ_apply', ih, next_mod, Nat.add_assoc]

theorem iter_next_lt {c x : Nat} (hx : x < c) (m : Nat) : (next c)^[m] x < c := by
  rw [iter_next hx]
  exact Nat.mod_lt _ (by omega)

theorem step_iter {k : Nat} (hk : k < 32) {x i : Nat} (hx : x < 2 ^ k) (hi : i ≤ 7) :
    step x i (cmask (2 ^ k)) = (next (2 ^ k))^[i] x := by
  rw [step_eq hk hx hi, iter_next hx]

theorem check_spec {k : Nat} (hk : k < 32) {data : List (Option (Data Key Val))}
    (hlen : data.length = 2 ^ k) {x i : Nat} (hx : x < 2 ^ k) (hi : i ≤ 7) :
    ∃ b, check data (cmask (2 ^ k)) x i = some b ∧
      (b = true ↔ ¬Placed data (2 ^ k) ((next (2 ^ k))^[i] x)) := by
  unfold check
  rw [step_iter hk hx hi, get_eq_slot (by rw [hlen]; exact iter_next_lt hx i)]
  cases hs : slot data ((next (2 ^ k))^[i] x) with
  | none =>
    refine ⟨true, rfl, ?_⟩
    simp only [true_iff]
    rintro ⟨e, he, _⟩
    rw [hs] at he
    cases he
  | some d =>
    refine ⟨_, rfl, ?_⟩
    simp only [decide_eq_true_eq]
    constructor
    · rintro hne ⟨e, he, hid⟩
      rw [hs] at he
      cases he
      exact hne hid
    · intro hnp hid
      exact hnp ⟨d, hs, hid⟩

theorem checks_spec {k : Nat} (hk : k < 32) {data : List (Option (Data Key Val))}
    (hlen : data.length = 2 ^ k) {x : Nat} (hx : x < 2 ^ k) :
    ∀ (l : List Nat) (a : Nat), l = List.range' a l.length → a + l.length ≤ 8 →
      ∃ r, checks data (cmask (2 ^ k)) x l = some r ∧
        (r = none → ∀ i, a ≤ i → i < a + l.length → Placed data (2 ^ k) ((next (2 ^ k))^[i] x)) ∧
        (∀ idx, r = some idx → ∃ i, a ≤ i ∧ i < a + l.length ∧ idx = (next (2 ^ k))^[i] x ∧
          ¬Placed data (2 ^ k) idx ∧
          ∀ i', a ≤ i' → i' < i → Placed data (2 ^ k) ((next (2 ^ k))^[i'] x)) := by
  intro l
  induction l with
  | nil =>
    intro a _ _
    exact ⟨none, rfl, fun _ i h1 h2 => (by simp at h2; omega), fun idx h => (by cases h)⟩
  | cons i rest ih =>
    intro a hl ha
    simp only [List.length_cons, List.range'_succ, List.cons.injEq] at hl ha
    obtain ⟨hia, hrest⟩ := hl
    subst hia
    obtain ⟨b, hb, hbs⟩ := check_spec hk hlen hx (by omega : i ≤ 7)
    rw [checks, hb]
    cases b with
    | true =>
      refine ⟨some (step x i (cmask (2 ^ k))), rfl, fun h => (by cases h), ?_⟩
      intro idx hidx
      cases hidx
      refine ⟨i, le_rfl, by simp, step_iter hk hx (by omega), ?_, fun i' h1 h2 => by omega⟩
      rw [step_iter hk hx (by omega)]
      exact hbs.mp rfl
    | false =>
      have hpl : Placed data (2 ^ k) ((next (2 ^ k))^[i] x) := by
        by_contra hcon
        have := hbs.mpr hcon
        cases this
      obtain ⟨r, hr, h1, h2⟩ := ih (i + 1) hrest (by omega)
      refine ⟨r, hr, ?_, ?_⟩
      · intro hn j hj1 hj2
        rcases Nat.eq_or_lt_of_le hj1 with h | h
        · rw [← h]; exact hpl
        · exact h1 hn j (by omega) (by simp only [List.length_cons] at hj2; omega)
      · intro idx hidx
        obtain ⟨j, hj1, hj2, hj3, hj4, hj5⟩ := h2 idx hidx
        refine ⟨j, by omega, by simp only [List.length_cons]; omega, hj3, hj4, ?_⟩
        intro i' hi1 hi2
        rcases Nat.eq_or_lt_of_le hi1 with h | h
        · rw [← h]; exact hpl
        · exact hj5 i' (by omega) hi2

theorem scan_spec {k : Nat} (hk : k < 32) {data : List (Option (Data Key Val))}
    (hlen : data.length = 2 ^ k) :
    ∀ (fuel x m0 : Nat), x < 2 ^ k → ¬Placed data (2 ^ k) ((next (2 ^ k))^[m0] x) →
      m0 < fuel →
      ∃ m, scan data (cmask (2 ^ k)) fuel x = some ((next (2 ^ k))^[m] x) ∧ m ≤ m0 ∧
        ¬Placed data (2 ^ k) ((next (2 ^ k))^[m] x) ∧
        ∀ m', m' < m → Placed data (2 ^ k) ((next (2 ^ k))^[m'] x) := by
  intro fuel
  induction fuel with
  | zero => intro x m0 _ _ h; omega
  | succ fuel ih =>
    intro x m0 hx hm0 hf
    rw [scan, get_eq_slot (by omega)]
    cases hs : slot data x with
    | none =>
      refine ⟨0, rfl, by omega, ?_, fun m' h => by omega⟩
      rintro ⟨e, he, _⟩
      simp only [Function.iterate_zero, id_eq] at he
      rw [hs] at he
      cases he
    | some d =>
      simp only
      split_ifs with hid
      · refine ⟨0, rfl, by omega, ?_, fun m' h => by omega⟩
        rintro ⟨e, he, hie⟩
        simp only [Function.iterate_zero, id_eq] at he hie
        rw [hs] at he
        cases he
        exact hid hie
      · have hx0 : Placed data (2 ^ k) x := ⟨d, hs, not_not.mp hid⟩
        obtain ⟨r, hr, h1, h2⟩ := checks_spec hk hlen hx [1, 2, 3, 4, 5, 6] 1 rfl
          (by simp)
        rw [hr]
        simp only [List.length_cons, List.length_nil] at h1 h2
        cases r with
        | some idx =>
          obtain ⟨i, hi1, hi2, hi3, hi4, hi5⟩ := h2 idx rfl
          subst hi3
          refine ⟨i, rfl, ?_, hi4, ?_⟩
          · by_contra hcon
            rcases Nat.eq_zero_or_pos m0 with h0 | h0
            · rw [h0] at hm0
              exact hm0 hx0
            · exact hm0 (hi5 m0 (by omega) (by omega))
          · intro m' hm'
            rcases Nat.eq_zero_or_pos m' with h0 | h0
            · rw [h0]
              exact hx0
            · exact hi5 m' (by omega) hm'
        | none =>
          simp only
          have hall : ∀ i, i < 7 → Placed data (2 ^ k) ((next (2 ^ k))^[i] x) := by
            intro i hi
            rcases Nat.eq_zero_or_pos i with h0 | h0
            · rw [h0]
              exact hx0
            · exact h1 rfl i (by omega) (by omega)
          have hm07 : 7 ≤ m0 := by
            by_contra hcon
            exact hm0 (hall m0 (by omega))
          rw [step_iter hk hx (by omega)]
          have hiter : ∀ m, (next (2 ^ k))^[m] ((next (2 ^ k))^[7] x)
              = (next (2 ^ k))^[m + 7] x := fun m => (Function.iterate_add_apply _ m 7 x).symm
          obtain ⟨m, e1, e2, e3, e4⟩ := ih ((next (2 ^ k))^[7] x) (m0 - 7)
            (iter_next_lt hx 7)
            (by rw [hiter, Nat.sub_add_cancel hm07]; exact hm0) (by omega)
          rw [hiter] at e1 e3
          refine ⟨m + 7, e1, by omega, e3, ?_⟩
          intro m' hm'
          rcases Nat.lt_or_ge m' 7 with h7 | h7
          · exact hall m' h7
          · have := e4 (m' - 7) (by omega)
            rw [hiter, Nat.sub_add_cancel h7] at this
            exact this

/-! ## The backward-shift repair of `rehash_data` -/

theorem add_mod_small {c x m : Nat} (hx : x < c) (hm : m < c) :
    (x + m) % c = if x + m < c then x + m else x + m - c := by
  split_ifs with h
  · exact Nat.mod_eq_of_lt h
  · rw [Nat.mod_eq_sub_mod (by omega)]
    exact Nat.mod_eq_of_lt (by omega)

theorem cdist_iter {c x m : Nat} (hx : x < c) (hm : m < c) :
    cdist c x ((next c)^[m] x) = m := by
  rw [iter_next hx, add_mod_small hx hm]
  unfold cdist
  split_ifs <;> omega

theorem iter_cdist {c x y : Nat} (hx : x < c) (hy : y < c) :
    (next c)^[cdist c x y] x = y := by
  rw [iter_next hx, add_mod_small hx (cdist_lt hx hy)]
  unfold cdist
  split_ifs <;> omega

theorem cdist_next {c g j : Nat} (hg : g < c) (hj : j < c) (h : cdist c g j + 1 < c) :
    cdist c g (next c j) = cdist c g j + 1 := by
  unfold cdist next at *
  split_ifs at * <;> omega

theorem cdist_inj {c a x y : Nat} (ha : a < c) (hx : x < c) (hy : y < c)
    (h : cdist c a x = cdist c a y) : x = y := by
  unfold cdist at *
  split_ifs at * <;> omega

theorem cdist_through {c h g j p : Nat} (hh : h < c) (hg : g < c) (hj : j < c) (hp : p < c)
    (h1 : cdist c h g < cdist c h p) (h2 : cdist c g j < cdist c g p) :
    cdist c h j < cdist c h p := by
  unfold cdist at *
  split_ifs at * <;> omega

theorem cdist_self (c a : Nat) : cdist c a a = 0 := by
  unfold cdist
  simp

theorem cdist_pos {c a b : Nat} (ha : a < c) (hb : b < c) (h : a ≠ b) : 0 < cdist c a b := by
  unfold cdist
  split_ifs <;> omega

theorem isSome_of_mem {o : Option (Data Key Val)} {d : Data Key Val} (h : d ∈ o) :
    o.isSome = true := by
  rw [Option.mem_def] at h
  rw [h]
  rfl

theorem cdist_next_self {c j E : Nat} (hj : j < c) (hE : E < c) (h : E ≠ j) :
    0 < cdist c j (next c j) ∧ cdist c j (next c j) ≤ cdist c j E ∧
      cdist c j (next c j) ≤ 1 := by
  unfold cdist next
  split_ifs <;> omega

theorem set_set_self {data : List (Option (Data Key Val))} {j : Nat} {d : Data Key Val}
    (hs : slot data j = some d) : (data.set j none).set j (some d) = data := by
  have hj := (mem_entries_slot hs).2
  apply List.ext_getElem?
  intro n
  by_cases h : j = n
  · subst h
    rw [List.getElem?_set_self (by simpa using hj), get_eq_slot hj, hs]
  · rw [List.getElem?_set_ne h, List.getElem?_set_ne h]

theorem cdist_next_left {c j E : Nat} (hj : j < c) (hE : E < c) (h : j ≠ E) :
    cdist c (next c j) E + 1 = cdist c j E := by
  unfold cdist next
  split_ifs <;> omega

theorem Repair.finish {k : Nat} (hk : k < 32) {data : List (Option (Data Key Val))}
    {g j n : Nat} (hR : Repair data (2 ^ k) g j n) (hs : slot data j = none) (l : Nat) :
    I2 (⟨data, l, 2 ^ k⟩ : Hash Key Val) := by
  intro p hp d hd y hy hdist
  simp only at hp hd hy hdist ⊢
  by_cases hyg : y = g
  · exfalso
    subst hyg
    have hpg : p ≠ y := by
      rintro rfl
      rw [hR.hole] at hd
      cases hd
    have hpj : p ≠ j := by
      rintro rfl
      rw [hs] at hd
      cases hd
    have hpos : 0 < cdist (2 ^ k) y p := cdist_pos hy hp (Ne.symm hpg)
    have hpc : cdist (2 ^ k) y p < 2 ^ k := cdist_lt hy hp
    rcases Nat.lt_or_ge (cdist (2 ^ k) y p) n with hlt | hge
    · exact hR.done p hp d hd hpos hlt hdist
    · rcases hR.at_ with ⟨hnc, hn⟩ | ⟨hnc, _⟩
      · have hne : cdist (2 ^ k) y p ≠ cdist (2 ^ k) y j :=
          fun h => hpj (cdist_inj hy hp hR.hj h)
        have hthrough := cdist_through (ideal_lt hk d) hy hR.hj hp hdist (by omega)
        have hjy : j ≠ y := by
          rintro rfl
          have := hR.pos
          rw [cdist_self] at hn
          omega
        have := hR.weak p hp d hd j hR.hj hthrough hjy
        rw [hs] at this
        cases this
      · omega
  · exact hR.weak p hp d hd y hy hdist hyg

theorem cdist_next_wrap {c g j : Nat} (hg : g < c) (hj : j < c) (h : cdist c g j + 1 = c) :
    next c j = g := by
  unfold cdist next at *
  split_ifs at * <;> omega

theorem Repair.step {k : Nat} (hk : k < 32) {data : List (Option (Data Key Val))}
    {g j n : Nat} {d : Data Key Val} (hR : Repair data (2 ^ k) g j n)
    (hs : slot data j = some d) {fuel0 e : Nat}
    (he : find_empty (data.set j none) (cmask (2 ^ k)) fuel0 (d.hash &&& cmask (2 ^ k))
      = some e) :
    e < 2 ^ k ∧
    ∃ g' n', Repair ((data.set j none).set e (some d)) (2 ^ k) g' (next (2 ^ k) j) n' ∧
      (entries ((data.set j none).set e (some d))).Perm (entries data) ∧
      ∀ E, slot data E = none → E ≠ g →
        slot ((data.set j none).set e (some d)) E = none ∧ E ≠ g' := by
  have hh : ideal (2 ^ k) d < 2 ^ k := ideal_lt hk d
  have hlen1 : (data.set j none).length = 2 ^ k := by simpa using hR.len
  have hjl : j < data.length := by rw [hR.len]; exact hR.hj
  have hs1j : slot (data.set j none) j = none := slot_set_self _ hjl
  have hjg : j ≠ g := by
    rintro rfl
    rw [hR.hole] at hs
    cases hs
  have hn : n < 2 ^ k ∧ cdist (2 ^ k) g j = n := by
    rcases hR.at_ with h | ⟨_, h⟩
    · exact h
    · exact absurd h hjg
  obtain ⟨hec, hes, hrun⟩ := find_empty_sound hk hlen1 fuel0 _ e hh he
  refine ⟨hec, ?_⟩
  by_cases hA : cdist (2 ^ k) (ideal (2 ^ k) d) g < cdist (2 ^ k) (ideal (2 ^ k) d) j
  · -- the hole lies on the probe path of the entry: it moves into the hole
    have h1 : ¬cdist (2 ^ k) (ideal (2 ^ k) d) g < cdist (2 ^ k) (ideal (2 ^ k) d) e := by
      intro hlt
      obtain ⟨x, hx, _⟩ := hrun g hR.hg hlt
      rw [slot_set_ne _ hjg, hR.hole] at hx
      cases hx
    have heg : e = g := by
      by_contra hne
      have hne' : cdist (2 ^ k) (ideal (2 ^ k) d) e ≠ cdist (2 ^ k) (ideal (2 ^ k) d) g :=
        fun h => hne (cdist_inj hh hec hR.hg h)
      have hlt : cdist (2 ^ k) (ideal (2 ^ k) d) e < cdist (2 ^ k) (ideal (2 ^ k) d) j := by
        omega
      have hocc := hR.weak j hR.hj d hs e hec hlt hne
      have hej : j ≠ e := by
        rintro rfl
        omega
      rw [slot_set_ne _ hej] at hes
      rw [hes] at hocc
      cases hocc
    subst heg
    have hgl : e < (data.set j none).length := by rw [hlen1]; exact hec
    have hs2g : slot ((data.set j none).set e (some d)) e = some d := slot_set_self _ hgl
    have hs2 : ∀ y, y ≠ e → slot ((data.set j none).set e (some d)) y
        = slot (data.set j none) y := fun y hy => slot_set_ne _ (Ne.symm hy)
    obtain ⟨a1, a2, a3⟩ := cdist_next_self hR.hj hR.hg (Ne.symm hjg)
    have hc2 : 1 < 2 ^ k := by
      have := hR.hg
      have := hR.hj
      omega
    refine ⟨j, 1, ?_, (entries_set_some d hgl hes).trans (entries_set_none hs), ?_⟩
    · refine ⟨by simpa using hR.len, hR.hj, next_lt hR.hj, ?_, by norm_num,
        Or.inl ⟨hc2, by omega⟩, ?_, ?_, ?_⟩
      · rw [hs2 j hjg]; exact hs1j
      · intro y _ h1' h2'
        omega
      · intro p hp d' hd' y hy hdist hyj
        by_cases hyg : y = e
        · rw [hyg, hs2g]; rfl
        · rw [hs2 y hyg, slot_set_ne _ (Ne.symm hyj)]
          by_cases hpg : p = e
          · subst hpg
            rw [hs2g] at hd'
            cases hd'
            exact hR.weak j hR.hj d hs y hy (by omega) hyg
          · rw [hs2 p hpg] at hd'
            have hpj : j ≠ p := by
              rintro rfl
              rw [hs1j] at hd'
              cases hd'
            rw [slot_set_ne _ hpj] at hd'
            exact hR.weak p hp d' hd' y hy hdist hyg
      · intro p _ d' _ h1' h2'
        omega
    · intro E hE hEg
      have hEj : j ≠ E := by
        rintro rfl
        rw [hE] at hs
        cases hs
      exact ⟨by rw [hs2 E hEg, slot_set_ne _ hEj]; exact hE, Ne.symm hEj⟩
  · -- the hole is not on the probe path: the entry returns to its slot
    have h1 : ¬cdist (2 ^ k) (ideal (2 ^ k) d) j < cdist (2 ^ k) (ideal (2 ^ k) d) e := by
      intro hlt
      obtain ⟨x, hx, _⟩ := hrun j hR.hj hlt
      rw [hs1j] at hx
      cases hx
    have hej : e = j := by
      by_contra hne
      have hne' : cdist (2 ^ k) (ideal (2 ^ k) d) e ≠ cdist (2 ^ k) (ideal (2 ^ k) d) j :=
        fun h => hne (cdist_inj hh hec hR.hj h)
      have hlt : cdist (2 ^ k) (ideal (2 ^ k) d) e < cdist (2 ^ k) (ideal (2 ^ k) d) j := by
        omega
      have heg : e ≠ g := by
        rintro rfl
        exact hA hlt
      have hocc := hR.weak j hR.hj d hs e hec hlt heg
      rw [slot_set_ne _ (Ne.symm hne)] at hes
      rw [hes] at hocc
      cases hocc
    subst hej
    refine ⟨g, n + 1, ?_, by rw [set_set_self hs], ?_⟩
    · rw [set_set_self hs]
      refine ⟨hR.len, hR.hg, next_lt hR.hj, hR.hole, by omega, ?_, ?_, hR.weak, ?_⟩
      · rcases Nat.lt_or_ge (n + 1) (2 ^ k) with h | h
        · exact Or.inl ⟨h, by rw [cdist_next hR.hg hR.hj (by omega)]; omega⟩
        · exact Or.inr ⟨by omega, cdist_next_wrap hR.hg hR.hj (by omega)⟩
      · intro y hy h1' h2'
        rcases Nat.lt_or_ge (cdist (2 ^ k) g y) n with h | h
        · exact hR.block y hy h1' h
        · have : y = e := cdist_inj hR.hg hy hR.hj (by omega)
          rw [this, hs]
          rfl
      · intro p hp d' hd' h1' h2'
        rcases Nat.lt_or_ge (cdist (2 ^ k) g p) n with h | h
        · exact hR.done p hp d' hd' h1' h
        · have : p = e := cdist_inj hR.hg hp hR.hj (by omega)
          subst this
          rw [hs] at hd'
          cases hd'
          exact hA
    · intro E hE hEg
      rw [set_set_self hs]
      exact ⟨hE, hEg⟩

theorem reinsert_sound {k : Nat} (hk : k < 32) {fuel0 : Nat} :
    ∀ (fuel : Nat) (data data' : List (Option (Data Key Val))) (g j n : Nat),
      Repair data (2 ^ k) g j n →
      reinsert fuel0 (cmask (2 ^ k)) fuel data j = some data' →
      data'.length = 2 ^ k ∧ I2 (⟨data', 0, 2 ^ k⟩ : Hash Key Val) ∧
        (entries data').Perm (entries data) := by
  intro fuel
  induction fuel with
  | zero => intro data data' g j n _ h; simp [reinsert] at h
  | succ fuel ih =>
    intro data data' g j n hR h
    have hjl : j < data.length := by rw [hR.len]; exact hR.hj
    rw [reinsert, get_eq_slot hjl] at h
    cases hs : slot data j with
    | none =>
      rw [hs] at h
      simp only [Option.some.injEq] at h
      subst h
      exact ⟨hR.len, hR.finish hk hs 0, List.Perm.refl _⟩
    | some d =>
      rw [hs] at h
      have hst1 : store data j none = some (data.set j none) := by simp [store, hjl]
      simp only [hst1] at h
      cases he : find_empty (data.set j none) (cmask (2 ^ k)) fuel0
          (d.hash &&& cmask (2 ^ k)) with
      | none => rw [he] at h; simp at h
      | some e =>
        rw [he] at h
        obtain ⟨hec, g', n', hR', hperm, _⟩ := hR.step hk hs he
        have hst2 : store (data.set j none) e (some d)
            = some ((data.set j none).set e (some d)) := by simp [store, hR.len, hec]
        simp only [hst2, step_one hk hR.hj] at h
        obtain ⟨e1, e2, e3⟩ := ih _ data' g' (next (2 ^ k) j) n' hR' h
        exact ⟨e1, e2, e3.trans hperm⟩

theorem reinsert_total {k : Nat} (hk : k < 32) {fuel0 : Nat} (hf : 2 ^ k ≤ fuel0) :
    ∀ (fuel : Nat) (data : List (Option (Data Key Val))) (g j n E : Nat),
      Repair data (2 ^ k) g j n → E < 2 ^ k → slot data E = none → E ≠ g →
      cdist (2 ^ k) j E < fuel →
      ∃ data', reinsert fuel0 (cmask (2 ^ k)) fuel data j = some data' := by
  intro fuel
  induction fuel with
  | zero => intro data g j n E _ _ _ _ h; omega
  | succ fuel ih =>
    intro data g j n E hR hEc hE hEg hfuel
    have hjl : j < data.length := by rw [hR.len]; exact hR.hj
    rw [reinsert, get_eq_slot hjl]
    cases hs : slot data j with
    | none => exact ⟨data, rfl⟩
    | some d =>
      have hlen1 : (data.set j none).length = 2 ^ k := by simpa using hR.len
      have hh : ideal (2 ^ k) d < 2 ^ k := ideal_lt hk d
      obtain ⟨e, he⟩ := find_empty_total hk hlen1 hR.hj (slot_set_self _ hjl) fuel0
        (ideal (2 ^ k) d) hh (lt_of_lt_of_le (cdist_lt hh hR.hj) hf)
      obtain ⟨hec, g', n', hR', _, hkeep⟩ := hR.step hk hs he
      obtain ⟨hE', hEg'⟩ := hkeep E hE hEg
      have hjE : j ≠ E := by
        rintro rfl
        rw [hE] at hs
        cases hs
      have hstep := cdist_next_left hR.hj hEc hjE
      obtain ⟨data', e1⟩ := ih _ g' (next (2 ^ k) j) n' E hR' hEc hE' hEg' (by omega)
      have hst1 : store data j none = some (data.set j none) := by simp [store, hjl]
      have hst2 : store (data.set j none) e (some d)
          = some ((data.set j none).set e (some d)) := by simp [store, hR.len, hec]
      refine ⟨data', ?_⟩
      have he' : find_empty (data.set j none) (cmask (2 ^ k)) fuel0
          (d.hash &&& cmask (2 ^ k)) = some e := he
      simp only [hst1, he', hst2, step_one hk hR.hj]
      exact e1

theorem scan_sound {k : Nat} (hk : k < 32) {data : List (Option (Data Key Val))}
    (hlen : data.length = 2 ^ k) :
    ∀ (fuel x j : Nat), x < 2 ^ k → scan data (cmask (2 ^ k)) fuel x = some j →
      ∃ m, j = (next (2 ^ k))^[m] x ∧ ¬Placed data (2 ^ k) j ∧
        ∀ m', m' < m → Placed data (2 ^ k) ((next (2 ^ k))^[m'] x) := by
  intro fuel
  induction fuel with
  | zero => intro x j _ h; simp [scan] at h
  | succ fuel ih =>
    intro x j hx h
    rw [scan, get_eq_slot (by omega)] at h
    cases hs : slot data x with
    | none =>
      rw [hs] at h
      simp only [Option.some.injEq] at h
      subst h
      refine ⟨0, rfl, ?_, fun m' h => by omega⟩
      rintro ⟨e, he, _⟩
      rw [hs] at he
      cases he
    | some d =>
      rw [hs] at h
      simp only at h
      split_ifs at h with hid
      · simp only [Option.some.injEq] at h
        subst h
        refine ⟨0, rfl, ?_, fun m' h => by omega⟩
        rintro ⟨e, he, hie⟩
        rw [hs] at he
        cases he
        exact hid hie
      · have hx0 : Placed data (2 ^ k) x := ⟨d, hs, not_not.mp hid⟩
        obtain ⟨r, hr, h1, h2⟩ := checks_spec hk hlen hx [1, 2, 3, 4, 5, 6] 1 rfl
          (by simp)
        rw [hr] at h
        simp only [List.length_cons, List.length_nil] at h1 h2
        cases r with
        | some idx =>
          simp only [Option.some.injEq] at h
          subst h
          obtain ⟨i, hi1, hi2, hi3, hi4, hi5⟩ := h2 idx rfl
          refine ⟨i, hi3, hi4, ?_⟩
          intro m' hm'
          rcases Nat.eq_zero_or_pos m' with h0 | h0
          · rw [h0]
            exact hx0
          · exact hi5 m' (by omega) hm'
        | none =>
          simp only at h
          have hall : ∀ i, i < 7 → Placed data (2 ^ k) ((next (2 ^ k))^[i] x) := by
            intro i hi
            rcases Nat.eq_zero_or_pos i with h0 | h0
            · rw [h0]
              exact hx0
            · exact h1 rfl i (by omega) (by omega)
          rw [step_iter hk hx (by omega)] at h
          have hiter : ∀ m, (next (2 ^ k))^[m] ((next (2 ^ k))^[7] x)
              = (next (2 ^ k))^[m + 7] x := fun m => (Function.iterate_add_apply _ m 7 x).symm
          obtain ⟨m, e1, e3, e4⟩ := ih ((next (2 ^ k))^[7] x) j (iter_next_lt hx 7) h
          rw [hiter] at e1
          refine ⟨m + 7, e1, e3, ?_⟩
          intro m' hm'
          rcases Nat.lt_or_ge m' 7 with h7 | h7
          · exact hall m' h7
          · have := e4 (m' - 7) (by omega)
            rw [hiter, Nat.sub_add_cancel h7] at this
            exact this

theorem probe_sound_inv {t : Hash Key Val} (hinv : Inv t) (hc0 : t.capacity ≠ 0)
    (hash : Nat) (key : Key) {fuel : Nat} {r : Probe}
    (h : probe t.data (cmask t.capacity) hash key fuel (hash &&& cmask t.capacity) = some r) :
    (∀ i, r = Probe.found i → i < t.capacity ∧
      ∃ d, slot t.data i = some d ∧ d.hash = hash ∧ d.key = key) ∧
    (∀ e, r = Probe.empty e → e < t.capacity ∧ slot t.data e = none ∧
      Run t.data t.capacity (fun _ => True) (hash &&& cmask t.capacity) e ∧
      ∀ d ∈ entries t.data, ¬(d.hash = hash ∧ d.key = key)) := by
  obtain ⟨k, hk, hc, hlen⟩ := hinv.pow hc0
  rw [hc] at h ⊢
  have hx : hash &&& cmask (2 ^ k) < 2 ^ k := by
    rw [land_cmask hk]
    exact Nat.mod_lt _ (Nat.pos_pow_of_pos k (by norm_num))
  obtain ⟨h1, h2⟩ := probe_sound hk hlen hash key fuel _ r hx h
  refine ⟨fun i hi => ⟨(h1 i hi).1, (h1 i hi).2.1⟩, ?_⟩
  intro e he
  obtain ⟨hec, hes, hrun⟩ := h2 e he
  refine ⟨hec, hes, ?_, ?_⟩
  · intro j hj hd
    obtain ⟨e', he', _⟩ := hrun j hj hd
    exact ⟨e', he', trivial⟩
  · intro d hd hm
    obtain ⟨i, hil, hs⟩ := mem_entries.mp hd
    have hi : i < 2 ^ k := by rw [← hlen]; exact hil
    have hI2 : I2 t := hinv.2.2.1
    have hid : ideal (2 ^ k) d = hash &&& cmask (2 ^ k) := by unfold ideal; rw [hm.1]
    have hlt : cdist (2 ^ k) (hash &&& cmask (2 ^ k)) i
        < cdist (2 ^ k) (hash &&& cmask (2 ^ k)) e := by
      by_contra hge
      have hne : e ≠ i := by
        rintro rfl
        rw [hs] at hes
        cases hes
      have hne' : cdist (2 ^ k) (hash &&& cmask (2 ^ k)) e
          ≠ cdist (2 ^ k) (hash &&& cmask (2 ^ k)) i := fun h => hne (cdist_inj hx hec hi h)
      have := hI2 i (by rw [hc]; exact hi) d hs e (by rw [hc]; exact hec)
        (by rw [hc, hid]; omega)
      rw [hes] at this
      cases this
    obtain ⟨e', he', hne'⟩ := hrun i hi hlt
    rw [hs] at he'
    cases he'
    exact hne' hm

theorem iter_next_period {c i : Nat} (hi : i < c) : (next c)^[c] i = i := by
  rw [iter_next hi, Nat.add_mod_right]
  exact Nat.mod_eq_of_lt hi

theorem repair_init {k : Nat} (hk : k < 32) {data : List (Option (Data Key Val))} {l : Nat}
    (hlen : data.length = 2 ^ k) (h2 : I2 (⟨data, l, 2 ^ k⟩ : Hash Key Val)) {i : Nat}
    {d : Data Key Val} (hs : slot data i = some d) {fuel j : Nat}
    (hscan : scan (data.set i none) (cmask (2 ^ k)) fuel (next (2 ^ k) i) = some j) :
    ∃ n, Repair (data.set i none) (2 ^ k) i j n := by
  have hil : i < data.length := (mem_entries_slot hs).2
  have hi : i < 2 ^ k := by rw [← hlen]; exact hil
  have hlen1 : (data.set i none).length = 2 ^ k := by simpa using hlen
  have hs1 : ∀ y, y ≠ i → slot (data.set i none) y = slot data y :=
    fun y hy => slot_set_ne _ (Ne.symm hy)
  have hs1i : slot (data.set i none) i = none := slot_set_self _ hil
  have hnE := next_lt hi
  obtain ⟨m, e1, e3, e4⟩ := scan_sound hk hlen1 fuel _ j hnE hscan
  have hiter : ∀ n, (next (2 ^ k))^[n] (next (2 ^ k) i) = (next (2 ^ k))^[n + 1] i :=
    fun n => (Function.iterate_succ_apply _ n i).symm
  have hnp : ¬Placed (data.set i none) (2 ^ k) i := by
    rintro ⟨x, hx, _⟩
    rw [hs1i] at hx
    cases hx
  have hmc : m + 1 ≤ 2 ^ k := by
    by_contra hcon
    have := e4 (2 ^ k - 1) (by omega)
    rw [hiter, Nat.sub_add_cancel (by omega), iter_next_period hi] at this
    exact hnp this
  have hblock : ∀ y, y < 2 ^ k → 0 < cdist (2 ^ k) i y → cdist (2 ^ k) i y < m + 1 →
      Placed (data.set i none) (2 ^ k) y := by
    intro y hy hy1 hy2
    have := e4 (cdist (2 ^ k) i y - 1) (by omega)
    rw [hiter, Nat.sub_add_cancel hy1, iter_cdist hi hy] at this
    exact this
  rw [hiter] at e1
  refine ⟨m + 1, hlen1, hi, by rw [e1]; exact iter_next_lt hi _, hs1i, by omega, ?_, ?_, ?_, ?_⟩
  · rcases Nat.lt_or_ge (m + 1) (2 ^ k) with h | h
    · exact Or.inl ⟨h, by rw [e1]; exact cdist_iter hi h⟩
    · have hm : m + 1 = 2 ^ k := by omega
      exact Or.inr ⟨hm, by rw [e1, hm]; exact iter_next_period hi⟩
  · intro y hy hy1 hy2
    obtain ⟨x, hx, _⟩ := hblock y hy hy1 hy2
    rw [hx]
    rfl
  · intro p hp d' hd' y hy hdist hyi
    have hpi : p ≠ i := by
      rintro rfl
      rw [hs1i] at hd'
      cases hd'
    rw [hs1 p hpi] at hd'
    rw [hs1 y hyi]
    exact h2 p hp d' hd' y hy hdist
  · intro p hp d' hd' hp1 hp2
    obtain ⟨x, hx, hxid⟩ := hblock p hp hp1 hp2
    rw [hx] at hd'
    cases hd'
    rw [hxid, cdist_self]
    omega

theorem capacity_ne_zero_of_length {t : Hash Key Val} (hinv : Inv t) (h : t.length ≠ 0) :
    t.capacity ≠ 0 := by
  intro h0
  rw [eq_init_of_capacity_zero hinv h0] at h
  exact h rfl

theorem length_le_capacity {t : Hash Key Val} (hinv : Inv t) : t.length ≤ t.capacity := by
  have h1 : t.length = (entries t.data).length := hinv.2.1
  rw [h1, ← hinv.1.1]
  exact entries_length_le _

theorem do_remove_sound {t t' : Hash Key Val} (hinv : Inv t) {hash : Nat} {key : Key}
    {fuel : Nat} {b : Bool} (h : do_remove fuel t hash key = some (t', b)) :
    Inv t' ∧ t'.capacity = t.capacity ∧
      ((b = false ∧ t' = t) ∨
       (b = true ∧ ∃ d ∈ entries t.data, d.hash = hash ∧ d.key = key ∧
          (d :: entries t'.data).Perm (entries t.data) ∧ t'.length + 1 = t.length)) := by
  unfold do_remove at h
  split_ifs at h with hl0
  · simp only [Option.some.injEq, Prod.mk.injEq] at h
    obtain ⟨rfl, rfl⟩ := h
    exact ⟨hinv, rfl, Or.inl ⟨rfl, rfl⟩⟩
  · have hc0 := capacity_ne_zero_of_length hinv hl0
    cases hp : probe t.data (cmask t.capacity) hash key fuel (hash &&& cmask t.capacity) with
    | none => rw [hp] at h; simp at h
    | some r =>
      rw [hp] at h
      obtain ⟨p1, p2⟩ := probe_sound_inv hinv hc0 hash key hp
      cases r with
      | empty e =>
        simp only [Option.some.injEq, Prod.mk.injEq] at h
        obtain ⟨rfl, rfl⟩ := h
        exact ⟨hinv, rfl, Or.inl ⟨rfl, rfl⟩⟩
      | found i =>
        simp only at h
        obtain ⟨hic, d, hs, hh, hkk⟩ := p1 i rfl
        obtain ⟨k, hk, hc, hlen⟩ := hinv.pow hc0
        have hil : i < t.data.length := (mem_entries_slot hs).2
        have hi : i < 2 ^ k := by rw [← hlen]; exact hil
        have hst : store t.data i none = some (t.data.set i none) := by simp [store, hil]
        rw [hst] at h
        simp only [rehash_data, hc, step_one hk hi] at h
        cases hscan : scan (t.data.set i none) (cmask (2 ^ k)) fuel (next (2 ^ k) i) with
        | none => rw [hscan] at h; simp at h
        | some j =>
          rw [hscan] at h
          simp only at h
          cases hre : reinsert fuel (cmask (2 ^ k)) fuel (t.data.set i none) j with
          | none => rw [hre] at h; simp at h
          | some data2 =>
            rw [hre] at h
            simp only [Option.some.injEq, Prod.mk.injEq] at h
            obtain ⟨rfl, rfl⟩ := h
            obtain ⟨hsh, h1, h2, h3, h4⟩ := hinv
            have h2' : I2 (⟨t.data, t.length, 2 ^ k⟩ : Hash Key Val) := by
              have : I2 (⟨t.data, t.length, t.capacity⟩ : Hash Key Val) := h2
              rw [hc] at this
              exact this
            obtain ⟨n, hR⟩ := repair_init hk hlen h2' hs hscan
            obtain ⟨f2, f3, f4⟩ := reinsert_sound hk fuel _ data2 i j n hR hre
            have hperm1 := entries_set_none hs
            have hlc : t.length ≤ t.capacity := by
              unfold I1 at h1
              rw [h1, ← hsh.1]
              exact entries_length_le _
            have hdec : cdec t.length = t.length - 1 :=
              cdec_pos (by omega) (lt_of_le_of_lt hlc hsh.2)
            rw [hdec]
            refine ⟨⟨⟨by simp only; rw [f2], by simp only; rw [← hc]; exact hsh.2⟩, ?_, f3,
              Or.inr ⟨k, hk, rfl⟩, ?_⟩, hc.symm, Or.inr ⟨rfl, d, (mem_entries_slot hs).1, hh,
              hkk, (List.Perm.cons d f4).trans hperm1, by simp only; omega⟩⟩
            · unfold I1 at h1 ⊢
              simp only
              rw [f4.length_eq, h1, ← hperm1.length_eq]
              simp
            · unfold I4 at h4 ⊢
              simp only
              rw [(f4.map _).nodup_iff]
              have := ((hperm1.map (fun d => (d.hash, d.key))).nodup_iff).mpr h4
              rw [List.map_cons, List.nodup_cons] at this
              exact this.2

theorem do_remove_total {t : Hash Key Val} (hinv : Inv t) (hE : HasEmpty t)
    {d : Data Key Val} (hd : d ∈ entries t.data) {fuel : Nat} (hf : t.capacity ≤ fuel) :
    ∃ t', do_remove fuel t d.hash d.key = some (t', true) := by
  obtain ⟨i, hil, hs⟩ := mem_entries.mp hd
  obtain ⟨k, hk, hc, hlen⟩ := hinv.pow (capacity_ne_zero_of_slot hinv hs)
  have hp := probe_present hinv hE hs hf
  obtain ⟨E, hEc, hEs⟩ := hE
  rw [slot_isSome_false] at hEs
  rw [hc] at hEc hf hp
  have hi : i < 2 ^ k := by rw [← hlen]; exact hil
  have hiE : i ≠ E := by
    rintro rfl
    rw [hEs] at hs
    cases hs
  have hlen1 : (t.data.set i none).length = 2 ^ k := by simpa using hlen
  have hEs1 : slot (t.data.set i none) E = none := by
    rw [slot_set_ne _ hiE]; exact hEs
  have hnE := next_lt hi
  have hm0 := cdist_next_left hi hEc hiE
  have hiEc := cdist_lt hi hEc
  obtain ⟨m, e1, e2, e3, e4⟩ := scan_spec hk hlen1 fuel (next (2 ^ k) i)
    (cdist (2 ^ k) (next (2 ^ k) i) E) hnE
    (by
      rw [iter_cdist hnE hEc]
      rintro ⟨x, hx, _⟩
      rw [hEs1] at hx
      cases hx)
    (by omega)
  have h2' : I2 (⟨t.data, t.length, 2 ^ k⟩ : Hash Key Val) := by
    have : I2 (⟨t.data, t.length, t.capacity⟩ : Hash Key Val) := hinv.2.2.1
    rw [hc] at this
    exact this
  obtain ⟨n, hR⟩ := repair_init hk hlen h2' hs e1
  have hjE : cdist (2 ^ k) ((next (2 ^ k))^[m] (next (2 ^ k) i)) E < 2 ^ k :=
    cdist_lt (iter_next_lt hnE m) hEc
  obtain ⟨data', f1⟩ := reinsert_total hk hf fuel _ i _ n E hR hEc hEs1 (Ne.symm hiE)
    (by omega)
  have hl0 : t.length ≠ 0 := length_ne_zero_of_slot hinv hs
  have hst : store t.data i none = some (t.data.set i none) := by simp [store, hil]
  refine ⟨⟨data', cdec t.length, t.capacity⟩, ?_⟩
  unfold do_remove rehash_data
  simp only [hl0, if_false, hc, hp, hst, step_one hk hi, e1, f1]

theorem entry_unique {t : Hash Key Val} (hinv : Inv t) {d d' : Data Key Val}
    (hd : d ∈ entries t.data) (hd' : d' ∈ entries t.data) (hh : d'.hash = d.hash)
    (hk : d'.key = d.key) : d' = d := by
  obtain ⟨i, _, hi⟩ := mem_entries.mp hd
  obtain ⟨j, _, hj⟩ := mem_entries.mp hd'
  have h4 : I4 t := hinv.2.2.2.2
  have hij : j = i := slot_inj (f := fun d => (d.hash, d.key)) h4 hj hi (by simp [hh, hk])
  rw [hij, hi] at hj
  cases hj
  rfl

theorem do_remove_present {t : Hash Key Val} (hinv : Inv t) (hE : HasEmpty t) {d : Data Key Val}
    (hd : d ∈ entries t.data) {fuel : Nat} (hf : t.capacity ≤ fuel) :
    ∃ t', do_remove fuel t d.hash d.key = some (t', true) ∧ Inv t' ∧ HasEmpty t' ∧
      t'.capacity = t.capacity ∧ t'.length + 1 = t.length ∧
      (d :: entries t'.data).Perm (entries t.data) := by
  obtain ⟨t', h⟩ := do_remove_total hinv hE hd hf
  obtain ⟨e1, e2, e3⟩ := do_remove_sound hinv h
  rcases e3 with ⟨hb, _⟩ | ⟨_, d', hd', hh, hk, hperm, hlen⟩
  · cases hb
  · have hdd := entry_unique hinv hd hd' hh hk
    subst hdd
    refine ⟨t', h, e1, ?_, e2, hlen, hperm⟩
    rw [hasEmpty_iff e1.1 e1.2.1, e2]
    have := length_le_capacity hinv
    omega

theorem do_remove_absent {t : Hash Key Val} (hinv : Inv t) (hE : HasEmpty t ∨ t.length = 0)
    (hash : Nat) (key : Key)
    (habs : ∀ d ∈ entries t.data, ¬(d.hash = hash ∧ d.key = key)) {fuel : Nat}
    (hf : t.capacity ≤ fuel) :
    do_remove fuel t hash key = some (t, false) := by
  unfold do_remove
  split_ifs with h0
  · rfl
  · rcases hE with hE | hE
    · obtain ⟨e, hp, _⟩ := probe_absent hinv hE hash key habs hf
      simp only [hp]
    · exact absurd hE h0

theorem absent_after_remove {t t' : Hash Key Val} (hinv : Inv t) {d : Data Key Val}
    (hperm : (d :: entries t'.data).Perm (entries t.data)) :
    ∀ d' ∈ entries t'.data, ¬(d'.hash = d.hash ∧ d'.key = d.key) := by
  intro d' hd' hcon
  have h4 : I4 t := hinv.2.2.2.2
  unfold I4 at h4
  have := ((hperm.map (fun d => (d.hash, d.key))).nodup_iff).mpr h4
  rw [List.map_cons, List.nodup_cons] at this
  apply this.1
  rw [List.mem_map]
  exact ⟨d', hd', by simp [hcon.1, hcon.2]⟩

/-- C2: `do_append` of a key that is already present returns the existing entry for the key and
leaves the table (slot array, length, capacity) unchanged. -/
theorem C2_append_present_is_identity (hasher : Key → Nat) (t : Hash Key Val) (hinv : Inv t)
    (hE : HasEmpty t) (key : Key) (hpres : Present hasher t key) (val : Val) (fuel : Nat)
    (hf : t.capacity ≤ fuel) :
    ∃ d ∈ entries t.data, d.hash = hasher key ∧ d.key = key ∧
      do_append hasher fuel t key val = some (t, d) := by
  obtain ⟨d, hd, hh, hk⟩ := hpres
  exact ⟨d, hd, hh, hk, do_append_present hasher hinv hE hd hh hk val hf⟩

/-- C3: `remove` of a present key returns true, decreases `length` by exactly 1, and afterwards
`do_find` of the key is `nullptr`, `find` is `end()` and `contains` is false. -/
theorem C3_remove_present (hasher : Key → Nat) (t : Hash Key Val) (hinv : Inv t)
    (hE : HasEmpty t) (key : Key) (hpres : Present hasher t key) (fuel : Nat)
    (hf : t.capacity ≤ fuel) :
    ∃ t', remove hasher fuel t key = some (t', true) ∧ t'.length + 1 = t.length ∧
      do_find hasher fuel t' key = some none ∧
      find hasher fuel t' key = some t'.capacity ∧
      contains hasher fuel t' key = some false := by
  obtain ⟨d, hd, hh, hk⟩ := hpres
  obtain ⟨t', e1, e2, e3, e4, e5, e6⟩ := do_remove_present hinv hE hd hf
  rw [hh, hk] at e1
  have habs := absent_after_remove hinv e6
  rw [hh, hk] at habs
  have hcf : t'.capacity ≤ fuel := by rw [e4]; exact hf
  have hfind := do_find_absent hasher e2 e3 habs hcf
  refine ⟨t', e1, e5, hfind, ?_, ?_⟩
  · unfold find
    split_ifs
    · rfl
    · rw [hfind]
  · unfold contains
    split_ifs
    · rfl
    · rw [hfind]
      rfl

/-- C4: after `remove` of a present key, `do_find` of every other present key still succeeds and
yields the same entry (same hash, key and payload) as before the removal. -/
theorem C4_remove_keeps_other_keys (hasher : Key → Nat) (t : Hash Key Val) (hinv : Inv t)
    (hE : HasEmpty t) (key : Key) (hpres : Present hasher t key) (key' : Key)
    (hne : key' ≠ key) (d' : Data Key Val) (hd' : d' ∈ entries t.data)
    (hh' : d'.hash = hasher key') (hk' : d'.key = key') (fuel : Nat)
    (hf : t.capacity ≤ fuel) :
    ∃ t', remove hasher fuel t key = some (t', true) ∧
      ∃ i, do_find hasher fuel t' key' = some (some i) ∧ t'.data[i]? = some (some d') := by
  obtain ⟨d, hd, hh, hk⟩ := hpres
  obtain ⟨t', e1, e2, e3, e4, e5, e6⟩ := do_remove_present hinv hE hd hf
  rw [hh, hk] at e1
  have hmem : d' ∈ entries t'.data := by
    rcases List.mem_cons.mp (e6.symm.subset hd') with h | h
    · rw [h, hk] at hk'
      exact absurd hk'.symm hne
    · exact h
  have hcf : t'.capacity ≤ fuel := by rw [e4]; exact hf
  exact ⟨t', e1, do_find_present hasher e2 e3 hmem hh' hk' hcf⟩

/-- C5: `remove` of a key that is not present (in a table with an empty slot, or in a table of
length 0) returns false and leaves slot array, length and capacity unchanged. -/
theorem C5_remove_absent_is_noop (hasher : Key → Nat) (t : Hash Key Val) (hinv : Inv t)
    (hE : HasEmpty t ∨ t.length = 0) (key : Key) (habs : ¬Present hasher t key) (fuel : Nat)
    (hf : t.capacity ≤ fuel) :
    remove hasher fuel t key = some (t, false) := by
  apply do_remove_absent hinv hE (hasher key) key _ hf
  intro d hd hcon
  exact habs ⟨d, hd, hcon.1, hcon.2⟩

theorem C2_append_present_is_identity_witness :
    Inv sample ∧ HasEmpty sample ∧ Present (fun k => k) sample 9 ∧
      ∃ d ∈ entries sample.data, d.hash = 9 ∧ d.key = 9 ∧
        do_append (fun k => k) 8 sample 9 0 = some (sample, d) :=
  ⟨by decide, by decide, by decide,
    C2_append_present_is_identity (fun k => k) sample (by decide) (by decide) 9 (by decide) 0 8
      (by decide)⟩

theorem C3_remove_present_witness :
    Inv sample ∧ HasEmpty sample ∧ Present (fun k => k) sample 1 ∧
      ∃ t', remove (fun k => k) 8 sample 1 = some (t', true) ∧ t'.length + 1 = sample.length ∧
        do_find (fun k => k) 8 t' 1 = some none ∧
        find (fun k => k) 8 t' 1 = some t'.capacity ∧
        contains (fun k => k) 8 t' 1 = some false :=
  ⟨by decide, by decide, by decide,
    C3_remove_present (fun k => k) sample (by decide) (by decide) 1 (by decide) 8 (by decide)⟩

theorem C4_remove_keeps_other_keys_witness :
    Inv table123 ∧ HasEmpty table123 ∧ Present (fun k => k) table123 2 ∧
      (∃ t', remove (fun k => k) 8 table123 2 = some (t', true) ∧
        ∃ i, do_find (fun k => k) 8 t' 1 = some (some i) ∧
          t'.data[i]? = some (some ⟨1, 1, 10⟩)) ∧
      (∃ t', remove (fun k => k) 8 table123 2 = some (t', true) ∧
        ∃ i, do_find (fun k => k) 8 t' 3 = some (some i) ∧
          t'.data[i]? = some (some ⟨3, 3, 30⟩)) :=
  ⟨by decide, by decide, by decide,
    C4_remove_keeps_other_keys (fun k => k) table123 (by decide) (by decide) 2 (by decide) 1
      (by decide) ⟨1, 1, 10⟩ (by decide) rfl rfl 8 (by decide),
    C4_remove_keeps_other_keys (fun k => k) table123 (by decide) (by decide) 2 (by decide) 3
      (by decide) ⟨3, 3, 30⟩ (by decide) rfl rfl 8 (by decide)⟩

theorem C5_remove_absent_is_noop_witness :
    Inv sample ∧ HasEmpty sample ∧ ¬Present (fun k => k) sample 17 ∧
      remove (fun k => k) 8 sample 17 = some (sample, false) :=
  ⟨by decide, by decide, by decide,
    C5_remove_absent_is_noop (fun k => k) sample (by decide) (Or.inl (by decide)) 17
      (by decide) 8 (by decide)⟩

/-! ## Shrinking and reserving at small sizes -/

theorem probe_full_one (d : Data Key Val) (hash : Nat) (key : Key)
    (hne : ¬(d.hash = hash ∧ d.key = key)) :
    ∀ fuel, probe [some d] (cmask 1) hash key fuel 0 = none := by
  intro fuel
  induction fuel with
  | zero => rfl
  | succ fuel ih =>
    rw [probe]
    simp only [List.getElem?_cons_zero, hne, if_false]
    exact ih

/-- C7: `do_append(1)` followed by `shrink()` is a table of capacity 1 and length 1 (no empty
slot); the key 2 is not present in it and `do_find(2)` does not return, whatever the fuel. -/
theorem C7_find_after_shrink_never_returns :
    ∃ t1 d, do_append (fun k : Nat => k) 16 (Hash.init : Hash Nat Nat) 1 10 = some (t1, d) ∧
      shrink 16 t1 = some ⟨[some ⟨1, 1, 10⟩], 1, 1⟩ ∧
      ¬Present (fun k : Nat => k) (⟨[some ⟨1, 1, 10⟩], 1, 1⟩ : Hash Nat Nat) 2 ∧
      ∀ fuel, do_find (fun k : Nat => k) fuel (⟨[some ⟨1, 1, 10⟩], 1, 1⟩ : Hash Nat Nat) 2
        = none := by
  refine ⟨_, _, rfl, by decide, by decide, ?_⟩
  intro fuel
  unfold do_find
  simp only [if_false, Nat.one_ne_zero]
  have h0 : (2 : Nat) &&& cmask 1 = 0 := by decide
  rw [h0, probe_full_one ⟨1, 1, 10⟩ 2 2 (by decide) fuel]

/-- C9: `shrink()` of a table of capacity 8 that holds 2 entries and satisfies the invariants
gives capacity 2 = length: the load factor is 1, not below 0.85, and no slot is empty. -/
theorem C9_shrink_exceeds_load_factor :
    Inv (⟨[none, some ⟨1, 1, 10⟩, some ⟨2, 2, 20⟩, none, none, none, none, none], 2, 8⟩ :
      Hash Nat Nat) ∧
    ∃ t', shrink 16 (⟨[none, some ⟨1, 1, 10⟩, some ⟨2, 2, 20⟩, none, none, none, none, none],
        2, 8⟩ : Hash Nat Nat) = some t' ∧
      t'.capacity = 2 ∧ t'.length = 2 ∧ ¬(100 * t'.length < 85 * t'.capacity) ∧
      ¬HasEmpty t' := by
  refine ⟨by decide, _, rfl, by decide, by decide, by decide, by decide⟩

/-- C10: `reserve(7)` on the initial table gives capacity 8, so 7 / capacity is above 0.85, and
the 7th of 7 `do_append` calls of distinct keys grows the table to capacity 16. -/
theorem C10_reserve_does_not_prevent_growth :
    reserve 32 (Hash.init : Hash Nat Nat) 7 = some ⟨List.replicate 8 none, 0, 8⟩ ∧
      ¬(100 * 7 ≤ 85 * 8) ∧
      (appends (fun k : Nat => k) 32 (⟨List.replicate 8 none, 0, 8⟩ : Hash Nat Nat)
        [(1, 0), (2, 0), (3, 0), (4, 0), (5, 0), (6, 0)]).map (fun r => r.1.capacity)
        = some 8 ∧
      (appends (fun k : Nat => k) 32 (⟨List.replicate 8 none, 0, 8⟩ : Hash Nat Nat)
        [(1, 0), (2, 0), (3, 0), (4, 0), (5, 0), (6, 0), (7, 0)]).map (fun r => r.1.capacity)
        = some 16 := by
  refine ⟨by decide, by decide, by decide, by decide⟩

/-! ## The growth test at every capacity of the `Counter` range -/

set_option maxRecDepth 8000 in
theorem float_of_succ_pow {k : Nat} (h24 : 24 ≤ k) (h32 : k < 32) :
    float_of (2 ^ k + 1) = 2 ^ k * FSCALE := by
  interval_cases k <;> decide

set_option maxRecDepth 8000 in
theorem float_of_threshold {k : Nat} (h25 : 25 ≤ k) (h32 : k < 32) :
    float_of (28521267 * 2 ^ (k - 25)) = 14260634 * 2 ^ (k - 24) * FSCALE := by
  interval_cases k <;> decide

theorem load_factor_le_of_load {l k : Nat} (hk : k < 32) (hl : l ≤ 2 ^ k)
    (h : 85 * 2 ^ k ≤ 100 * l) :
    HASH_LOAD_FACTOR ≤ fdiv (float_of (l + 1)) (float_of (2 ^ k + 1)) := by
  apply load_factor_le_fdiv (float_of_pos (by omega))
  rcases Nat.lt_or_ge k 24 with hk24 | hk24
  · have hp : 2 ^ k ≤ 2 ^ 23 := Nat.pow_le_pow_right (by norm_num) (by omega)
    rw [float_of_exact (by omega : 2 ^ k + 1 < 2 ^ 24),
      float_of_exact (by omega : l + 1 < 2 ^ 24)]
    nlinarith [FSCALE_pos]
  · rw [float_of_succ_pow hk24 hk]
    rcases Nat.eq_or_lt_of_le hk24 with h24 | h25
    · subst h24
      rcases Nat.lt_or_ge (l + 1) (2 ^ 24) with hlt | hge
      · rw [float_of_exact hlt]
        nlinarith [FSCALE_pos]
      · have hm := float_of_mono hge
        rw [float_of_pow] at hm
        calc 85 * (2 ^ 24 * FSCALE) ≤ 100 * (2 ^ 24 * FSCALE) :=
              Nat.mul_le_mul_right _ (by norm_num)
          _ ≤ 100 * float_of (l + 1) := Nat.mul_le_mul_left _ hm
    · have hsplit : 2 ^ k = 2 ^ 25 * 2 ^ (k - 25) := by
        rw [← pow_add]
        congr 1
        omega
      have hsplit' : 2 ^ (k - 24) = 2 * 2 ^ (k - 25) := by
        rw [← pow_succ']
        congr 1
        omega
      have hx : 28521267 * 2 ^ (k - 25) ≤ l + 1 := by
        rw [hsplit] at h
        norm_num at h
        omega
      have hm := float_of_mono hx
      rw [float_of_threshold h25 hk, hsplit'] at hm
      rw [hsplit]
      calc 85 * (2 ^ 25 * 2 ^ (k - 25) * FSCALE)
          = 2852126720 * (2 ^ (k - 25) * FSCALE) := by norm_num; ring
        _ ≤ 2852126800 * (2 ^ (k - 25) * FSCALE) := Nat.mul_le_mul_right _ (by norm_num)
        _ = 100 * (14260634 * (2 * 2 ^ (k - 25)) * FSCALE) := by ring
        _ ≤ 100 * float_of (l + 1) := Nat.mul_le_mul_left _ hm

theorem is_need_realloc_false_pow {t : Hash Key Val} {k : Nat} (hk : k < 32)
    (hc : t.capacity = 2 ^ k) (hl : t.length ≤ t.capacity)
    (h : is_need_realloc t = false) : 100 * t.length < 85 * t.capacity := by
  unfold is_need_realloc at h
  rw [decide_eq_false_iff_not] at h
  have h31 : 2 ^ k ≤ 2 ^ 31 := Nat.pow_le_pow_right (by norm_num) (by omega)
  have hcs' : t.capacity + 1 < COUNTER_SIZE := by
    unfold COUNTER_SIZE
    rw [hc]
    norm_num at h31 ⊢
    omega
  rw [cinc_small hcs', cinc_small (by omega), hc] at h
  by_contra hcon
  exact h (load_factor_le_of_load hk (by omega) (by rw [hc] at hcon; omega))

/-! ## Load factor after `do_append` -/

/-- Invariant of the tables reached by `do_append` and `remove` after at most `n` calls. -/
theorem append_keeps_load (hasher : Key → Nat) {t : Hash Key Val} {n : Nat} (hinv : Inv t)
    (hload : t.capacity = 0 ∨ (HasEmpty t ∧ 100 * t.length < 85 * t.capacity))
    (hcap : t.capacity ≤ max 8 (4 * n)) (hln : t.length ≤ n) (hn : n < 2 ^ 29)
    (key : Key) (val : Val) {fuel : Nat} (hf : 16 + 8 * (n + 1) ≤ fuel) :
    ∃ t' d, do_append hasher fuel t key val = some (t', d) ∧ Inv t' ∧
      HasEmpty t' ∧ 100 * t'.length < 85 * t'.capacity ∧
      t'.capacity ≤ max 8 (4 * (n + 1)) ∧ t'.length ≤ n + 1 := by
  have core : ∀ s : Hash Key Val, Inv s → HasEmpty s → 100 * s.length < 85 * s.capacity →
      s.capacity ≤ max 8 (4 * n) → s.length ≤ n →
      ∃ t' d, do_append hasher fuel s key val = some (t', d) ∧ Inv t' ∧
        HasEmpty t' ∧ 100 * t'.length < 85 * t'.capacity ∧
        t'.capacity ≤ max 8 (4 * (n + 1)) ∧ t'.length ≤ n + 1 := by
    intro s hs hE hl hc hsn
    have hlt : s.length < s.capacity := (hasEmpty_iff hs.1 hs.2.1).mp hE
    by_cases hp : ∃ d ∈ entries s.data, d.hash = hasher key ∧ d.key = key
    · obtain ⟨d, hd, hh, hk⟩ := hp
      have hfs : s.capacity ≤ fuel := by omega
      exact ⟨s, d, do_append_present hasher hs hE hd hh hk val hfs, hs, hE, hl,
        by omega, by omega⟩
    · have habs : ∀ d ∈ entries s.data, ¬(d.hash = hasher key ∧ d.key = key) :=
        fun d hd hcon => hp ⟨d, hd, hcon⟩
      have hfs : 2 * s.capacity ≤ fuel := by omega
      obtain ⟨k, hk, hck, _⟩ := hs.pow (by omega)
      obtain ⟨t', e1, e2, e3, e4, e5, e6⟩ := do_append_absent hasher hs hE habs val
        (by omega) hfs
      refine ⟨t', _, e1, e2, e3, ?_, ?_, by omega⟩
      · rw [e5, e6]
        split_ifs with hneed
        · omega
        · have := is_need_realloc_false_pow (t := (⟨[], s.length + 1, s.capacity⟩ :
            Hash Key Val)) hk hck (by simp only; omega) (by simpa using hneed)
          simp only at this
          omega
      · rw [e6]
        split_ifs with hneed
        · have := is_need_realloc_pow (t := (⟨[], s.length + 1, s.capacity⟩ : Hash Key Val))
            hk hck (by simp only; omega) hneed
          simp only at this
          omega
        · omega
  rcases hload with h0 | ⟨hE, hl⟩
  · rw [eq_init_of_capacity_zero hinv h0, do_append_init]
    exact core _ inv_first hasEmpty_first (by norm_num) (by simp) (by simp)
  · exact core t hinv hE hl hcap hln

theorem remove_keeps_load (hasher : Key → Nat) {t : Hash Key Val} (hinv : Inv t)
    (hload : t.capacity = 0 ∨ (HasEmpty t ∧ 100 * t.length < 85 * t.capacity))
    (key : Key) {fuel : Nat} (hf : t.capacity ≤ fuel) :
    ∃ t' b, remove hasher fuel t key = some (t', b) ∧ Inv t' ∧
      (t'.capacity = 0 ∨ (HasEmpty t' ∧ 100 * t'.length < 85 * t'.capacity)) ∧
      t'.capacity = t.capacity ∧ t'.length ≤ t.length := by
  by_cases hp : ∃ d ∈ entries t.data, d.hash = hasher key ∧ d.key = key
  · obtain ⟨d, hd, hh, hk⟩ := hp
    have hc0 : t.capacity ≠ 0 := by
      obtain ⟨i, hi, hs⟩ := mem_entries.mp hd
      exact capacity_ne_zero_of_slot hinv hs
    rcases hload with h0 | ⟨hE, hl⟩
    · exact absurd h0 hc0
    · obtain ⟨t', e1, e2, e3, e4, e5, e6⟩ := do_remove_present hinv hE hd hf
      rw [hh, hk] at e1
      exact ⟨t', true, e1, e2, Or.inr ⟨e3, by rw [e4]; omega⟩, e4, by omega⟩
  · have habs : ∀ d ∈ entries t.data, ¬(d.hash = hasher key ∧ d.key = key) :=
      fun d hd hcon => hp ⟨d, hd, hcon⟩
    have hE : HasEmpty t ∨ t.length = 0 := by
      rcases hload with h0 | ⟨hE, _⟩
      · right
        rw [eq_init_of_capacity_zero hinv h0]
        rfl
      · exact Or.inl hE
    exact ⟨t, false, do_remove_absent hinv hE (hasher key) key habs hf, hinv, hload, rfl,
      le_rfl⟩

theorem run_keeps_load (hasher : Key → Nat) {fuel : Nat} :
    ∀ (ops : List (Op Key Val)) (t : Hash Key Val) (n : Nat),
      (∀ op ∈ ops, is_append_or_remove op = true) → Inv t →
      (t.capacity = 0 ∨ (HasEmpty t ∧ 100 * t.length < 85 * t.capacity)) →
      t.capacity ≤ max 8 (4 * n) → t.length ≤ n → n + ops.length ≤ 2 ^ 29 →
      16 + 8 * (n + ops.length) ≤ fuel →
      ∃ t', run hasher fuel t ops = some t' ∧ Inv t' ∧
        (t'.capacity = 0 ∨ (HasEmpty t' ∧ 100 * t'.length < 85 * t'.capacity)) ∧
        t'.capacity ≤ max 8 (4 * (n + ops.length)) ∧ t'.length ≤ n + ops.length := by
  intro ops
  induction ops with
  | nil =>
    intro t n _ hinv hload hcap hln _ _
    exact ⟨t, rfl, hinv, hload, by simpa using hcap, by simpa using hln⟩
  | cons op rest ih =>
    intro t n hops hinv hload hcap hln hn hf
    simp only [List.length_cons] at hn hf
    have hrest : ∀ op ∈ rest, is_append_or_remove op = true :=
      fun o ho => hops o (List.mem_cons_of_mem _ ho)
    have hop := hops op (List.mem_cons_self _ _)
    cases op with
    | append key val =>
      have hf1 : 16 + 8 * (n + 1) ≤ fuel := by omega
      obtain ⟨t1, d, e1, e2, e3, e4, e5, e6⟩ :=
        append_keeps_load hasher hinv hload hcap hln (by omega) key val hf1
      obtain ⟨t2, f1, f2, f3, f4, f5⟩ := ih t1 (n + 1) hrest e2 (Or.inr ⟨e3, e4⟩) e5 e6
        (by omega) (by omega)
      refine ⟨t2, ?_, f2, f3, ?_, ?_⟩
      · simp only [run, apply_op, e1, Option.map_some']
        exact f1
      · simp only [List.length_cons]
        rw [show n + (rest.length + 1) = n + 1 + rest.length by omega]
        exact f4
      · simp only [List.length_cons]
        omega
    | remove key =>
      have hf1 : t.capacity ≤ fuel := by omega
      obtain ⟨t1, b, e1, e2, e3, e4, e5⟩ := remove_keeps_load hasher hinv hload key hf1
      obtain ⟨t2, f1, f2, f3, f4, f5⟩ := ih t1 (n + 1) hrest e2 e3 (by omega) (by omega)
        (by omega) (by omega)
      refine ⟨t2, ?_, f2, f3, ?_, ?_⟩
      · simp only [run, apply_op, e1, Option.map_some']
        exact f1
      · simp only [List.length_cons]
        rw [show n + (rest.length + 1) = n + 1 + rest.length by omega]
        exact f4
      · simp only [List.length_cons]
        omega
    | reserve size => simp [is_append_or_remove] at hop
    | shrink => simp [is_append_or_remove] at hop
    | clear => simp [is_append_or_remove] at hop
    | destroy => simp [is_append_or_remove] at hop

theorem inv_init : Inv (Hash.init : Hash Key Val) := by
  refine ⟨⟨rfl, ?_⟩, rfl, ?_, Or.inl rfl, List.nodup_nil⟩
  · show 0 < COUNTER_SIZE
    unfold COUNTER_SIZE
    norm_num
  · intro i hi
    simp [Hash.init] at hi

/-! ## `round_up` -/

theorem smear_one (w : Nat) : Smear 1 w w := by
  intro n
  constructor
  · intro h
    exact ⟨0, by norm_num, h⟩
  · rintro ⟨j, hj, h⟩
    have : j = 0 := by omega
    subst this
    exact h

theorem smear_step {m x w : Nat} (h : Smear m x w) : Smear (m * 2) (x ||| (x >>> m)) w := by
  intro n
  rw [Nat.testBit_or, Nat.testBit_shiftRight, Bool.or_eq_true, h n, h (m + n)]
  constructor
  · rintro (⟨j, hj, hb⟩ | ⟨j, hj, hb⟩)
    · exact ⟨j, by omega, hb⟩
    · exact ⟨m + j, by omega, by rw [← hb]; congr 1; omega⟩
  · rintro ⟨j, hj, hb⟩
    rcases Nat.lt_or_ge j m with hlt | hge
    · exact Or.inl ⟨j, hlt, hb⟩
    · exact Or.inr ⟨j - m, by omega, by rw [← hb]; congr 1; omega⟩

theorem round_up_loop_smear (w : Nat) : Smear 32 (round_up_loop 32 1 w) w := by
  have h1 := smear_step (smear_one w)
  have h2 := smear_step h1
  have h3 := smear_step h2
  have h4 := smear_step h3
  have h5 := smear_step h4
  exact h5

theorem round_up_loop_eq {w i : Nat} (hw : w < 2 ^ 32) (hi : w.testBit i = true)
    (htop : ∀ j, i < j → w.testBit j = false) : round_up_loop 32 1 w = 2 ^ (i + 1) - 1 := by
  have hi32 : i < 32 := by
    have := Nat.testBit_implies_ge hi
    exact (Nat.pow_lt_pow_iff_right (by norm_num : 1 < 2)).mp (lt_of_le_of_lt this hw)
  apply Nat.eq_of_testBit_eq
  intro n
  rw [Nat.testBit_two_pow_sub_one]
  have hs := round_up_loop_smear w n
  by_cases hn : n < i + 1
  · rw [decide_eq_true hn]
    exact hs.mpr ⟨i - n, by omega, by rw [← hi]; congr 1; omega⟩
  · rw [decide_eq_false hn]
    cases hb : (round_up_loop 32 1 w).testBit n with
    | false => rfl
    | true =>
      obtain ⟨j, _, hj⟩ := hs.mp hb
      rw [htop (n + j) (by omega)] at hj
      cases hj

theorem round_up_loop_zero : round_up_loop 32 1 0 = 0 := by decide

theorem round_up_range (v : Nat) : round_up v = 0 ∨ ∃ k, k < 32 ∧ round_up v = 2 ^ k := by
  unfold round_up
  have hw : cdec v < 2 ^ 32 := by
    unfold cdec COUNTER_SIZE
    exact Nat.mod_lt _ (by norm_num)
  rcases Nat.eq_zero_or_pos (cdec v) with h0 | h0
  · rw [h0, round_up_loop_zero]
    exact Or.inr ⟨0, by norm_num, by decide⟩
  · obtain ⟨i, hi, htop⟩ := Nat.exists_most_significant_bit (by omega : cdec v ≠ 0)
    rw [round_up_loop_eq hw hi htop]
    have hi32 : i < 32 := by
      have := Nat.testBit_implies_ge hi
      exact (Nat.pow_lt_pow_iff_right (by norm_num : 1 < 2)).mp (lt_of_le_of_lt this hw)
    have hpos : 0 < 2 ^ (i + 1) := Nat.pos_pow_of_pos _ (by norm_num)
    unfold cinc
    rw [Nat.sub_add_cancel hpos]
    rcases Nat.lt_or_ge (i + 1) 32 with h | h
    · exact Or.inr ⟨i + 1, h, Nat.mod_eq_of_lt (pow_lt_counter h)⟩
    · have : i + 1 = 32 := by omega
      rw [this]
      exact Or.inl (by unfold COUNTER_SIZE; norm_num)

theorem round_up_ge {v : Nat} (h1 : 1 ≤ v) (h2 : v ≤ 2 ^ 31) :
    ∃ k, k < 32 ∧ round_up v = 2 ^ k ∧ v ≤ 2 ^ k ∧ 2 ^ k < 2 * v := by
  unfold round_up
  have hv : cdec v = v - 1 := cdec_pos (by omega) (by unfold COUNTER_SIZE; omega)
  rw [hv]
  rcases Nat.eq_zero_or_pos (v - 1) with h0 | h0
  · rw [h0, round_up_loop_zero]
    exact ⟨0, by norm_num, by decide, by norm_num; omega, by norm_num; omega⟩
  · obtain ⟨i, hi, htop⟩ := Nat.exists_most_significant_bit (by omega : v - 1 ≠ 0)
    have hw : v - 1 < 2 ^ 31 := by omega
    have hlow : 2 ^ i ≤ v - 1 := Nat.testBit_implies_ge hi
    have hi31 : i < 31 := by
      have := Nat.testBit_implies_ge hi
      exact (Nat.pow_lt_pow_iff_right (by norm_num : 1 < 2)).mp (lt_of_le_of_lt this hw)
    rw [round_up_loop_eq (by omega) hi htop]
    have hpos : 0 < 2 ^ (i + 1) := Nat.pos_pow_of_pos _ (by norm_num)
    have hlt : v - 1 < 2 ^ (i + 1) := Nat.lt_pow_two_of_testBit _ (fun j hj => htop j (by omega))
    unfold cinc
    rw [Nat.sub_add_cancel hpos]
    exact ⟨i + 1, by omega, Nat.mod_eq_of_lt (pow_lt_counter (by omega)), by omega,
      by rw [pow_succ]; omega⟩

/-! ## Every operation preserves the invariants -/

theorem rehash_loop_sound {k : Nat} (hk : k < 32) (data : List (Option (Data Key Val)))
    {fuel : Nat} :
    ∀ (n i : Nat) (new_data nd' : List (Option (Data Key Val))), i + n = data.length →
      new_data.length = 2 ^ k → I2 (⟨new_data, 0, 2 ^ k⟩ : Hash Key Val) →
      rehash_loop fuel data (cmask (2 ^ k)) n i new_data = some nd' →
      nd'.length = 2 ^ k ∧ I2 (⟨nd', 0, 2 ^ k⟩ : Hash Key Val) ∧
        (entries nd').Perm (entries new_data ++ entries (data.drop i)) := by
  intro n
  induction n with
  | zero =>
    intro i nd nd' hi hlen h2 h
    simp only [rehash_loop, Option.some.injEq] at h
    subst h
    refine ⟨hlen, h2, ?_⟩
    rw [List.drop_of_length_le (by omega)]
    simp [entries]
  | succ n ih =>
    intro i nd nd' hi hlen h2 h
    have hil : i < data.length := by omega
    rw [rehash_loop, get_eq_slot hil] at h
    rw [entries_drop hil]
    cases hs : slot data i with
    | none =>
      rw [hs] at h
      simp only [List.nil_append] at h ⊢
      exact ih (i + 1) nd nd' (by omega) hlen h2 h
    | some d =>
      rw [hs] at h
      simp only at h
      cases he : find_empty nd (cmask (2 ^ k)) fuel (d.hash &&& cmask (2 ^ k)) with
      | none => rw [he] at h; simp at h
      | some e =>
        rw [he] at h
        have hx : d.hash &&& cmask (2 ^ k) < 2 ^ k := ideal_lt hk d
        obtain ⟨hec, hes, hrun⟩ := find_empty_sound hk hlen fuel _ e hx he
        have hst : store nd e (some d) = some (nd.set e (some d)) := by
          simp [store, hlen, hec]
        simp only [hst] at h
        have hperm := entries_set_some d (by omega : e < nd.length) hes
        obtain ⟨h3, h4, h5⟩ := ih (i + 1) (nd.set e (some d)) nd' (by omega)
          (by simp [hlen]) (I2_set_some h2 hlen hec hes hrun) h
        refine ⟨h3, h4, h5.trans ?_⟩
        refine (List.Perm.append_right _ hperm).trans ?_
        simp only [List.cons_append, List.nil_append]
        exact List.perm_middle.symm

theorem find_empty_nil (mask fuel index : Nat) :
    find_empty ([] : List (Option (Data Key Val))) mask fuel index = none := by
  cases fuel <;> simp [find_empty]

theorem rehash_loop_zero (data : List (Option (Data Key Val))) {fuel mask : Nat} :
    ∀ (n i : Nat) (nd' : List (Option (Data Key Val))), i + n = data.length →
      rehash_loop fuel data mask n i [] = some nd' →
      nd' = [] ∧ entries (data.drop i) = [] := by
  intro n
  induction n with
  | zero =>
    intro i nd' hi h
    simp only [rehash_loop, Option.some.injEq] at h
    refine ⟨h.symm, ?_⟩
    rw [List.drop_of_length_le (by omega)]
    rfl
  | succ n ih =>
    intro i nd' hi h
    have hil : i < data.length := by omega
    rw [rehash_loop, get_eq_slot hil] at h
    rw [entries_drop hil]
    cases hs : slot data i with
    | none =>
      rw [hs] at h
      simp only [List.nil_append] at h ⊢
      exact ih (i + 1) nd' (by omega) h
    | some d =>
      rw [hs] at h
      simp only [find_empty_nil] at h
      cases h

theorem rehash_sound {t t' : Hash Key Val} (hinv : Inv t) {nc : Nat}
    (hnc : nc = 0 ∨ ∃ k, k < 32 ∧ nc = 2 ^ k) {fuel : Nat}
    (h : rehash fuel t nc = some t') :
    Inv t' ∧ t'.capacity = nc ∧ t'.length = t.length ∧
      (entries t'.data).Perm (entries t.data) := by
  obtain ⟨hs, h1, _, _, h4⟩ := hinv
  unfold I1 at h1
  unfold rehash at h
  cases hl : rehash_loop fuel t.data (cmask nc) t.capacity 0 (List.replicate nc none) with
  | none => rw [hl] at h; simp at h
  | some nd =>
    rw [hl] at h
    simp only [Option.some.injEq] at h
    subst h
    rcases hnc with h0 | ⟨k, hk, hck⟩
    · subst h0
      obtain ⟨e1, e2⟩ := rehash_loop_zero t.data t.capacity 0 nd (by rw [hs.1]; omega) hl
      subst e1
      simp only [List.drop_zero] at e2
      rw [e2] at h1
      simp only [List.length_nil] at h1
      rw [h1, e2]
      exact ⟨inv_init, rfl, rfl, List.Perm.refl _⟩
    · subst hck
      have h0 : I2 (⟨List.replicate (2 ^ k) none, 0, 2 ^ k⟩ : Hash Key Val) := by
        intro i _ d hd
        simp only [slot_replicate] at hd
        cases hd
      obtain ⟨e2, e3, e4⟩ := rehash_loop_sound hk t.data t.capacity 0
        (List.replicate (2 ^ k) none) nd (by rw [hs.1]; omega) (by simp) h0 hl
      rw [entries_replicate] at e4
      simp only [List.nil_append, List.drop_zero] at e4
      refine ⟨⟨⟨e2, pow_lt_counter hk⟩, ?_, e3, Or.inr ⟨k, hk, rfl⟩, ?_⟩, rfl, rfl, e4⟩
      · unfold I1
        simp only
        rw [e4.length_eq, h1]
      · unfold I4 at h4 ⊢
        exact ((e4.map _).nodup_iff).mpr h4

theorem cshl1_range {k : Nat} (hk : k < 32) :
    cshl1 (2 ^ k) = 0 ∨ ∃ j, j < 32 ∧ cshl1 (2 ^ k) = 2 ^ j := by
  rcases Nat.lt_or_ge (k + 1) 32 with h | h
  · exact Or.inr ⟨k + 1, h, cshl1_pow h⟩
  · have : k = 31 := by omega
    subst this
    exact Or.inl (by decide)

theorem do_append_cases_core (hasher : Key → Nat) {t t' : Hash Key Val} (hinv : Inv t)
    (hc0 : t.capacity ≠ 0) {key : Key} {val : Val} {fuel : Nat} {d : Data Key Val}
    (h : do_append hasher fuel t key val = some (t', d)) :
    Inv t' ∧
      ((t' = t ∧ d ∈ entries t.data ∧ d.hash = hasher key ∧ d.key = key) ∨
       ((∀ e ∈ entries t.data, ¬(e.hash = hasher key ∧ e.key = key)) ∧
         d = ⟨hasher key, key, val⟩ ∧ (entries t'.data).Perm (d :: entries t.data) ∧
         t'.length = t.length + 1 ∧ 100 * t'.length < 85 * t'.capacity)) := by
  unfold do_append at h
  simp only [hc0, if_false] at h
  cases hp : probe t.data (cmask t.capacity) (hasher key) key fuel
      (hasher key &&& cmask t.capacity) with
  | none => rw [hp] at h; simp at h
  | some r =>
    rw [hp] at h
    obtain ⟨p1, p2⟩ := probe_sound_inv hinv hc0 (hasher key) key hp
    cases r with
    | found i =>
      obtain ⟨hic, d', hs, hh, hkk⟩ := p1 i rfl
      simp only [get_eq_slot (mem_entries_slot hs).2, hs, Option.some.injEq,
        Prod.mk.injEq] at h
      obtain ⟨rfl, rfl⟩ := h
      exact ⟨hinv, Or.inl ⟨rfl, (mem_entries_slot hs).1, hh, hkk⟩⟩
    | empty e =>
      obtain ⟨he, hes, hrun, habs⟩ := p2 e rfl
      obtain ⟨k, hk, hck, hlen⟩ := hinv.pow hc0
      have hE : HasEmpty t := ⟨e, he, slot_isSome_false.mpr hes⟩
      have hlt : t.length < t.capacity := (hasEmpty_iff hinv.1 hinv.2.1).mp hE
      have hcs : t.capacity < COUNTER_SIZE := hinv.1.2
      have hinc : cinc t.length = t.length + 1 := cinc_small (by omega)
      obtain ⟨hs, h1, h2, h3, h4⟩ := hinv
      have hel : e < t.data.length := by rw [hs.1]; exact he
      have hperm := entries_set_some (⟨hasher key, key, val⟩ : Data Key Val) hel hes
      have hinv2 : Inv (⟨t.data.set e (some ⟨hasher key, key, val⟩), t.length + 1,
          t.capacity⟩ : Hash Key Val) := by
        refine ⟨⟨by simpa using hs.1, hs.2⟩, ?_, ?_, h3, ?_⟩
        · unfold I1 at h1 ⊢
          simp only
          rw [hperm.length_eq, List.length_cons, h1]
        · exact I2_set_some (l := t.length) h2 hs.1 he hes hrun
        · unfold I4 at h4 ⊢
          simp only
          rw [(hperm.map _).nodup_iff, List.map_cons, List.nodup_cons]
          refine ⟨?_, h4⟩
          intro hmem
          obtain ⟨d, hd, hde⟩ := List.mem_map.mp hmem
          simp only [Prod.mk.injEq] at hde
          exact habs d hd hde
      have hst : store t.data e (some ⟨hasher key, key, val⟩)
          = some (t.data.set e (some ⟨hasher key, key, val⟩)) := by simp [store, hel]
      simp only [hst, hinc] at h
      have hpos : 0 < 2 ^ k := Nat.pos_pow_of_pos k (by norm_num)
      split_ifs at h with hneed
      · cases hre : realloc fuel (⟨t.data.set e (some ⟨hasher key, key, val⟩), t.length + 1,
            t.capacity⟩ : Hash Key Val) with
        | none => rw [hre] at h; simp at h
        | some t3 =>
          rw [hre] at h
          simp only [Option.some.injEq, Prod.mk.injEq] at h
          obtain ⟨rfl, rfl⟩ := h
          unfold realloc at hre
          simp only [hc0, if_false] at hre
          have hrange : cshl1 t.capacity = 0 ∨ ∃ j, j < 32 ∧ cshl1 t.capacity = 2 ^ j := by
            rw [hck]; exact cshl1_range hk
          obtain ⟨f1, f2, f3, f4⟩ := rehash_sound hinv2 hrange hre
          refine ⟨f1, Or.inr ⟨habs, rfl, f4.trans hperm, f3, ?_⟩⟩
          -- the doubled capacity is not 0: the new table holds an entry
          have hle := length_le_capacity f1
          rw [f3] at hle ⊢
          simp only at hle ⊢
          rcases Nat.lt_or_ge (k + 1) 32 with hk1 | hk1
          · have hsh : cshl1 t.capacity = 2 ^ (k + 1) := by rw [hck]; exact cshl1_pow hk1
            rw [f2, hsh, pow_succ]
            omega
          · have hk31 : k = 31 := by omega
            have hsh : cshl1 t.capacity = 0 := by
              rw [hck, hk31]
              decide
            rw [f2, hsh] at hle
            omega
      · simp only [Option.some.injEq, Prod.mk.injEq] at h
        obtain ⟨rfl, rfl⟩ := h
        refine ⟨hinv2, Or.inr ⟨habs, rfl, hperm, rfl, ?_⟩⟩
        have := is_need_realloc_false_pow (t := (⟨t.data.set e (some ⟨hasher key, key, val⟩),
          t.length + 1, t.capacity⟩ : Hash Key Val)) hk hck (by simp only; omega)
          (by simpa using hneed)
        exact this

theorem do_append_cases (hasher : Key → Nat) {t t' : Hash Key Val} (hinv : Inv t)
    {key : Key} {val : Val} {fuel : Nat} {d : Data Key Val}
    (h : do_append hasher fuel t key val = some (t', d)) :
    Inv t' ∧ t'.capacity ≠ 0 ∧
      ((t' = t ∧ d ∈ entries t.data ∧ d.hash = hasher key ∧ d.key = key) ∨
       ((∀ e ∈ entries t.data, ¬(e.hash = hasher key ∧ e.key = key)) ∧
         d = ⟨hasher key, key, val⟩ ∧ (entries t'.data).Perm (d :: entries t.data) ∧
         t'.length = t.length + 1 ∧ 100 * t'.length < 85 * t'.capacity)) := by
  by_cases hc0 : t.capacity = 0
  · have hti := eq_init_of_capacity_zero hinv hc0
    rw [hti, do_append_init] at h
    obtain ⟨e1, e2⟩ := do_append_cases_core hasher inv_first (by norm_num) h
    rcases e2 with ⟨_, hd, _⟩ | ⟨f1, f2, f3, f4, f5⟩
    · rw [entries_replicate] at hd
      cases hd
    · refine ⟨e1, by omega, Or.inr ⟨?_, f2, ?_, ?_, f5⟩⟩
      · rw [hti]
        intro e he
        cases he
      · rw [hti]
        rw [entries_replicate] at f3
        exact f3
      · rw [hti]
        exact f4
  · obtain ⟨e1, e2⟩ := do_append_cases_core hasher hinv hc0 h
    refine ⟨e1, ?_, e2⟩
    rcases e2 with ⟨rfl, _⟩ | ⟨_, _, _, _, f5⟩
    · exact hc0
    · omega

theorem do_append_sound (hasher : Key → Nat) {t t' : Hash Key Val} (hinv : Inv t)
    {key : Key} {val : Val} {fuel : Nat} {d : Data Key Val}
    (h : do_append hasher fuel t key val = some (t', d)) :
    Inv t' ∧ d ∈ entries t'.data ∧ d.hash = hasher key ∧ d.key = key := by
  obtain ⟨e1, _, e2⟩ := do_append_cases hasher hinv h
  rcases e2 with ⟨rfl, hd, hh, hk⟩ | ⟨_, rfl, hperm, _, _⟩
  · exact ⟨e1, hd, hh, hk⟩
  · exact ⟨e1, hperm.symm.subset (List.mem_cons_self _ _), rfl, rfl⟩

theorem do_append_total (hasher : Key → Nat) {t : Hash Key Val} (hinv : Inv t)
    (hE : HasEmpty t ∨ t.capacity = 0) (hcap : t.capacity < 2 ^ 31) (key : Key) (val : Val)
    {fuel : Nat} (hf : 16 + 2 * t.capacity ≤ fuel) :
    ∃ t' d, do_append hasher fuel t key val = some (t', d) := by
  have core : ∀ s : Hash Key Val, Inv s → HasEmpty s → s.capacity < 2 ^ 31 →
      2 * s.capacity ≤ fuel → ∃ t' d, do_append hasher fuel s key val = some (t', d) := by
    intro s hs hsE hsc hsf
    by_cases hp : ∃ d ∈ entries s.data, d.hash = hasher key ∧ d.key = key
    · obtain ⟨d, hd, hh, hk⟩ := hp
      have hfs : s.capacity ≤ fuel := by omega
      exact ⟨s, d, do_append_present hasher hs hsE hd hh hk val hfs⟩
    · have habs : ∀ d ∈ entries s.data, ¬(d.hash = hasher key ∧ d.key = key) :=
        fun d hd hcon => hp ⟨d, hd, hcon⟩
      obtain ⟨t', e1, _⟩ := do_append_absent hasher hs hsE habs val hsc hsf
      exact ⟨t', _, e1⟩
  by_cases hc0 : t.capacity = 0
  · rw [eq_init_of_capacity_zero hinv hc0, do_append_init]
    exact core _ inv_first hasEmpty_first (by norm_num) (by simp only; omega)
  · rcases hE with hE | hE
    · exact core t hinv hE hcap (by omega)
    · exact absurd hE hc0

theorem do_remove_returns {t : Hash Key Val} (hinv : Inv t) (hE : HasEmpty t ∨ t.length = 0)
    (hash : Nat) (key : Key) {fuel : Nat} (hf : t.capacity ≤ fuel) :
    ∃ t' b, do_remove fuel t hash key = some (t', b) := by
  by_cases hp : ∃ d ∈ entries t.data, d.hash = hash ∧ d.key = key
  · obtain ⟨d, hd, hh, hk⟩ := hp
    rcases hE with hE | hE
    · obtain ⟨t', h⟩ := do_remove_total hinv hE hd hf
      rw [hh, hk] at h
      exact ⟨t', true, h⟩
    · obtain ⟨i, _, hs⟩ := mem_entries.mp hd
      exact absurd hE (length_ne_zero_of_slot hinv hs)
  · have habs : ∀ d ∈ entries t.data, ¬(d.hash = hash ∧ d.key = key) :=
      fun d hd hcon => hp ⟨d, hd, hcon⟩
    exact ⟨t, false, do_remove_absent hinv hE hash key habs hf⟩

theorem target_bounds {l : Nat} (hl : l < 2 ^ 23) : l ≤ target l ∧ target l ≤ 2 * l + 1 := by
  have hLF1 : HASH_LOAD_FACTOR ≤ FSCALE := by decide
  have hLF2 : FSCALE ≤ 2 * HASH_LOAD_FACTOR := by decide
  have hLF0 : 0 < HASH_LOAD_FACTOR := by decide
  have hH : HALF ≤ FSCALE := by decide
  have hx : float_of l = l * FSCALE := float_of_exact (by omega)
  have hx2 : f32 (2 * l * FSCALE) 1 = 2 * l * FSCALE := float_of_exact (by omega : 2 * l < 2 ^ 24)
  have hx3 : f32 ((2 * l + 1) * FSCALE) 1 = (2 * l + 1) * FSCALE :=
    float_of_exact (by omega : 2 * l + 1 < 2 ^ 24)
  have hx1 : f32 (l * FSCALE) 1 = l * FSCALE := hx
  have hy1 : l * FSCALE ≤ fdiv (l * FSCALE) HASH_LOAD_FACTOR := by
    have h := @f32_mono (l * FSCALE) 1 (l * FSCALE * FSCALE) HASH_LOAD_FACTOR
      (by norm_num) hLF0
      (by rw [mul_one]; exact Nat.mul_le_mul_left _ hLF1)
    rw [hx1] at h
    exact h
  have hy2 : fdiv (l * FSCALE) HASH_LOAD_FACTOR ≤ 2 * l * FSCALE := by
    have h := @f32_mono (l * FSCALE * FSCALE) HASH_LOAD_FACTOR (2 * l * FSCALE) 1
      hLF0 (by norm_num)
      (by
        rw [mul_one]
        calc l * FSCALE * FSCALE ≤ l * FSCALE * (2 * HASH_LOAD_FACTOR) :=
              Nat.mul_le_mul_left _ hLF2
          _ = 2 * l * FSCALE * HASH_LOAD_FACTOR := by ring)
    rw [hx2] at h
    exact h
  have hz1 : l * FSCALE ≤ fadd (fdiv (l * FSCALE) HASH_LOAD_FACTOR) HALF := by
    have h := @f32_mono (l * FSCALE) 1 (fdiv (l * FSCALE) HASH_LOAD_FACTOR + HALF) 1
      (by norm_num) (by norm_num) (by omega)
    rw [hx1] at h
    exact h
  have hz2 : fadd (fdiv (l * FSCALE) HASH_LOAD_FACTOR) HALF ≤ (2 * l + 1) * FSCALE := by
    have h := @f32_mono (fdiv (l * FSCALE) HASH_LOAD_FACTOR + HALF) 1
      ((2 * l + 1) * FSCALE) 1 (by norm_num) (by norm_num)
      (by
        have : (2 * l + 1) * FSCALE = 2 * l * FSCALE + FSCALE := by ring
        omega)
    rw [hx3] at h
    exact h
  unfold target counter_of
  rw [hx]
  constructor
  · exact (Nat.le_div_iff_mul_le FSCALE_pos).mpr hz1
  · have hz3 : fadd (fdiv (l * FSCALE) HASH_LOAD_FACTOR) HALF ≤ FSCALE * (2 * l + 1) := by
      rw [Nat.mul_comm FSCALE (2 * l + 1)]
      exact hz2
    exact Nat.div_le_of_le_mul hz3

theorem reserve_sound {t t' : Hash Key Val} (hinv : Inv t) {size fuel : Nat}
    (h : reserve fuel t size = some t') : Inv t' := by
  unfold reserve at h
  split_ifs at h
  · simp only [Option.some.injEq] at h
    subst h
    exact hinv
  · exact (rehash_sound hinv (round_up_range _) h).1

theorem shrink_sound {t t' : Hash Key Val} (hinv : Inv t) {fuel : Nat}
    (h : shrink fuel t = some t') : Inv t' := by
  unfold shrink at h
  split_ifs at h
  · simp only [Option.some.injEq] at h
    subst h
    exact hinv
  · simp only [Option.some.injEq] at h
    subst h
    exact inv_init
  · simp only [Option.some.injEq] at h
    subst h
    exact hinv
  · exact (rehash_sound hinv (round_up_range _) h).1

theorem reserve_total {t : Hash Key Val} (hinv : Inv t) {size : Nat}
    (hsize : target size ≤ 2 ^ 31) {fuel : Nat} (hf : 2 ^ 31 ≤ fuel) :
    ∃ t', reserve fuel t size = some t' := by
  unfold reserve
  have hcs : ¬COUNTER_SIZE ≤ target size := by unfold COUNTER_SIZE; omega
  simp only [hcs, if_false]
  split_ifs with hle
  · exact ⟨t, rfl⟩
  · obtain ⟨k, hk, hr, hge, _⟩ := round_up_ge (by omega : 1 ≤ target size) hsize
    rw [hr]
    have hlc := length_le_capacity hinv
    have h31 : 2 ^ k ≤ 2 ^ 31 := Nat.pow_le_pow_right (by norm_num) (by omega)
    obtain ⟨t', e1, _⟩ := rehash_spec hinv hk (by omega : t.length ≤ 2 ^ k)
      (by omega : 2 ^ k ≤ fuel)
    exact ⟨t', e1⟩

theorem shrink_total {t : Hash Key Val} (hinv : Inv t) (hl : t.length < 2 ^ 23)
    {fuel : Nat} (hf : t.capacity ≤ fuel) : ∃ t', shrink fuel t = some t' := by
  obtain ⟨hb1, hb2⟩ := target_bounds hl
  unfold shrink
  split_ifs with h0 hl0 hcs hle
  · exact ⟨t, rfl⟩
  · exact ⟨_, rfl⟩
  · unfold COUNTER_SIZE at hcs
    omega
  · exact ⟨t, rfl⟩
  · obtain ⟨k, hk, hr, hge, hmin⟩ := round_up_ge (by omega : 1 ≤ target t.length) (by omega)
    rw [hr]
    obtain ⟨k', hk', hc, _⟩ := hinv.pow h0
    have hkk : 2 ^ k ≤ 2 ^ k' := by
      apply Nat.pow_le_pow_right (by norm_num)
      by_contra hcon
      have h3 : 2 ^ (k' + 1) ≤ 2 ^ k := Nat.pow_le_pow_right (by norm_num) (by omega)
      rw [pow_succ] at h3
      omega
    obtain ⟨t', e1, _⟩ := rehash_spec hinv hk (by omega : t.length ≤ 2 ^ k)
      (by omega : 2 ^ k ≤ fuel)
    exact ⟨t', e1⟩

theorem clear_loop_spec :
    ∀ (n i : Nat) (data : List (Option (Data Key Val))), i + n ≤ data.length →
      ∃ data', clear_loop n i data = some data' ∧ data'.length = data.length ∧
        ∀ y, slot data' y = if i ≤ y ∧ y < i + n then none else slot data y := by
  intro n
  induction n with
  | zero =>
    intro i data _
    refine ⟨data, rfl, rfl, fun y => ?_⟩
    rw [if_neg (by omega)]
  | succ n ih =>
    intro i data hi
    have hil : i < data.length := by omega
    obtain ⟨data', e1, e2, e3⟩ := ih (i + 1) (data.set i none) (by simp; omega)
    refine ⟨data', ?_, by simpa using e2, fun y => ?_⟩
    · simp only [clear_loop, store, hil, if_true]
      exact e1
    · rw [e3 y]
      by_cases hy : y = i
      · subst hy
        rw [if_neg (by omega), if_pos (by omega)]
        exact slot_set_self _ hil
      · rw [slot_set_ne _ (Ne.symm hy)]
        by_cases h : i + 1 ≤ y ∧ y < i + 1 + n
        · rw [if_pos h, if_pos (by omega)]
        · rw [if_neg h, if_neg (by omega)]

theorem entries_eq_nil {data : List (Option (Data Key Val))}
    (h : ∀ y, y < data.length → slot data y = none) : entries data = [] := by
  apply List.eq_nil_iff_forall_not_mem.mpr
  intro d hd
  obtain ⟨i, hi, hs⟩ := mem_entries.mp hd
  rw [h i hi] at hs
  cases hs

theorem clear_spec {t : Hash Key Val} (hinv : Inv t) :
    ∃ t', clear t = some t' ∧ Inv t' ∧ t'.length = 0 ∧ t'.capacity = t.capacity ∧
      entries t'.data = [] := by
  obtain ⟨data', e1, e2, e3⟩ := clear_loop_spec t.capacity 0 t.data
    (by rw [hinv.1.1]; omega)
  have hnil : entries data' = [] := by
    apply entries_eq_nil
    intro y hy
    rw [e3 y, if_pos ⟨Nat.zero_le _, by rw [e2, hinv.1.1] at hy; omega⟩]
  refine ⟨⟨data', 0, t.capacity⟩, by simp [clear, e1], ?_, rfl, rfl, hnil⟩
  refine ⟨⟨by simp only; rw [e2, hinv.1.1], hinv.1.2⟩, ?_, ?_, hinv.2.2.2.1, ?_⟩
  · unfold I1
    simp only
    rw [hnil]
    rfl
  · intro i hi d hd
    simp only at hd hi
    have : d ∈ entries data' := (mem_entries_slot hd).1
    rw [hnil] at this
    cases this
  · unfold I4
    simp only
    rw [hnil]
    exact List.nodup_nil

/-! ## Sequences of calls from the initial table -/

theorem hasEmpty_of_load {t : Hash Key Val} (hinv : Inv t)
    (h : 100 * t.length < 85 * t.capacity) : HasEmpty t := by
  rw [hasEmpty_iff hinv.1 hinv.2.1]
  omega

theorem appends_sound (hasher : Key → Nat) {fuel : Nat} :
    ∀ (kvs : List (Key × Val)) (t t' : Hash Key Val) (ds : List (Data Key Val)), Inv t →
      (kvs.map Prod.fst).Nodup →
      (∀ kv ∈ kvs, ∀ d ∈ entries t.data, ¬(d.hash = hasher kv.1 ∧ d.key = kv.1)) →
      appends hasher fuel t kvs = some (t', ds) →
      ds = kvs.map (fun kv => ⟨hasher kv.1, kv.1, kv.2⟩) ∧ Inv t' ∧
        t'.length = t.length + kvs.length ∧
        (entries t'.data).Perm (ds.reverse ++ entries t.data) ∧
        (kvs = [] ∨ 100 * t'.length < 85 * t'.capacity) := by
  intro kvs
  induction kvs with
  | nil =>
    intro t t' ds hinv _ _ h
    simp only [appends, Option.some.injEq, Prod.mk.injEq] at h
    obtain ⟨rfl, rfl⟩ := h
    exact ⟨rfl, hinv, rfl, by simp, Or.inl rfl⟩
  | cons kv rest ih =>
    intro t t' ds hinv hnd habs h
    rw [appends] at h
    cases h1 : do_append hasher fuel t kv.1 kv.2 with
    | none => rw [h1] at h; simp at h
    | some r1 =>
      obtain ⟨t1, d⟩ := r1
      rw [h1] at h
      simp only at h
      cases h2 : appends hasher fuel t1 rest with
      | none => rw [h2] at h; simp at h
      | some r2 =>
        obtain ⟨t2, ds'⟩ := r2
        rw [h2] at h
        simp only [Option.some.injEq, Prod.mk.injEq] at h
        obtain ⟨rfl, rfl⟩ := h
        obtain ⟨e1, _, e2⟩ := do_append_cases hasher hinv h1
        rcases e2 with ⟨_, hd, hh, hk⟩ | ⟨_, hdeq, hperm, hlen, hload⟩
        · exact absurd ⟨hh, hk⟩ (habs kv (List.mem_cons_self _ _) d hd)
        · rw [List.map_cons, List.nodup_cons] at hnd
          have habs1 : ∀ kv' ∈ rest, ∀ d' ∈ entries t1.data,
              ¬(d'.hash = hasher kv'.1 ∧ d'.key = kv'.1) := by
            intro kv' hkv' d' hd'
            rcases List.mem_cons.mp (hperm.subset hd') with hx | hx
            · rw [hx, hdeq]
              simp only
              intro hcon
              exact hnd.1 (hcon.2 ▸ List.mem_map_of_mem Prod.fst hkv')
            · exact habs kv' (List.mem_cons_of_mem _ hkv') d' hx
          obtain ⟨f1, f2, f3, f4, f5⟩ := ih t1 t2 ds' e1 hnd.2 habs1 h2
          refine ⟨by rw [f1, hdeq, List.map_cons], f2,
            by rw [f3, hlen, List.length_cons]; omega, ?_, Or.inr ?_⟩
          · refine f4.trans ?_
            simp only [List.reverse_cons, List.append_assoc, List.singleton_append]
            exact List.Perm.append_left _ hperm
          · rcases f5 with hnil | hl
            · subst hnil
              simp only [appends, Option.some.injEq, Prod.mk.injEq] at h2
              rw [← h2.1]
              exact hload
            · exact hl

theorem run_load_sound (hasher : Key → Nat) {fuel : Nat} :
    ∀ (ops : List (Op Key Val)) (t t' : Hash Key Val),
      (∀ op ∈ ops, is_append_or_remove op = true) → Inv t →
      (t.capacity = 0 ∨ 100 * t.length < 85 * t.capacity) →
      run hasher fuel t ops = some t' →
      Inv t' ∧ (t'.capacity = 0 ∨ 100 * t'.length < 85 * t'.capacity) := by
  intro ops
  induction ops with
  | nil =>
    intro t t' _ hinv hload h
    simp only [run, Option.some.injEq] at h
    subst h
    exact ⟨hinv, hload⟩
  | cons op rest ih =>
    intro t t' hops hinv hload h
    have hrest : ∀ op ∈ rest, is_append_or_remove op = true :=
      fun o ho => hops o (List.mem_cons_of_mem _ ho)
    have hop := hops op (List.mem_cons_self _ _)
    rw [run] at h
    cases h1 : apply_op hasher fuel t op with
    | none => rw [h1] at h; simp at h
    | some t1 =>
      rw [h1] at h
      simp only at h
      refine ih t1 t' hrest ?_ ?_ h
      · cases op with
        | append key val =>
          simp only [apply_op, Option.map_eq_some'] at h1
          obtain ⟨⟨t1', d⟩, h1, rfl⟩ := h1
          exact (do_append_cases hasher hinv h1).1
        | remove key =>
          simp only [apply_op, Option.map_eq_some'] at h1
          obtain ⟨⟨t1', b⟩, h1, rfl⟩ := h1
          exact (do_remove_sound hinv h1).1
        | reserve size => simp [is_append_or_remove] at hop
        | shrink => simp [is_append_or_remove] at hop
        | clear => simp [is_append_or_remove] at hop
        | destroy => simp [is_append_or_remove] at hop
      · cases op with
        | append key val =>
          simp only [apply_op, Option.map_eq_some'] at h1
          obtain ⟨⟨t1', d⟩, h1, rfl⟩ := h1
          obtain ⟨_, _, e2⟩ := do_append_cases hasher hinv h1
          rcases e2 with ⟨heq, _⟩ | ⟨_, _, _, _, hl⟩
          · simp only at heq ⊢
            rw [heq]
            exact hload
          · exact Or.inr hl
        | remove key =>
          simp only [apply_op, Option.map_eq_some'] at h1
          obtain ⟨⟨t1', b⟩, h1, rfl⟩ := h1
          obtain ⟨_, e2, e3⟩ := do_remove_sound hinv h1
          rcases e3 with ⟨_, heq⟩ | ⟨_, _, _, _, _, _, hlen⟩
          · simp only at heq ⊢
            rw [heq]
            exact hload
          · simp only at e2 hlen ⊢
            rcases hload with h0 | hl
            · exact Or.inl (by rw [e2]; exact h0)
            · exact Or.inr (by rw [e2]; omega)
        | reserve size => simp [is_append_or_remove] at hop
        | shrink => simp [is_append_or_remove] at hop
        | clear => simp [is_append_or_remove] at hop
        | destroy => simp [is_append_or_remove] at hop

/-- C1: for every list of pairwise distinct keys, whenever the `do_append` calls for them, made
in order on the initially empty table, have returned, `length` is the number of keys and
`do_find` of every inserted key returns an occupied slot that holds the very entry the
`do_append` call for that key returned, across every growth rehash in between.  The calls do
return for up to 2 ^ 29 keys, the range in which the doubled capacity is a value of the 32-bit
`Counter`. -/
theorem C1_inserted_keys_are_found (hasher : Key → Nat) (kvs : List (Key × Val))
    (hnd : (kvs.map Prod.fst).Nodup) :
    (∀ fuel t ds, appends hasher fuel Hash.init kvs = some (t, ds) →
      ds = kvs.map (fun kv => ⟨hasher kv.1, kv.1, kv.2⟩) ∧ t.length = kvs.length ∧
      ∀ kv ∈ kvs, ∀ fuel', t.capacity ≤ fuel' →
        ∃ i, do_find hasher fuel' t kv.1 = some (some i) ∧
          t.data[i]? = some (some ⟨hasher kv.1, kv.1, kv.2⟩)) ∧
    (kvs.length ≤ 2 ^ 29 → ∀ fuel, 16 + 8 * kvs.length ≤ fuel →
      ∃ t ds, appends hasher fuel Hash.init kvs = some (t, ds)) := by
  constructor
  · intro fuel t ds h
    obtain ⟨e1, e2, e3, e4, e5⟩ := appends_sound hasher kvs Hash.init t ds inv_init hnd
      (fun _ _ d hd => by cases hd) h
    refine ⟨e1, by simpa [Hash.init] using e3, ?_⟩
    intro kv hkv fuel' hf'
    have hne : kvs ≠ [] := by
      rintro rfl
      cases hkv
    have hload : 100 * t.length < 85 * t.capacity := by
      rcases e5 with h0 | hl
      · exact absurd h0 hne
      · exact hl
    have hmem : (⟨hasher kv.1, kv.1, kv.2⟩ : Data Key Val) ∈ entries t.data := by
      apply e4.symm.subset
      apply List.mem_append_left
      rw [List.mem_reverse, e1]
      exact List.mem_map_of_mem _ hkv
    exact do_find_present hasher e2 (hasEmpty_of_load e2 hload) hmem rfl rfl hf'
  · intro hn fuel hf
    cases kvs with
    | nil => exact ⟨Hash.init, [], rfl⟩
    | cons kv rest =>
      obtain ⟨t, e1, _⟩ := appends_spec hasher (kv :: rest)
        (⟨List.replicate 8 none, 0, 8⟩ : Hash Key Val) inv_first hasEmpty_first (by simp) hnd
        (fun _ _ d hd => by rw [entries_replicate] at hd; cases hd)
        (by simpa using hn) (by simpa using hf)
      exact ⟨t, _, by rw [appends_init]; exact e1⟩

theorem C1_inserted_keys_are_found_witness :
    (∀ fuel t ds, appends (fun k : Nat => k) fuel Hash.init [(1, 10), (9, 90), (17, 170)]
        = some (t, ds) →
      ds = [(1, 10), (9, 90), (17, 170)].map (fun kv => ⟨kv.1, kv.1, kv.2⟩) ∧
      t.length = [(1, 10), (9, 90), (17, 170)].length ∧
      ∀ kv ∈ [(1, 10), (9, 90), (17, 170)], ∀ fuel', t.capacity ≤ fuel' →
        ∃ i, do_find (fun k : Nat => k) fuel' t kv.1 = some (some i) ∧
          t.data[i]? = some (some ⟨kv.1, kv.1, kv.2⟩)) ∧
    ([(1, 10), (9, 90), (17, 170)].length ≤ 2 ^ 29 →
      ∀ fuel, 16 + 8 * [(1, 10), (9, 90), (17, 170)].length ≤ fuel →
      ∃ t ds, appends (fun k : Nat => k) fuel Hash.init [(1, 10), (9, 90), (17, 170)]
        = some (t, ds)) :=
  C1_inserted_keys_are_found (fun k : Nat => k) [(1, 10), (9, 90), (17, 170)] (by decide)

/-- C8: in every table reached from the initial empty table by `do_append` and `remove` calls,
every `do_append` call that returns (it found the key, inserted without growing, or inserted
and grew) leaves the load factor under the threshold: `length / capacity < 0.85`, in
particular `length < capacity`.  The calls do return for fewer than 2 ^ 29 calls, the range in
which the doubled capacity is a value of the 32-bit `Counter`. -/
theorem C8_load_factor_after_append (hasher : Key → Nat) (ops : List (Op Key Val))
    (hops : ∀ op ∈ ops, is_append_or_remove op = true) :
    (∀ fuel fuel' t key val t' d, run hasher fuel Hash.init ops = some t →
      do_append hasher fuel' t key val = some (t', d) →
      100 * t'.length < 85 * t'.capacity ∧ t'.length < t'.capacity) ∧
    (ops.length < 2 ^ 29 → ∀ key val fuel, 16 + 8 * (ops.length + 1) ≤ fuel →
      ∃ t t' d, run hasher fuel Hash.init ops = some t ∧
        do_append hasher fuel t key val = some (t', d)) := by
  constructor
  · intro fuel fuel' t key val t' d hrun happ
    obtain ⟨e1, e2⟩ := run_load_sound hasher ops Hash.init t hops inv_init (Or.inl rfl) hrun
    obtain ⟨f1, f2, f3⟩ := do_append_cases hasher e1 happ
    have hload : 100 * t'.length < 85 * t'.capacity := by
      rcases f3 with ⟨heq, _⟩ | ⟨_, _, _, _, hl⟩
      · rcases e2 with h0 | hl
        · rw [heq] at f2
          exact absurd h0 f2
        · rw [heq]
          exact hl
      · exact hl
    exact ⟨hload, by omega⟩
  · intro hn key val fuel hf
    have hf0 : 16 + 8 * (0 + ops.length) ≤ fuel := by omega
    obtain ⟨t, e1, e2, e3, e4, e5⟩ := run_keeps_load hasher ops (Hash.init : Hash Key Val) 0
      hops inv_init (Or.inl rfl) (by simp [Hash.init]) (by simp [Hash.init]) (by omega)
      hf0
    simp only [zero_add] at e4 e5
    obtain ⟨t', d, f1, _⟩ := append_keeps_load hasher e2 e3 e4 e5 hn key val hf
    exact ⟨t, t', d, e1, f1⟩

theorem C8_load_factor_after_append_witness :
    (∀ fuel fuel' t key val t' d,
      run (fun k : Nat => k) fuel (Hash.init : Hash Nat Nat)
        [Op.append 1 10, Op.append 9 90, Op.remove 1] = some t →
      do_append (fun k : Nat => k) fuel' t key val = some (t', d) →
      100 * t'.length < 85 * t'.capacity ∧ t'.length < t'.capacity) ∧
    ([Op.append 1 10, Op.append 9 90, Op.remove (1 : Nat)].length < 2 ^ 29 →
      ∀ key val fuel,
        16 + 8 * ([Op.append 1 10, Op.append 9 90, Op.remove (1 : Nat)].length + 1) ≤ fuel →
      ∃ t t' d, run (fun k : Nat => k) fuel (Hash.init : Hash Nat Nat)
          [Op.append 1 10, Op.append 9 90, Op.remove 1] = some t ∧
        do_append (fun k : Nat => k) fuel t key val = some (t', d)) :=
  C8_load_factor_after_append (fun k : Nat => k) [Op.append 1 10, Op.append 9 90, Op.remove 1]
    (by decide)

/-! ## Comparing the stored hash first -/

theorem probe_eq_probe_key (hasher : Key → Nat) (data : List (Option (Data Key Val)))
    (hcons : ∀ d ∈ entries data, d.hash = hasher d.key) (mask : Nat) (key : Key) :
    ∀ fuel index, probe data mask (hasher key) key fuel index
      = probe_key data mask key fuel index := by
  intro fuel
  induction fuel with
  | zero => intro index; rfl
  | succ fuel ih =>
    intro index
    rw [probe, probe_key]
    cases hg : data[index]? with
    | none => rfl
    | some o =>
      cases o with
      | none => rfl
      | some d =>
        simp only
        have hd : d ∈ entries data := (mem_entries_slot (slot_eq_of_get hg)).1
        have hiff : (d.hash = hasher key ∧ d.key = key) ↔ d.key = key := by
          constructor
          · exact fun h => h.2
          · intro h
            refine ⟨?_, h⟩
            rw [hcons d hd, h]
        by_cases hk : d.key = key
        · rw [if_pos (hiff.mpr hk), if_pos hk]
        · rw [if_neg (fun h => hk (hiff.mp h)), if_neg hk]
          exact ih _

/-- C20: in a table whose entries all store the hash of their key, `do_find` (stored hash
compared first, key second) returns the same slot, or the same not-found result, as the lookup
that probes identically and compares keys only, for every key and every fuel; on a table with
I1-I4 and an empty slot both return a result. -/
theorem C20_hash_check_is_short_circuit (hasher : Key → Nat) (t : Hash Key Val)
    (hcons : ∀ d ∈ entries t.data, d.hash = hasher d.key) :
    (∀ key fuel, do_find hasher fuel t key = do_find_key hasher fuel t key) ∧
    (Inv t → HasEmpty t → ∀ key fuel, t.capacity ≤ fuel →
      ∃ r, do_find hasher fuel t key = some r ∧ do_find_key hasher fuel t key = some r) := by
  have heq : ∀ key fuel, do_find hasher fuel t key = do_find_key hasher fuel t key := by
    intro key fuel
    unfold do_find do_find_key
    rw [probe_eq_probe_key hasher t.data hcons]
  refine ⟨heq, ?_⟩
  intro hinv hE key fuel hf
  by_cases hp : ∃ d ∈ entries t.data, d.hash = hasher key ∧ d.key = key
  · obtain ⟨d, hd, hh, hk⟩ := hp
    obtain ⟨i, hi, _⟩ := do_find_present hasher hinv hE hd hh hk hf
    exact ⟨_, hi, by rw [← heq]; exact hi⟩
  · have h := do_find_absent hasher hinv hE (fun d hd hcon => hp ⟨d, hd, hcon⟩) hf
    exact ⟨_, h, by rw [← heq]; exact h⟩

theorem C20_hash_check_is_short_circuit_witness :
    (∀ d ∈ entries sample.data, d.hash = (fun k => k) d.key) ∧
      ((∀ key fuel, do_find (fun k => k) fuel sample key
          = do_find_key (fun k => k) fuel sample key) ∧
       (Inv sample → HasEmpty sample → ∀ key fuel, sample.capacity ≤ fuel →
          ∃ r, do_find (fun k => k) fuel sample key = some r ∧
            do_find_key (fun k => k) fuel sample key = some r)) :=
  ⟨by decide, C20_hash_check_is_short_circuit (fun k => k) sample (by decide)⟩

/-! ## `clear`, `destroy` and `shrink` of an empty table -/

theorem eq_replicate_of_slots {data : List (Option (Data Key Val))} {n : Nat}
    (hlen : data.length = n) (h : ∀ y, y < n → slot data y = none) :
    data = List.replicate n none := by
  apply List.ext_getElem?
  intro i
  by_cases hi : i < n
  · rw [get_eq_slot (by omega), h i hi, List.getElem?_replicate]
    simp [hi]
  · rw [List.getElem?_eq_none (by omega), List.getElem?_eq_none (by simp; omega)]

theorem clear_eq {t : Hash Key Val} (hshape : t.data.length = t.capacity) :
    clear t = some ⟨List.replicate t.capacity none, 0, t.capacity⟩ := by
  obtain ⟨data', e1, e2, e3⟩ := clear_loop_spec t.capacity 0 t.data (by omega)
  have hrep : data' = List.replicate t.capacity none := by
    apply eq_replicate_of_slots (by omega)
    intro y hy
    rw [e3 y, if_pos ⟨Nat.zero_le _, by omega⟩]
  simp [clear, e1, hrep]

/-- C15: `clear()` on a table whose array has `capacity` slots yields length 0, every slot
empty and the same capacity (the array keeps its size); afterwards the lookup of any key
returns not-found: `do_find` is `nullptr`, `find` is `end()`, `contains` is false. -/
theorem C15_clear (t : Hash Key Val) (hshape : t.data.length = t.capacity) :
    ∃ t', clear t = some t' ∧ t'.length = 0 ∧ t'.capacity = t.capacity ∧
      t'.data = List.replicate t.capacity none ∧
      (∀ j, j < t'.capacity → slot t'.data j = none) ∧
      ∀ (hasher : Key → Nat) (fuel : Nat) (key : Key),
        do_find hasher fuel t' key = some none ∧
        find hasher fuel t' key = some t'.capacity ∧
        contains hasher fuel t' key = some false := by
  refine ⟨_, clear_eq hshape, rfl, rfl, rfl, fun j _ => slot_replicate _ _, ?_⟩
  intro hasher fuel key
  exact ⟨by simp [do_find], by simp [find], by simp [contains]⟩

theorem C15_clear_witness :
    sample.data.length = sample.capacity ∧
    ∃ t', clear sample = some t' ∧ t'.length = 0 ∧ t'.capacity = sample.capacity ∧
      t'.data = List.replicate sample.capacity none ∧
      (∀ j, j < t'.capacity → slot t'.data j = none) ∧
      ∀ (hasher : Nat → Nat) (fuel : Nat) (key : Nat),
        do_find hasher fuel t' key = some none ∧
        find hasher fuel t' key = some t'.capacity ∧
        contains hasher fuel t' key = some false :=
  ⟨by decide, C15_clear sample (by decide)⟩

/-- C16: `clear()` followed by `shrink()` yields the initial empty-unallocated state (length 0,
capacity 0, no slot array), the state `destroy()` produces; `keys()` on it is the empty
sequence; and `shrink()` on a table whose capacity is 0 changes nothing. -/
theorem C16_clear_then_shrink (t : Hash Key Val) (hshape : t.data.length = t.capacity) :
    (∀ fuel, ∃ t1, clear t = some t1 ∧ shrink fuel t1 = some Hash.init) ∧
    destroy t = Hash.init ∧
    keys (Hash.init : Hash Key Val) = some [] ∧
    (∀ fuel (s : Hash Key Val), s.capacity = 0 → shrink fuel s = some s) := by
  refine ⟨?_, rfl, rfl, ?_⟩
  · intro fuel
    refine ⟨_, clear_eq hshape, ?_⟩
    unfold shrink
    by_cases h0 : t.capacity = 0
    · simp [h0, Hash.init]
    · simp [h0, destroy, Hash.init]
  · intro fuel s hs
    simp [shrink, hs]

theorem C16_clear_then_shrink_witness :
    sample.data.length = sample.capacity ∧
    ((∀ fuel, ∃ t1, clear sample = some t1 ∧ shrink fuel t1 = some Hash.init) ∧
    destroy sample = Hash.init ∧
    keys (Hash.init : Hash Nat Nat) = some [] ∧
    (∀ fuel (s : Hash Nat Nat), s.capacity = 0 → shrink fuel s = some s)) :=
  ⟨by decide, C16_clear_then_shrink sample (by decide)⟩

/-! ## The capacity after a number of insertions -/

theorem is_need_realloc_eq (t : Hash Key Val) :
    is_need_realloc t = grow_test t.length t.capacity := rfl

theorem appends_capacity (hasher : Key → Nat) {fuel : Nat} :
    ∀ (kvs : List (Key × Val)) (t : Hash Key Val), Inv t → HasEmpty t →
      t.capacity ≤ max 8 (4 * t.length) →
      (kvs.map Prod.fst).Nodup →
      (∀ kv ∈ kvs, ∀ d ∈ entries t.data, ¬(d.hash = hasher kv.1 ∧ d.key = kv.1)) →
      t.length + kvs.length ≤ 2 ^ 29 → 16 + 8 * (t.length + kvs.length) ≤ fuel →
      ∃ t', appends hasher fuel t kvs
          = some (t', kvs.map (fun kv => ⟨hasher kv.1, kv.1, kv.2⟩)) ∧
        Inv t' ∧ HasEmpty t' ∧ t'.length = t.length + kvs.length ∧
        t'.capacity = capacity_after t.length t.capacity kvs.length ∧
        (entries t'.data).Perm
          ((kvs.map (fun kv => (⟨hasher kv.1, kv.1, kv.2⟩ : Data Key Val))).reverse
            ++ entries t.data) := by
  intro kvs
  induction kvs with
  | nil =>
    intro t hinv hE _ _ _ _ _
    exact ⟨t, rfl, hinv, hE, rfl, rfl, by simp⟩
  | cons kv rest ih =>
    intro t hinv hE hcap hnd habs hn hf
    simp only [List.length_cons] at hn hf
    have hlt : t.length < t.capacity := (hasEmpty_iff hinv.1 hinv.2.1).mp hE
    obtain ⟨k, hk, hck, _⟩ := hinv.pow (by omega)
    have hf2 : 2 * t.capacity ≤ fuel := by omega
    obtain ⟨t1, e1, e2, e3, e4, e5, e6⟩ := do_append_absent hasher hinv hE
      (habs kv (List.mem_cons_self _ _)) kv.2 (by omega) hf2
    rw [is_need_realloc_eq] at e6
    simp only at e6
    have hcap1 : t1.capacity ≤ max 8 (4 * t1.length) := by
      rw [e6, e5]
      split_ifs with hneed
      · have := is_need_realloc_pow (t := (⟨[], t.length + 1, t.capacity⟩ : Hash Key Val))
          hk hck (by simp only; omega) hneed
        simp only at this
        omega
      · omega
    rw [List.map_cons, List.nodup_cons] at hnd
    have habs1 : ∀ kv' ∈ rest, ∀ d ∈ entries t1.data,
        ¬(d.hash = hasher kv'.1 ∧ d.key = kv'.1) := by
      intro kv' hkv' d hd
      rcases List.mem_cons.mp (e4.subset hd) with h | h
      · subst h
        simp only
        intro hcon
        exact hnd.1 (hcon.2 ▸ List.mem_map_of_mem Prod.fst hkv')
      · exact habs kv' (List.mem_cons_of_mem _ hkv') d h
    obtain ⟨t2, f1, f2, f3, f5, f6, f7⟩ := ih t1 e2 e3 hcap1 hnd.2 habs1
      (by rw [e5]; omega) (by rw [e5]; omega)
    refine ⟨t2, ?_, f2, f3, by rw [f5, e5, List.length_cons]; omega, ?_, ?_⟩
    · simp only [appends, e1, f1, List.map_cons]
    · rw [f6, e5, e6, List.length_cons, capacity_after]
    · refine f7.trans ?_
      simp only [List.map_cons, List.reverse_cons, List.append_assoc, List.singleton_append]
      exact List.Perm.append_left _ e4

theorem appends_from_init (hasher : Key → Nat) {fuel : Nat} (kvs : List (Key × Val))
    (hne : kvs ≠ []) (hnd : (kvs.map Prod.fst).Nodup) (hn : kvs.length ≤ 2 ^ 29)
    (hf : 16 + 8 * kvs.length ≤ fuel) :
    ∃ t, appends hasher fuel Hash.init kvs
        = some (t, kvs.map (fun kv => ⟨hasher kv.1, kv.1, kv.2⟩)) ∧
      Inv t ∧ HasEmpty t ∧ t.length = kvs.length ∧
      t.capacity = capacity_after 0 8 kvs.length ∧
      (entries t.data).Perm
        (kvs.map (fun kv => (⟨hasher kv.1, kv.1, kv.2⟩ : Data Key Val))).reverse := by
  cases kvs with
  | nil => exact absurd rfl hne
  | cons kv rest =>
    obtain ⟨t, e1, e2, e3, e4, e5, e6⟩ := appends_capacity hasher (kv :: rest)
      (⟨List.replicate 8 none, 0, 8⟩ : Hash Key Val) inv_first hasEmpty_first (by simp) hnd
      (fun _ _ d hd => by rw [entries_replicate] at hd; cases hd)
      (by simpa using hn) (by simpa using hf)
    rw [entries_replicate, List.append_nil] at e6
    exact ⟨t, by rw [appends_init]; exact e1, e2, e3, by simpa using e4, e5, e6⟩

theorem capacity_after_small : ∀ n, 1 ≤ n → n ≤ 6 → capacity_after 0 8 n = 8 := by
  intro n h1 h6
  interval_cases n <;> decide

/-- C12: starting from the initial empty table, `do_append` of `n` pairwise distinct keys gives
capacity 8 after the `n`-th insert for every `1 <= n <= 6`; the 7th insert (of a further new
key) returns a table of capacity 16 in which `length` is 7 and `do_find` finds all 7 keys. -/
theorem C12_seventh_insert_grows (hasher : Key → Nat) (kvs : List (Key × Val))
    (hnd : (kvs.map Prod.fst).Nodup) (h1 : 1 ≤ kvs.length) (h6 : kvs.length ≤ 6)
    (fuel : Nat) (hf : 80 ≤ fuel) :
    ∃ t ds, appends hasher fuel Hash.init kvs = some (t, ds) ∧ t.capacity = 8 ∧
      t.length = kvs.length ∧
      (kvs.length = 6 → ∀ key val, key ∉ kvs.map Prod.fst →
        ∃ t7 d, do_append hasher fuel t key val = some (t7, d) ∧ t7.capacity = 16 ∧
          t7.length = 7 ∧
          ∀ kv ∈ kvs ++ [(key, val)], ∃ i, do_find hasher fuel t7 kv.1 = some (some i) ∧
            t7.data[i]? = some (some ⟨hasher kv.1, kv.1, kv.2⟩)) := by
  have hne : kvs ≠ [] := by
    rintro rfl
    simp at h1
  obtain ⟨t, e1, e2, e3, e4, e5, e6⟩ := appends_from_init hasher kvs hne hnd (by omega)
    (by omega : 16 + 8 * kvs.length ≤ fuel)
  have hcap : t.capacity = 8 := by rw [e5]; exact capacity_after_small _ h1 h6
  refine ⟨t, _, e1, hcap, e4, ?_⟩
  intro hlen key val hkey
  have habs : ∀ d ∈ entries t.data, ¬(d.hash = hasher key ∧ d.key = key) := by
    intro d hd hcon
    have hd' := e6.subset hd
    rw [List.mem_reverse, List.mem_map] at hd'
    obtain ⟨kv, hkv, rfl⟩ := hd'
    simp only at hcon
    exact hkey (hcon.2 ▸ List.mem_map_of_mem Prod.fst hkv)
  have hf2 : 2 * t.capacity ≤ fuel := by omega
  obtain ⟨t7, f1, f2, f3, f4, f5, f6⟩ := do_append_absent hasher e2 e3 habs val
    (by omega) hf2
  rw [is_need_realloc_eq] at f6
  simp only [e4, hlen, hcap] at f6 f5
  have hgrow : grow_test (6 + 1) 8 = true := by decide
  rw [hgrow] at f6
  simp only [if_true] at f6
  refine ⟨t7, _, f1, f6, f5, ?_⟩
  intro kv hkv
  have hmem : (⟨hasher kv.1, kv.1, kv.2⟩ : Data Key Val) ∈ entries t7.data := by
    apply f4.symm.subset
    rcases List.mem_append.mp hkv with h | h
    · apply List.mem_cons_of_mem
      apply e6.symm.subset
      rw [List.mem_reverse]
      exact List.mem_map_of_mem _ h
    · simp only [List.mem_singleton] at h
      subst h
      exact List.mem_cons_self _ _
  have hcf : t7.capacity ≤ fuel := by omega
  exact do_find_present hasher f2 f3 hmem rfl rfl hcf

theorem C12_seventh_insert_grows_witness :
    ∃ t ds, appends (fun k : Nat => k) 80 Hash.init
        [(1, 0), (2, 0), (3, 0), (4, 0), (5, 0), (6, 0)] = some (t, ds) ∧ t.capacity = 8 ∧
      t.length = [(1, 0), (2, 0), (3, 0), (4, 0), (5, 0), (6, 0)].length ∧
      ([(1, 0), (2, 0), (3, 0), (4, 0), (5, 0), (6, 0)].length = 6 → ∀ key val,
        key ∉ [(1, 0), (2, 0), (3, 0), (4, 0), (5, 0), (6, 0)].map Prod.fst →
        ∃ t7 d, do_append (fun k : Nat => k) 80 t key val = some (t7, d) ∧
          t7.capacity = 16 ∧ t7.length = 7 ∧
          ∀ kv ∈ [(1, 0), (2, 0), (3, 0), (4, 0), (5, 0), (6, 0)] ++ [(key, val)],
            ∃ i, do_find (fun k : Nat => k) 80 t7 kv.1 = some (some i) ∧
              t7.data[i]? = some (some ⟨kv.1, kv.1, kv.2⟩)) :=
  C12_seventh_insert_grows (fun k : Nat => k) [(1, 0), (2, 0), (3, 0), (4, 0), (5, 0), (6, 0)]
    (by decide) (by decide) (by decide) 80 (by decide)

/-! ## Iteration visits the occupied slots -/

/-- The occupied positions among `i, i + 1, ..., i + k - 1`, in increasing order. -/
theorem occupied_range_step (data : List (Option (Data Key Val))) (i k : Nat) :
    (List.range' i (k + 1)).filter (fun y => (slot data y).isSome)
      = (if (slot data i).isSome then [i] else [])
        ++ (List.range' (i + 1) k).filter (fun y => (slot data y).isSome) := by
  rw [List.range'_succ, List.filter_cons]
  split_ifs <;> simp_all

theorem occupied_range_skip (data : List (Option (Data Key Val))) (n : Nat) :
    ∀ (k a : Nat), a + k ≤ n → (∀ y, a ≤ y → y < a + k → slot data y = none) →
      (List.range' a (n - a)).filter (fun y => (slot data y).isSome)
        = (List.range' (a + k) (n - (a + k))).filter (fun y => (slot data y).isSome) := by
  intro k
  induction k with
  | zero => intro a _ _; rfl
  | succ k ih =>
    intro a ha hempty
    have hsplit : n - a = (n - (a + 1)) + 1 := by omega
    rw [hsplit, occupied_range_step, hempty a le_rfl (by omega)]
    simp only [Option.isSome_none, Bool.false_eq_true, if_false, List.nil_append]
    rw [ih (a + 1) (by omega) (fun y h1 h2 => hempty y (by omega) (by omega))]
    congr 2 <;> omega

theorem begin_loop_spec (data : List (Option (Data Key Val))) {n : Nat}
    (hlen : data.length = n) :
    ∀ (fuel ptr : Nat), ptr ≤ n → n - ptr < fuel →
      ∃ r, begin_loop data n fuel ptr = some r ∧ ptr ≤ r ∧ r ≤ n ∧
        (∀ y, ptr ≤ y → y < r → slot data y = none) ∧
        (r = n ∨ (slot data r).isSome = true) := by
  intro fuel
  induction fuel with
  | zero => intro ptr _ h; omega
  | succ fuel ih =>
    intro ptr hp hf
    rw [begin_loop]
    split_ifs with he
    · exact ⟨ptr, rfl, le_rfl, hp, fun y h1 h2 => by omega, Or.inl he⟩
    · rw [get_eq_slot (by omega)]
      cases hs : slot data ptr with
      | none =>
        obtain ⟨r, e1, e2, e3, e4, e5⟩ := ih (ptr + 1) (by omega) (by omega)
        refine ⟨r, e1, by omega, e3, ?_, e5⟩
        intro y h1 h2
        rcases Nat.eq_or_lt_of_le h1 with h | h
        · rw [← h]; exact hs
        · exact e4 y (by omega) h2
      | some d =>
        exact ⟨ptr, rfl, le_rfl, hp, fun y h1 h2 => by omega, Or.inr (by rw [hs]; rfl)⟩

theorem next_loop_spec (data : List (Option (Data Key Val))) {n : Nat}
    (hlen : data.length = n) :
    ∀ (fuel ptr : Nat), ptr < n → n - ptr ≤ fuel →
      ∃ r, next_loop data n fuel ptr = some r ∧ ptr < r ∧ r ≤ n ∧
        (∀ y, ptr < y → y < r → slot data y = none) ∧
        (r = n ∨ (slot data r).isSome = true) := by
  intro fuel
  induction fuel with
  | zero => intro ptr _ h; omega
  | succ fuel ih =>
    intro ptr hp hf
    rw [next_loop]
    split_ifs with he
    · exact ⟨ptr + 1, rfl, by omega, by omega, fun y h1 h2 => by omega, Or.inl he⟩
    · rw [get_eq_slot (by omega)]
      cases hs : slot data (ptr + 1) with
      | none =>
        obtain ⟨r, e1, e2, e3, e4, e5⟩ := ih (ptr + 1) (by omega) (by omega)
        refine ⟨r, e1, by omega, e3, ?_, e5⟩
        intro y h1 h2
        rcases Nat.eq_or_lt_of_le h1 with h | h
        · rw [← h]; exact hs
        · exact e4 y (by omega) h2
      | some d =>
        exact ⟨ptr + 1, rfl, by omega, by omega, fun y h1 h2 => by omega,
          Or.inr (by rw [hs]; rfl)⟩

theorem iterate_loop_spec {t : Hash Key Val} (hlen : t.data.length = t.capacity)
    {fuel0 : Nat} (hf0 : t.capacity ≤ fuel0) :
    ∀ (fuel ptr : Nat) (visited : List Nat), ptr ≤ t.capacity →
      (ptr = t.capacity ∨ (slot t.data ptr).isSome = true) → t.capacity - ptr < fuel →
      iterate_loop fuel0 t fuel ptr visited
        = some (visited ++ (List.range' ptr (t.capacity - ptr)).filter
            (fun y => (slot t.data y).isSome)) := by
  intro fuel
  induction fuel with
  | zero => intro ptr _ _ _ h; omega
  | succ fuel ih =>
    intro ptr visited hp hocc hf
    rw [iterate_loop]
    unfold end_
    split_ifs with he
    · rw [he]
      simp
    · have hlt : ptr < t.capacity := by omega
      have hsome : (slot t.data ptr).isSome = true := by
        rcases hocc with h | h
        · exact absurd h he
        · exact h
      obtain ⟨r, e1, e2, e3, e4, e5⟩ := next_loop_spec t.data hlen fuel0 ptr hlt (by omega)
      simp only [iterator_next, hlt, if_true, e1]
      rw [ih r (visited ++ [ptr]) e3 e5 (by omega)]
      have hsplit : t.capacity - ptr = (t.capacity - (ptr + 1)) + 1 := by omega
      rw [hsplit, occupied_range_step, hsome]
      simp only [if_true, List.append_assoc, List.singleton_append]
      have hskip := occupied_range_skip t.data t.capacity (r - (ptr + 1)) (ptr + 1) (by omega)
        (fun y h1 h2 => e4 y (by omega) (by omega))
      rw [hskip]
      have hr : ptr + 1 + (r - (ptr + 1)) = r := by omega
      rw [hr]

theorem iterate_spec {t : Hash Key Val} (hlen : t.data.length = t.capacity)
    {fuel : Nat} (hf : t.capacity < fuel) :
    iterate fuel t
      = some ((List.range t.capacity).filter (fun y => (slot t.data y).isSome)) := by
  obtain ⟨r, e1, e2, e3, e4, e5⟩ := begin_loop_spec t.data hlen fuel 0 (Nat.zero_le _)
    (by omega)
  unfold iterate begin
  rw [e1]
  simp only
  rw [iterate_loop_spec hlen (by omega) fuel r [] e3 e5 (by omega)]
  have hskip := occupied_range_skip t.data t.capacity r 0 (by omega)
    (fun y h1 h2 => e4 y h1 (by omega))
  simp only [Nat.zero_add, Nat.sub_zero] at hskip
  rw [List.nil_append, ← hskip, List.range_eq_range']

theorem occupied_count (data : List (Option (Data Key Val))) :
    ((List.range data.length).filter (fun y => (slot data y).isSome)).length
      = (entries data).length := by
  induction data using List.reverseRecOn with
  | nil => rfl
  | append_singleton xs x ih =>
    rw [List.length_append, List.length_singleton, List.range_succ, List.filter_append]
    have hpre : (List.range xs.length).filter (fun y => (slot (xs ++ [x]) y).isSome)
        = (List.range xs.length).filter (fun y => (slot xs y).isSome) := by
      apply List.filter_congr
      intro y hy
      rw [List.mem_range] at hy
      simp [slot, List.getElem?_append_left hy]
    have hlast : slot (xs ++ [x]) xs.length = x := by
      simp [slot]
    rw [hpre, List.length_append, ih]
    unfold entries
    rw [List.filterMap_append, List.length_append]
    congr 1
    simp only [List.filter_cons, List.filter_nil, hlast]
    cases x <;> simp

/-- C13: on a table whose array has `capacity` slots and that satisfies I1, iterating from
`begin()` with `operator++` until the iterator equals `end()` terminates, visits exactly `length`
positions, visits the occupied slots and only them, each once and in increasing physical order;
on a table of length zero `begin()` equals `end()`. -/
theorem C13_iteration_visits_occupied_slots (t : Hash Key Val)
    (hshape : t.data.length = t.capacity) (hI1 : I1 t) (fuel : Nat) (hf : t.capacity < fuel) :
    ∃ visited, iterate fuel t = some visited ∧
      visited.length = t.length ∧
      visited.Pairwise (fun a b => a < b) ∧
      (∀ i, i ∈ visited ↔ i < t.capacity ∧ (slot t.data i).isSome = true) ∧
      (t.length = 0 → begin fuel t = some (end_ t)) := by
  refine ⟨_, iterate_spec hshape hf, ?_, ?_, ?_, ?_⟩
  · rw [← hshape, occupied_count, hI1]
  · exact List.Pairwise.sublist (List.filter_sublist _) (List.pairwise_lt_range _)
  · intro i
    simp [List.mem_filter, List.mem_range]
  · intro h0
    obtain ⟨r, e1, e2, e3, e4, e5⟩ := begin_loop_spec t.data hshape fuel 0 (Nat.zero_le _)
      (by omega)
    unfold begin end_
    rw [e1]
    rcases e5 with e5 | e5
    · rw [e5]
    · exfalso
      have hnil : entries t.data = [] := by
        apply List.eq_nil_of_length_eq_zero
        rw [← hI1, h0]
      obtain ⟨d, hd⟩ := Option.isSome_iff_exists.mp e5
      have hm : d ∈ entries t.data := (mem_entries_slot hd).1
      rw [hnil] at hm
      exact absurd hm (List.not_mem_nil _)

theorem C13_iteration_visits_occupied_slots_witness :
    sample.data.length = sample.capacity ∧ I1 sample ∧ sample.capacity < 9 ∧
    ∃ visited, iterate 9 sample = some visited ∧
      visited.length = sample.length ∧
      visited.Pairwise (fun a b => a < b) ∧
      (∀ i, i ∈ visited ↔ i < sample.capacity ∧ (slot sample.data i).isSome = true) ∧
      (sample.length = 0 → begin 9 sample = some (end_ sample)) :=
  ⟨by decide, by decide, by decide,
    C13_iteration_visits_occupied_slots sample (by decide) (by decide) 9 (by decide)⟩

/-! ## Rehash places the entries as the specification words it -/

theorem find_first_of_range' {f : Nat → Nat} {p : Nat → Bool} :
    ∀ (n s m : Nat), s ≤ m → m < s + n → p (f m) = true →
      (∀ o, s ≤ o → o < m → p (f o) = false) →
      ((List.range' s n).map f).find? p = some (f m) := by
  intro n
  induction n with
  | zero => intro s m h1 h2; omega
  | succ n ih =>
    intro s m h1 h2 hp hq
    rw [List.range'_succ, List.map_cons, List.find?_cons]
    rcases Nat.eq_or_lt_of_le h1 with h | h
    · subst h
      rw [hp]
    · rw [hq s (Nat.le_refl _) h]
      exact ih (s + 1) m h (by omega) hp (fun o ho1 ho2 => hq o (by omega) ho2)

theorem first_empty_of_run {c : Nat} {data : List (Option (Data Key Val))} {x i : Nat}
    (hx : x < c) (hi : i < c) (hs : slot data i = none)
    (hrun : Run data c (fun _ => True) x i) : first_empty data c x = some i := by
  unfold first_empty
  rw [List.range_eq_range']
  have hm : cdist c x i < c := cdist_lt hx hi
  have him : (x + cdist c x i) % c = i := by
    rw [← iter_next hx, iter_cdist hx hi]
  have h := @find_first_of_range' (fun o => (x + o) % c) (fun j => (slot data j).isNone)
    c 0 (cdist c x i) (Nat.zero_le _) (by omega) (by simp only [him, hs]; rfl)
    (by
      intro o _ ho
      have hoc : o < c := by omega
      have hlt : (x + o) % c < c := Nat.mod_lt _ (by omega)
      obtain ⟨e, he, _⟩ := hrun ((x + o) % c) hlt (by
        rw [← iter_next hx, cdist_iter hx hoc]
        exact ho)
      simp only [he]
      rfl)
  simp only [him] at h
  exact h

theorem rehash_loop_words {k : Nat} (hk : k < 32) (data : List (Option (Data Key Val)))
    {fuel : Nat} :
    ∀ (n i : Nat) (new_data nd : List (Option (Data Key Val))), i + n = data.length →
      new_data.length = 2 ^ k →
      rehash_loop fuel data (cmask (2 ^ k)) n i new_data = some nd →
      place_in_order (2 ^ k) (entries (data.drop i)) new_data = some nd := by
  intro n
  induction n with
  | zero =>
    intro i new_data nd hi hlen h
    rw [List.drop_of_length_le (by omega)]
    simpa [rehash_loop, entries, place_in_order] using h
  | succ n ih =>
    intro i new_data nd hi hlen h
    have hil : i < data.length := by omega
    rw [rehash_loop, get_eq_slot hil] at h
    rw [entries_drop hil]
    cases hs : slot data i with
    | none =>
      rw [hs] at h
      simp only [List.nil_append] at h ⊢
      exact ih (i + 1) new_data nd (by omega) hlen h
    | some d =>
      rw [hs] at h
      simp only at h
      have hx : d.hash &&& cmask (2 ^ k) < 2 ^ k := ideal_lt hk d
      cases he : find_empty new_data (cmask (2 ^ k)) fuel (d.hash &&& cmask (2 ^ k)) with
      | none => rw [he] at h; exact absurd h (by simp)
      | some e =>
        rw [he] at h
        obtain ⟨hec, hes, hrun⟩ := find_empty_sound hk hlen fuel _ e hx he
        simp only [store, hlen, hec, if_true] at h
        have hfe := first_empty_of_run hx hec hes hrun
        have hmask : cmask (2 ^ k) = 2 ^ k - 1 :=
          cdec_pos (Nat.pos_pow_of_pos k (by norm_num)) (pow_lt_counter hk)
        rw [hmask] at hfe
        simp only [List.cons_append, List.nil_append, place_in_order, hfe]
        exact ih (i + 1) (new_data.set e (some d)) nd (by omega) (by simp [hlen]) h

/-- C11: on a table satisfying I1-I4, `rehash(new_capacity)` with a power-of-two
`new_capacity >= length` returns; afterwards the capacity is `new_capacity`, the array has that
many slots, `length` is unchanged, the entries are the same multiset, every old entry occupies
exactly one slot and no other slot is occupied, and the array is the one obtained by
re-inserting the entries in old physical slot order, each at the first empty slot found by
linear probing from `hash & (new_capacity - 1)`. -/
theorem C11_rehash_reinserts_in_slot_order (t : Hash Key Val) (hinv : Inv t) (k : Nat)
    (hk : k < 32) (hroom : t.length ≤ 2 ^ k) (fuel : Nat) (hf : 2 ^ k ≤ fuel) :
    ∃ t', rehash fuel t (2 ^ k) = some t' ∧
      t'.capacity = 2 ^ k ∧ t'.data.length = 2 ^ k ∧ t'.length = t.length ∧
      (entries t'.data).Perm (entries t.data) ∧
      (∀ d ∈ entries t.data, ∃ i, i < 2 ^ k ∧ slot t'.data i = some d ∧
        ∀ j, slot t'.data j = some d → j = i) ∧
      (∀ i d, slot t'.data i = some d → d ∈ entries t.data) ∧
      rehash_by_words t (2 ^ k) = some t' := by
  obtain ⟨t', h1, hinv', h2, h3, h4⟩ := rehash_spec hinv hk hroom hf
  have hlen' : t'.data.length = 2 ^ k := by rw [hinv'.1.1, h2]
  refine ⟨t', h1, h2, hlen', h3, h4, ?_, ?_, ?_⟩
  · intro d hd
    obtain ⟨i, hi, hs⟩ := mem_entries.mp (h4.symm.subset hd)
    refine ⟨i, by rw [← hlen']; exact hi, hs, ?_⟩
    intro j hj
    exact slot_inj hinv'.2.2.2.2 hj hs rfl
  · intro i d hs
    exact h4.subset (mem_entries_slot hs).1
  · unfold rehash at h1
    cases hl : rehash_loop fuel t.data (cmask (2 ^ k)) t.capacity 0
        (List.replicate (2 ^ k) none) with
    | none => rw [hl] at h1; exact absurd h1 (by simp)
    | some nd =>
      rw [hl] at h1
      have hw := rehash_loop_words hk t.data t.capacity 0 _ nd
        (by rw [hinv.1.1]; omega) (by simp) hl
      rw [List.drop_zero] at hw
      unfold rehash_by_words
      rw [hw]
      exact h1

theorem C11_rehash_reinserts_in_slot_order_witness :
    Inv sample ∧ 2 < 32 ∧ sample.length ≤ 2 ^ 2 ∧ 2 ^ 2 ≤ 4 ∧
    ∃ t', rehash 4 sample (2 ^ 2) = some t' ∧
      t'.capacity = 2 ^ 2 ∧ t'.data.length = 2 ^ 2 ∧ t'.length = sample.length ∧
      (entries t'.data).Perm (entries sample.data) ∧
      (∀ d ∈ entries sample.data, ∃ i, i < 2 ^ 2 ∧ slot t'.data i = some d ∧
        ∀ j, slot t'.data j = some d → j = i) ∧
      (∀ i d, slot t'.data i = some d → d ∈ entries sample.data) ∧
      rehash_by_words sample (2 ^ 2) = some t' :=
  ⟨by decide, by decide, by decide, by decide,
    C11_rehash_reinserts_in_slot_order sample (by decide) 2 (by decide) (by decide) 4
      (by decide)⟩

/-! ## The unrolled scan and the single-step walk -/

theorem walk_placed_spec {k : Nat} (hk : k < 32) {data : List (Option (Data Key Val))} :
    ∀ (fuel x m : Nat), x < 2 ^ k → ¬Placed data (2 ^ k) ((next (2 ^ k))^[m] x) →
      (∀ m', m' < m → Placed data (2 ^ k) ((next (2 ^ k))^[m'] x)) → m < fuel →
      walk_placed data (2 ^ k) fuel x = some ((next (2 ^ k))^[m] x) := by
  have hmask : cmask (2 ^ k) = 2 ^ k - 1 :=
    cdec_pos (Nat.pos_pow_of_pos k (by norm_num)) (pow_lt_counter hk)
  intro fuel
  induction fuel with
  | zero => intro x m _ _ _ h; omega
  | succ fuel ih =>
    intro x m hx hnp hpl hf
    rw [walk_placed]
    cases m with
    | zero =>
      simp only [Function.iterate_zero, id_eq] at hnp ⊢
      cases hs : slot data x with
      | none => rfl
      | some d =>
        simp only
        rw [if_neg]
        intro hid
        exact hnp ⟨d, hs, by unfold ideal; rw [hmask]; exact hid⟩
    | succ m =>
      obtain ⟨e, hs, hid⟩ := hpl 0 (by omega)
      simp only [Function.iterate_zero, id_eq] at hs hid
      unfold ideal at hid
      rw [hmask] at hid
      rw [hs]
      simp only [hid, if_true]
      have hnx : (x + 1) % 2 ^ k = next (2 ^ k) x := by
        rw [← next_mod, Nat.mod_eq_of_lt hx]
      rw [hnx, Function.iterate_succ_apply]
      apply ih (next (2 ^ k) x) m (next_lt hx)
      · rw [← Function.iterate_succ_apply]
        exact hnp
      · intro m' hm'
        rw [← Function.iterate_succ_apply]
        exact hpl (m' + 1) (by omega)
      · omega

theorem scan_eq_walk_placed {k : Nat} (hk : k < 32) {data : List (Option (Data Key Val))}
    (hlen : data.length = 2 ^ k) {E : Nat} (hE : E < 2 ^ k) (hEs : slot data E = none)
    {fuel x : Nat} (hx : x < 2 ^ k) (hf : 2 ^ k ≤ fuel) :
    ∃ j, j < 2 ^ k ∧ scan data (cmask (2 ^ k)) fuel x = some j ∧
      walk_placed data (2 ^ k) fuel x = some j := by
  have hm0 : cdist (2 ^ k) x E < 2 ^ k := cdist_lt hx hE
  have hnp : ¬Placed data (2 ^ k) ((next (2 ^ k))^[cdist (2 ^ k) x E] x) := by
    rw [iter_cdist hx hE]
    rintro ⟨e, he, _⟩
    rw [hEs] at he
    exact absurd he (by simp)
  obtain ⟨m, h1, h2, h3, h4⟩ := scan_spec hk hlen fuel x _ hx hnp (by omega)
  exact ⟨_, iter_next_lt hx m, h1, walk_placed_spec hk fuel x m hx h3 h4 (by omega)⟩

theorem reinsert_eq_walk {k : Nat} (hk : k < 32) {fuel0 : Nat} :
    ∀ (fuel : Nat) (data r : List (Option (Data Key Val))) (p : Nat),
      data.length = 2 ^ k → p < 2 ^ k →
      reinsert fuel0 (cmask (2 ^ k)) fuel data p = some r →
      walk_reinsert (2 ^ k) fuel data p = some r := by
  have hmask : cmask (2 ^ k) = 2 ^ k - 1 :=
    cdec_pos (Nat.pos_pow_of_pos k (by norm_num)) (pow_lt_counter hk)
  intro fuel
  induction fuel with
  | zero => intro data r p _ _ h; simp [reinsert] at h
  | succ fuel ih =>
    intro data r p hlen hp h
    have hpl : p < data.length := by omega
    rw [reinsert, get_eq_slot hpl] at h
    rw [walk_reinsert]
    cases hs : slot data p with
    | none =>
      rw [hs] at h
      exact h
    | some d =>
      rw [hs] at h
      simp only [store, hpl, if_true] at h
      simp only
      have hlen1 : (data.set p none).length = 2 ^ k := by simp [hlen]
      have hx : d.hash &&& cmask (2 ^ k) < 2 ^ k := ideal_lt hk d
      cases he : find_empty (data.set p none) (cmask (2 ^ k)) fuel0
          (d.hash &&& cmask (2 ^ k)) with
      | none => rw [he] at h; exact absurd h (by simp)
      | some e =>
        rw [he] at h
        obtain ⟨hec, hes, hrun⟩ := find_empty_sound hk hlen1 fuel0 _ e hx he
        have hel : e < (data.set p none).length := by omega
        simp only [hel, if_true] at h
        have hfe := first_empty_of_run hx hec hes hrun
        rw [hmask] at hfe
        rw [hfe]
        simp only
        have hnx : (p + 1) % 2 ^ k = next (2 ^ k) p := by
          rw [← next_mod, Nat.mod_eq_of_lt hp]
        rw [hnx]
        rw [step_one hk hp] at h
        exact ih _ r _ (by simp [hlen]) (next_lt hp) h

theorem disp_set (c : Nat) (v : Option (Data Key Val)) :
    ∀ (data : List (Option (Data Key Val))) (i j : Nat), j < data.length →
      disp c i (data.set j v) + (slot data j).elim 0 (fun d => cdist c (ideal c d) (i + j))
        = disp c i data + v.elim 0 (fun d => cdist c (ideal c d) (i + j)) := by
  intro data
  induction data with
  | nil => intro i j h; simp at h
  | cons x xs ih =>
    intro i j hj
    cases j with
    | zero =>
      rw [List.set_cons_zero, slot_cons_zero]
      cases x <;> cases v <;> simp [disp, Option.elim] <;> omega
    | succ j =>
      rw [List.set_cons_succ, slot_cons_succ]
      have h := ih (i + 1) j (by simpa using hj)
      have e : i + 1 + j = i + (j + 1) := by omega
      rw [e] at h
      cases x <;> simp only [disp] <;> omega

theorem disp_le {k : Nat} (hk : k < 32) :
    ∀ (data : List (Option (Data Key Val))) (i : Nat), i + data.length ≤ 2 ^ k →
      disp (2 ^ k) i data ≤ data.length * (2 ^ k - 1) := by
  intro data
  induction data with
  | nil => intro i _; simp [disp]
  | cons x xs ih =>
    intro i hi
    simp only [List.length_cons] at hi ⊢
    have h := ih (i + 1) (by omega)
    rw [Nat.succ_mul]
    cases x with
    | none => simp only [disp]; omega
    | some d =>
      simp only [disp]
      have hc := cdist_lt (ideal_lt hk d) (by omega : i < 2 ^ k)
      omega

theorem reinsert_terminates {k : Nat} (hk : k < 32) {fuel0 : Nat} (hf0 : 2 ^ k ≤ fuel0) :
    ∀ (fuel : Nat) (data : List (Option (Data Key Val))) (p E : Nat),
      data.length = 2 ^ k → p < 2 ^ k → E < 2 ^ k → slot data E = none →
      disp (2 ^ k) 0 data * 2 ^ k + cdist (2 ^ k) p E < fuel →
      ∃ r, reinsert fuel0 (cmask (2 ^ k)) fuel data p = some r := by
  intro fuel
  induction fuel with
  | zero => intro data p E _ _ _ _ h; omega
  | succ fuel ih =>
    intro data p E hlen hp hE hEs hf
    have hpl : p < data.length := by omega
    rw [reinsert, get_eq_slot hpl]
    cases hs : slot data p with
    | none => exact ⟨data, rfl⟩
    | some d =>
      simp only [store, hpl, if_true]
      have hlen1 : (data.set p none).length = 2 ^ k := by simp [hlen]
      have hx : ideal (2 ^ k) d < 2 ^ k := ideal_lt hk d
      have hp1 : slot (data.set p none) p = none := slot_set_self none hpl
      obtain ⟨e, he⟩ := find_empty_total hk hlen1 hp hp1 fuel0 _ hx
        (lt_of_lt_of_le (cdist_lt hx hp) hf0)
      obtain ⟨hec, hes, hrun⟩ := find_empty_sound hk hlen1 fuel0 _ e hx he
      have he' : find_empty (data.set p none) (cmask (2 ^ k)) fuel0
          (d.hash &&& cmask (2 ^ k)) = some e := he
      rw [he']
      have hel : e < (data.set p none).length := by omega
      simp only [hel, if_true]
      rw [step_one hk hp]
      have hpE : p ≠ E := by
        intro h
        rw [h, hEs] at hs
        exact absurd hs (by simp)
      have hle : cdist (2 ^ k) (ideal (2 ^ k) d) e ≤ cdist (2 ^ k) (ideal (2 ^ k) d) p := by
        by_contra hlt
        obtain ⟨e', he', _⟩ := hrun p hp (by omega)
        rw [hp1] at he'
        exact absurd he' (by simp)
      by_cases hep : e = p
      · subst hep
        rw [set_set_self hs]
        have hd := cdist_next_left hp hE hpE
        exact ih data (next (2 ^ k) e) E hlen (next_lt hp) hE hEs (by omega)
      · have hlt : cdist (2 ^ k) (ideal (2 ^ k) d) e < cdist (2 ^ k) (ideal (2 ^ k) d) p := by
          rcases Nat.eq_or_lt_of_le hle with h | h
          · exact absurd (cdist_inj hx hec hp h) hep
          · exact h
        have h1 := disp_set (2 ^ k) none data 0 p hpl
        have h2 := disp_set (2 ^ k) (some d) (data.set p none) 0 e hel
        rw [hs] at h1
        rw [hes] at h2
        simp only [Option.elim, Nat.zero_add, Nat.add_zero] at h1 h2
        have hdrop : disp (2 ^ k) 0 ((data.set p none).set e (some d)) + 1
            ≤ disp (2 ^ k) 0 data := by omega
        have hpe : slot ((data.set p none).set e (some d)) p = none := by
          rw [slot_set_ne _ hep, hp1]
        have hc : cdist (2 ^ k) (next (2 ^ k) p) p < 2 ^ k := cdist_lt (next_lt hp) hp
        have hmul : (disp (2 ^ k) 0 ((data.set p none).set e (some d)) + 1) * 2 ^ k
            ≤ disp (2 ^ k) 0 data * 2 ^ k := Nat.mul_le_mul_right _ hdrop
        rw [Nat.add_mul, Nat.one_mul] at hmul
        exact ih _ (next (2 ^ k) p) p (by simp [hlen]) (next_lt hp) hp hpe (by omega)

theorem rehash_data_total {k : Nat} (hk : k < 32) {data : List (Option (Data Key Val))}
    (hlen : data.length = 2 ^ k) {E : Nat} (hE : E < 2 ^ k) (hEs : slot data E = none)
    {index : Nat} (hi : index < 2 ^ k) {fuel : Nat} (hf : 2 ^ k * 2 ^ k * 2 ^ k ≤ fuel) :
    ∃ r, rehash_data fuel data (2 ^ k) index = some r ∧
      rehash_data_single fuel data (2 ^ k) index = some r := by
  have hpos : 0 < 2 ^ k := Nat.pos_pow_of_pos k (by norm_num)
  have hcc : 2 ^ k ≤ 2 ^ k * 2 ^ k * 2 ^ k := by
    calc 2 ^ k = 1 * 1 * 2 ^ k := by ring
      _ ≤ 2 ^ k * 2 ^ k * 2 ^ k :=
        Nat.mul_le_mul_right _ (Nat.mul_le_mul hpos hpos)
  have hfc : 2 ^ k ≤ fuel := le_trans hcc hf
  have hx : next (2 ^ k) index < 2 ^ k := next_lt hi
  obtain ⟨j, hj, hs1, hs2⟩ := scan_eq_walk_placed hk hlen hE hEs hx hfc
  have hd := disp_le hk data 0 (by omega)
  rw [hlen] at hd
  have hc := cdist_lt hj hE
  have hbound : disp (2 ^ k) 0 data * 2 ^ k + cdist (2 ^ k) j E < fuel := by
    have h1 : disp (2 ^ k) 0 data * 2 ^ k ≤ 2 ^ k * (2 ^ k - 1) * 2 ^ k :=
      Nat.mul_le_mul_right _ hd
    have h2 : 2 ^ k * (2 ^ k - 1) * 2 ^ k + 2 ^ k ≤ 2 ^ k * 2 ^ k * 2 ^ k := by
      have e : 2 ^ k = (2 ^ k - 1) + 1 := by omega
      generalize 2 ^ k - 1 = u at e
      rw [e]
      ring_nf
      nlinarith [Nat.zero_le u]
    omega
  obtain ⟨r, hr⟩ := reinsert_terminates hk hfc fuel data j E hlen hj hE hEs hbound
  refine ⟨r, ?_, ?_⟩
  · unfold rehash_data
    rw [step_one hk hi, hs1]
    exact hr
  · unfold rehash_data_single
    have hnx : (index + 1) % 2 ^ k = next (2 ^ k) index := by
      rw [← next_mod, Nat.mod_eq_of_lt hi]
    rw [hnx, hs2]
    exact reinsert_eq_walk hk fuel data r j hlen hj hr

/-- C17: on a table satisfying I3 whose array has `capacity` slots, one of them empty, and for
every start index of the array, `rehash_data` with its unrolled forward scan returns, and the
slot array it returns is the one of the single-step walk (advance from `index + 1` while the
slot holds an entry at its ideal index, then, until the first empty slot, vacate each slot and
re-insert its entry at the first empty slot found by linear probing from its ideal index). -/
theorem C17_unrolled_scan_equals_single_step (t : Hash Key Val)
    (hshape : t.data.length = t.capacity) (h3 : I3 t) (hE : HasEmpty t)
    (index : Nat) (hi : index < t.capacity) :
    (∀ fuel r, t.capacity ≤ fuel → rehash_data fuel t.data t.capacity index = some r →
      rehash_data_single fuel t.data t.capacity index = some r) ∧
    (∀ fuel, t.capacity * t.capacity * t.capacity ≤ fuel →
      ∃ r, rehash_data fuel t.data t.capacity index = some r ∧
        rehash_data_single fuel t.data t.capacity index = some r) := by
  obtain ⟨E, hEc, hEs⟩ := hE
  have hEn : slot t.data E = none := slot_isSome_false.mp hEs
  rcases h3 with h0 | ⟨k, hk, hc⟩
  · omega
  · rw [hc] at hshape hi hEc ⊢
    constructor
    · intro fuel r hf hr
      obtain ⟨j, hj, hs1, hs2⟩ := scan_eq_walk_placed hk hshape hEc hEn (next_lt hi) hf
      unfold rehash_data at hr
      rw [step_one hk hi, hs1] at hr
      unfold rehash_data_single
      have hnx : (index + 1) % 2 ^ k = next (2 ^ k) index := by
        rw [← next_mod, Nat.mod_eq_of_lt hi]
      rw [hnx, hs2]
      exact reinsert_eq_walk hk fuel t.data r j hshape hj hr
    · intro fuel hf
      exact rehash_data_total hk hshape hEc hEn hi hf

theorem C17_unrolled_scan_equals_single_step_witness :
    sample.data.length = sample.capacity ∧ I3 sample ∧ HasEmpty sample ∧ 0 < sample.capacity ∧
    (∀ fuel r, sample.capacity ≤ fuel →
      rehash_data fuel sample.data sample.capacity 0 = some r →
      rehash_data_single fuel sample.data sample.capacity 0 = some r) ∧
    (∀ fuel, sample.capacity * sample.capacity * sample.capacity ≤ fuel →
      ∃ r, rehash_data fuel sample.data sample.capacity 0 = some r ∧
        rehash_data_single fuel sample.data sample.capacity 0 = some r) :=
  ⟨by decide, by decide, by decide, by decide,
    C17_unrolled_scan_equals_single_step sample (by decide) (by decide) (by decide) 0
      (by decide)⟩

/-! ## Erasing through an iterator -/

/-- C14: on a table satisfying I1-I4 with an empty slot, `erase(it)` for an iterator at an
occupied slot `p` returns; it removes the entry that was at `p` (the other entries are kept and
no entry with its hash and key remains), and the returned iterator is at the smallest index
`q >= p` whose slot is occupied afterwards, or at `end()` if there is none; it stays at `p`
exactly when slot `p` is occupied afterwards, and then by a different entry. -/
theorem C14_erase_iterator (t : Hash Key Val) (hinv : Inv t) (hE : HasEmpty t) (p : Nat)
    (d : Data Key Val) (hp : slot t.data p = some d) (fuel : Nat) (hf : t.capacity ≤ fuel) :
    ∃ t' q, erase fuel t p = some (t', q) ∧
      (d :: entries t'.data).Perm (entries t.data) ∧ t'.length + 1 = t.length ∧
      (∀ d' ∈ entries t'.data, ¬(d'.hash = d.hash ∧ d'.key = d.key)) ∧
      p ≤ q ∧ q ≤ end_ t' ∧ (q = end_ t' ∨ (slot t'.data q).isSome = true) ∧
      (∀ y, p ≤ y → y < q → slot t'.data y = none) ∧
      (q = p ↔ (slot t'.data p).isSome = true) ∧
      (∀ e, slot t'.data p = some e → e ≠ d) := by
  obtain ⟨hd, hpl⟩ := mem_entries_slot hp
  obtain ⟨t', h1, hinv', hE', hc, hl, hperm⟩ := do_remove_present hinv hE hd hf
  have hlen' : t'.data.length = t'.capacity := hinv'.1.1
  have hpc : p < t'.capacity := by rw [hc, ← hinv.1.1]; exact hpl
  have habs := absent_after_remove hinv hperm
  have hne : ∀ e, slot t'.data p = some e → e ≠ d := by
    intro e he hed
    exact habs e (mem_entries_slot he).1 (by rw [hed]; exact ⟨rfl, rfl⟩)
  unfold erase
  rw [get_eq_slot hpl, hp]
  simp only [h1]
  rw [get_eq_slot (by rw [hlen']; exact hpc)]
  cases hs : slot t'.data p with
  | some e =>
    refine ⟨t', p, rfl, hperm, hl, habs, Nat.le_refl _, Nat.le_of_lt hpc, Or.inr ?_, ?_, ?_, ?_⟩
    · rw [hs]; rfl
    · intro y h1 h2; omega
    · rw [hs]; simp
    · exact hne
  | none =>
    obtain ⟨r, e1, e2, e3, e4, e5⟩ := next_loop_spec t'.data hlen' fuel p hpc
      (by rw [hc]; omega)
    simp only [iterator_next, hpc, if_true, e1]
    refine ⟨t', r, rfl, hperm, hl, habs, Nat.le_of_lt e2, e3, e5, ?_, ?_, ?_⟩
    · intro y h1 h2
      rcases Nat.eq_or_lt_of_le h1 with h | h
      · rw [← h]; exact hs
      · exact e4 y h h2
    · rw [hs]
      constructor
      · intro h; omega
      · intro h; simp at h
    · exact hne

theorem C14_erase_iterator_witness :
    Inv sample ∧ HasEmpty sample ∧ slot sample.data 1 = some ⟨1, 1, 10⟩ ∧ sample.capacity ≤ 8 ∧
    ∃ t' q, erase 8 sample 1 = some (t', q) ∧
      ((⟨1, 1, 10⟩ : Data Nat Nat) :: entries t'.data).Perm (entries sample.data) ∧
      t'.length + 1 = sample.length ∧
      (∀ d' ∈ entries t'.data,
        ¬(d'.hash = (⟨1, 1, 10⟩ : Data Nat Nat).hash ∧ d'.key = (⟨1, 1, 10⟩ : Data Nat Nat).key)) ∧
      1 ≤ q ∧ q ≤ end_ t' ∧ (q = end_ t' ∨ (slot t'.data q).isSome = true) ∧
      (∀ y, 1 ≤ y → y < q → slot t'.data y = none) ∧
      (q = 1 ↔ (slot t'.data 1).isSome = true) ∧
      (∀ e, slot t'.data 1 = some e → e ≠ ⟨1, 1, 10⟩) :=
  ⟨by decide, by decide, by decide, by decide,
    C14_erase_iterator sample (by decide) (by decide) 1 ⟨1, 1, 10⟩ (by decide) 8 (by decide)⟩

/-! ## Shrink at an unchanged capacity -/

set_option maxRecDepth 8000 in
/-- C19: the table that `do_append` of the keys 7, 15, 1, 2 builds satisfies the invariants with
length 4 and capacity 8; `shrink()` computes 5, which is below the capacity, and rehashes to
`round_up(5) = 8`: the capacity is unchanged and the entries of the keys 7 and 15 have exchanged
their slots. -/
theorem C19_shrink_rehashes_at_same_capacity :
    (appends (fun k : Nat => k) 16 (Hash.init : Hash Nat Nat)
      [(7, 0), (15, 0), (1, 0), (2, 0)]).map (fun r => r.1) = some wrapped ∧
    Inv wrapped ∧ 1 ≤ wrapped.length ∧
    target wrapped.length = 5 ∧ round_up 5 = 8 ∧
    ∃ t', shrink 16 wrapped = some t' ∧ t'.capacity = wrapped.capacity ∧
      slot wrapped.data 0 = some ⟨15, 15, 0⟩ ∧ slot t'.data 0 = some ⟨7, 7, 0⟩ ∧
      slot wrapped.data 7 = some ⟨7, 7, 0⟩ ∧ slot t'.data 7 = some ⟨15, 15, 0⟩ ∧
      t'.data ≠ wrapped.data := by
  refine ⟨by decide, by decide, by decide, by decide, by decide, ?_⟩
  refine ⟨⟨[some ⟨7, 7, 0⟩, some ⟨1, 1, 0⟩, some ⟨2, 2, 0⟩, none, none, none, none,
    some ⟨15, 15, 0⟩], 4, 8⟩, by decide, by decide, by decide, by decide, by decide, by decide,
    by decide⟩

/-! ## What the repair leaves unmodified -/

theorem reinsert_keeps_placed {k : Nat} (hk : k < 32) {fuel0 : Nat} :
    ∀ (fuel : Nat) (data r : List (Option (Data Key Val))) (p : Nat),
      data.length = 2 ^ k → p < 2 ^ k →
      reinsert fuel0 (cmask (2 ^ k)) fuel data p = some r →
      ∀ j e, slot data j = some e → ideal (2 ^ k) e = j → slot r j = some e := by
  intro fuel
  induction fuel with
  | zero => intro data r p _ _ h; simp [reinsert] at h
  | succ fuel ih =>
    intro data r p hlen hp h j e hj hid
    have hpl : p < data.length := by omega
    rw [reinsert, get_eq_slot hpl] at h
    cases hs : slot data p with
    | none =>
      rw [hs] at h
      simp only [Option.some.injEq] at h
      rw [← h]
      exact hj
    | some d =>
      rw [hs] at h
      simp only [store, hpl, if_true] at h
      have hlen1 : (data.set p none).length = 2 ^ k := by simp [hlen]
      have hx : ideal (2 ^ k) d < 2 ^ k := ideal_lt hk d
      have hp1 : slot (data.set p none) p = none := slot_set_self none hpl
      cases he : find_empty (data.set p none) (cmask (2 ^ k)) fuel0
          (d.hash &&& cmask (2 ^ k)) with
      | none => rw [he] at h; exact absurd h (by simp)
      | some x =>
        rw [he] at h
        obtain ⟨hxc, hxs, hrun⟩ := find_empty_sound hk hlen1 fuel0 _ x hx he
        have hxl : x < (data.set p none).length := by omega
        simp only [hxl, if_true] at h
        rw [step_one hk hp] at h
        refine ih _ r _ (by simp [hlen]) (next_lt hp) h j e ?_ hid
        by_cases hjp : j = p
        · subst hjp
          rw [hs] at hj
          cases hj
          have hxj : x = j := by
            by_contra hne
            have hpos : 0 < cdist (2 ^ k) j x := cdist_pos hp hxc (Ne.symm hne)
            rw [hid] at hrun
            obtain ⟨e', he', _⟩ := hrun j hp (by rw [cdist_self]; exact hpos)
            rw [hp1] at he'
            exact absurd he' (by simp)
          rw [hxj]
          exact slot_set_self _ (by omega)
        · have hj1 : slot (data.set p none) j = some e := by
            rw [slot_set_ne _ (Ne.symm hjp)]; exact hj
          have hxj : x ≠ j := by
            rintro rfl
            rw [hxs] at hj1
            exact absurd hj1 (by simp)
          rw [slot_set_ne _ hxj]
          exact hj1

theorem reinsert_frame {k : Nat} (hk : k < 32) {fuel0 : Nat} :
    ∀ (fuel : Nat) (data r : List (Option (Data Key Val))) (g j n : Nat),
      Repair data (2 ^ k) g j n →
      reinsert fuel0 (cmask (2 ^ k)) fuel data j = some r →
      ∀ E y, E < 2 ^ k → y < 2 ^ k → slot data E = none → E ≠ g → y ≠ g →
        cdist (2 ^ k) j E ≤ cdist (2 ^ k) j y → slot r y = slot data y := by
  intro fuel
  induction fuel with
  | zero => intro data r g j n _ h; simp [reinsert] at h
  | succ fuel ih =>
    intro data r g j n hR h E y hE hy hEs hEg hyg hdist
    have hjl : j < data.length := by rw [hR.len]; exact hR.hj
    rw [reinsert, get_eq_slot hjl] at h
    cases hs : slot data j with
    | none =>
      rw [hs] at h
      simp only [Option.some.injEq] at h
      rw [h]
    | some d =>
      rw [hs] at h
      have hst1 : store data j none = some (data.set j none) := by simp [store, hjl]
      simp only [hst1] at h
      cases he : find_empty (data.set j none) (cmask (2 ^ k)) fuel0
          (d.hash &&& cmask (2 ^ k)) with
      | none => rw [he] at h; simp at h
      | some e =>
        rw [he] at h
        obtain ⟨hec, g', n', hR', hperm, hkeep⟩ := hR.step hk hs he
        have hlen1 : (data.set j none).length = 2 ^ k := by simpa using hR.len
        obtain ⟨_, hes, _⟩ := find_empty_sound hk hlen1 fuel0 _ e (ideal_lt hk d) he
        have hst2 : store (data.set j none) e (some d)
            = some ((data.set j none).set e (some d)) := by simp [store, hR.len, hec]
        simp only [hst2, step_one hk hR.hj] at h
        have hjE : j ≠ E := by
          rintro rfl
          rw [hEs] at hs
          exact absurd hs (by simp)
        have hEpos : 0 < cdist (2 ^ k) j E := cdist_pos hR.hj hE hjE
        have hjy : j ≠ y := by
          rintro rfl
          rw [cdist_self] at hdist
          omega
        have h1 := cdist_next_left hR.hj hE hjE
        have h2 := cdist_next_left hR.hj hy hjy
        obtain ⟨hE2, hEg'⟩ := hkeep E hEs hEg
        have hy2 : slot ((data.set j none).set e (some d)) y = slot data y ∧ y ≠ g' := by
          cases hys : slot data y with
          | none =>
            obtain ⟨a, b⟩ := hkeep y hys hyg
            exact ⟨a, b⟩
          | some x =>
            have hy1 : slot (data.set j none) y = some x := by
              rw [slot_set_ne _ hjy]; exact hys
            have hey : e ≠ y := by
              rintro rfl
              rw [hes] at hy1
              exact absurd hy1 (by simp)
            have hy2 : slot ((data.set j none).set e (some d)) y = some x := by
              rw [slot_set_ne _ hey]; exact hy1
            refine ⟨hy2, ?_⟩
            rintro rfl
            rw [hR'.hole] at hy2
            exact absurd hy2 (by simp)
        rw [← hy2.1]
        exact ih _ r g' (next (2 ^ k) j) n' hR' h E y hE hy hE2 hEg' hy2.2 (by omega)

theorem cdist_from {c a j y : Nat} (ha : a < c) (hj : j < c) (hy : y < c)
    (h : cdist c a j ≤ cdist c a y) : cdist c j y = cdist c a y - cdist c a j := by
  unfold cdist at *
  split_ifs at * <;> omega

theorem scan_before_empty {k : Nat} (hk : k < 32) {data : List (Option (Data Key Val))}
    (hlen : data.length = 2 ^ k) {fuel x j E : Nat} (hx : x < 2 ^ k) (hE : E < 2 ^ k)
    (hEs : slot data E = none) (hscan : scan data (cmask (2 ^ k)) fuel x = some j) :
    j < 2 ^ k ∧ cdist (2 ^ k) x j ≤ cdist (2 ^ k) x E := by
  obtain ⟨m, e1, e3, e4⟩ := scan_sound hk hlen fuel x j hx hscan
  have hm : m ≤ cdist (2 ^ k) x E := by
    by_contra hlt
    obtain ⟨e, he, _⟩ := e4 (cdist (2 ^ k) x E) (by omega)
    rw [iter_cdist hx hE, hEs] at he
    exact absurd he (by simp)
  have hc := cdist_lt hx hE
  rw [e1]
  exact ⟨iter_next_lt hx m, by rw [cdist_iter hx (by omega)]; exact hm⟩

/-- C18 (amended): on a table satisfying I1-I4, the repair `rehash_data(i)` after vacating the
occupied slot `i` returns. It passes over the occupied slots whose ideal index equals their
physical index, which keep their entries, and it stops at the first empty slot: every empty
slot other than `i` and every slot after it in probe order from `i + 1`, up to `i` itself, are
left unmodified. -/
theorem C18_repair_stops_at_first_empty (t : Hash Key Val) (hinv : Inv t) (i : Nat)
    (d : Data Key Val) (hs : slot t.data i = some d) :
    (∀ fuel r, rehash_data fuel (t.data.set i none) t.capacity i = some r →
      (∀ j e, slot (t.data.set i none) j = some e → ideal t.capacity e = j →
        slot r j = some e) ∧
      (∀ E y, E < t.capacity → y < t.capacity → slot (t.data.set i none) E = none →
        E ≠ i → y ≠ i →
        cdist t.capacity (next t.capacity i) E ≤ cdist t.capacity (next t.capacity i) y →
        slot r y = slot (t.data.set i none) y)) ∧
    (∀ fuel, t.capacity * t.capacity * t.capacity ≤ fuel →
      ∃ r, rehash_data fuel (t.data.set i none) t.capacity i = some r) := by
  obtain ⟨k, hk, hc, hlen⟩ := hinv.pow (capacity_ne_zero_of_slot hinv hs)
  have hil : i < t.data.length := (mem_entries_slot hs).2
  have hi : i < 2 ^ k := by rw [← hlen]; exact hil
  have hlen1 : (t.data.set i none).length = 2 ^ k := by simpa using hlen
  have hx := next_lt hi
  rw [hc]
  constructor
  · intro fuel r h
    simp only [rehash_data, step_one hk hi] at h
    cases hscan : scan (t.data.set i none) (cmask (2 ^ k)) fuel (next (2 ^ k) i) with
    | none => rw [hscan] at h; simp at h
    | some j =>
      rw [hscan] at h
      simp only at h
      have h2 : I2 (⟨t.data, t.length, 2 ^ k⟩ : Hash Key Val) := by
        have : I2 (⟨t.data, t.length, t.capacity⟩ : Hash Key Val) := hinv.2.2.1
        rw [hc] at this
        exact this
      obtain ⟨n, hR⟩ := repair_init hk hlen h2 hs hscan
      constructor
      · exact reinsert_keeps_placed hk fuel _ r j hlen1 hR.hj h
      · intro E y hE hy hEs hEi hyi hdist
        obtain ⟨hj, hjE⟩ := scan_before_empty hk hlen1 hx hE hEs hscan
        have d1 := cdist_from hx hj hE hjE
        have d2 := cdist_from hx hj hy (le_trans hjE hdist)
        exact reinsert_frame hk fuel _ r i j n hR h E y hE hy hEs hEi hyi (by omega)
  · intro fuel hf
    obtain ⟨r, hr, _⟩ := rehash_data_total hk hlen1 hi (slot_set_self none hil) hi hf
    exact ⟨r, hr⟩

theorem C18_repair_stops_at_first_empty_witness :
    Inv crowded ∧ slot crowded.data 0 = some ⟨0, 0, 0⟩ ∧
    ((∀ fuel r, rehash_data fuel (crowded.data.set 0 none) crowded.capacity 0 = some r →
      (∀ j e, slot (crowded.data.set 0 none) j = some e → ideal crowded.capacity e = j →
        slot r j = some e) ∧
      (∀ E y, E < crowded.capacity → y < crowded.capacity →
        slot (crowded.data.set 0 none) E = none → E ≠ 0 → y ≠ 0 →
        cdist crowded.capacity (next crowded.capacity 0) E
          ≤ cdist crowded.capacity (next crowded.capacity 0) y →
        slot r y = slot (crowded.data.set 0 none) y)) ∧
    (∀ fuel, crowded.capacity * crowded.capacity * crowded.capacity ≤ fuel →
      ∃ r, rehash_data fuel (crowded.data.set 0 none) crowded.capacity 0 = some r)) :=
  ⟨by decide, by decide, C18_repair_stops_at_first_empty crowded (by decide) 0 ⟨0, 0, 0⟩
    (by decide)⟩

/-- C18 as stated fails: in the table of the keys 0, 1, 8 the walk from slot 1 after vacating
slot 0 meets in slot 1 an entry whose ideal index equals its physical index, yet the repair
goes on and moves the entry of slot 2, a slot after it in probe order, into slot 0. -/
theorem C18_repair_passes_placed_slot :
    (appends (fun k : Nat => k) 16 (Hash.init : Hash Nat Nat)
      [(0, 0), (1, 0), (8, 0)]).map (fun r => r.1) = some crowded ∧
    Inv crowded ∧
    stop_slot (crowded.data.set 0 none) 8 8 1 = some 1 ∧
    cdist 8 1 1 < cdist 8 1 2 ∧
    slot (crowded.data.set 0 none) 2 = some ⟨8, 8, 0⟩ ∧
    ∃ r, rehash_data 8 (crowded.data.set 0 none) 8 0 = some r ∧ slot r 2 = none ∧
      do_remove 8 crowded 0 0 = some (⟨r, 2, 8⟩, true) := by
  refine ⟨by decide, by decide, by decide, by decide, by decide, ?_⟩
  exact ⟨[some ⟨8, 8, 0⟩, some ⟨1, 1, 0⟩, none, none, none, none, none, none], by decide,
    by decide, by decide⟩

/-! ## Rounding up to a power of two -/

/-- C23: for every `v` with `1 <= v <= 2^31`, `round_up(v)` (32-bit `Counter` arithmetic) is a
power of two `2^k`, `k < 32`, with `v <= round_up(v) < 2 * v`; it is the smallest power of two
that is at least `v`, and it is `v` itself when `v` is a power of two. -/
theorem C23_round_up_smallest_power_of_two (v : Nat) (h1 : 1 ≤ v) (h2 : v ≤ 2 ^ 31) :
    (∃ k, k < 32 ∧ round_up v = 2 ^ k) ∧
    v ≤ round_up v ∧ round_up v < 2 * v ∧ round_up v < COUNTER_SIZE ∧
    (∀ m, v ≤ 2 ^ m → round_up v ≤ 2 ^ m) ∧
    (∀ m, v = 2 ^ m → round_up v = v) := by
  obtain ⟨k, hk, e, hle, hlt⟩ := round_up_ge h1 h2
  have hmin : ∀ m, v ≤ 2 ^ m → k ≤ m := by
    intro m hm
    have h : 2 ^ k < 2 ^ (m + 1) := by
      rw [Nat.pow_succ]
      omega
    have := (Nat.pow_lt_pow_iff_right (by norm_num : 1 < 2)).mp h
    omega
  refine ⟨⟨k, hk, e⟩, by rw [e]; exact hle, by rw [e]; exact hlt,
    by rw [e]; exact pow_lt_counter hk, ?_, ?_⟩
  · intro m hm
    rw [e]
    exact Nat.pow_le_pow_right (by norm_num) (hmin m hm)
  · intro m hm
    have hkm : k ≤ m := hmin m (by rw [hm])
    have hmk : m ≤ k := by
      rw [hm] at hle
      exact (Nat.pow_le_pow_iff_right (by norm_num : 1 < 2)).mp hle
    rw [e, hm, Nat.le_antisymm hkm hmk]

theorem C23_round_up_smallest_power_of_two_witness :
    1 ≤ 5 ∧ 5 ≤ 2 ^ 31 ∧
    ((∃ k, k < 32 ∧ round_up 5 = 2 ^ k) ∧
    5 ≤ round_up 5 ∧ round_up 5 < 2 * 5 ∧ round_up 5 < COUNTER_SIZE ∧
    (∀ m, 5 ≤ 2 ^ m → round_up 5 ≤ 2 ^ m) ∧
    (∀ m, 5 = 2 ^ m → round_up 5 = 5)) :=
  ⟨by decide, by decide, C23_round_up_smallest_power_of_two 5 (by decide) (by decide)⟩

/-! ## Linear probing agrees with a full-table scan -/

theorem find_by_scan_present (hasher : Key → Nat) {t : Hash Key Val} (hinv : Inv t)
    {key : Key} {i : Nat} {d : Data Key Val} (hs : slot t.data i = some d)
    (hh : d.hash = hasher key) (hk : d.key = key) : find_by_scan hasher t key = some i := by
  have hic : i < t.capacity := by rw [← hinv.1.1]; exact (mem_entries_slot hs).2
  unfold find_by_scan
  rw [List.range_eq_range']
  have h := @find_first_of_range' (fun x => x) (fun j =>
      match slot t.data j with
      | none => false
      | some e => decide (e.hash = hasher key ∧ e.key = key))
    t.capacity 0 i (Nat.zero_le _) (by omega) (by simp only [hs]; simp [hh, hk])
    (by
      intro o _ ho
      show (match slot t.data o with
        | none => false
        | some e => decide (e.hash = hasher key ∧ e.key = key)) = false
      cases hso : slot t.data o with
      | none => rfl
      | some e =>
        simp only [decide_eq_false_iff_not]
        rintro ⟨h1, h2⟩
        have := slot_inj hinv.2.2.2.2 hso hs (by rw [h1, h2, hh, hk])
        omega)
  simp only [List.map_id'] at h
  exact h

theorem find_by_scan_absent (hasher : Key → Nat) {t : Hash Key Val} {key : Key}
    (habs : ∀ d ∈ entries t.data, ¬(d.hash = hasher key ∧ d.key = key)) :
    find_by_scan hasher t key = none := by
  unfold find_by_scan
  rw [List.find?_eq_none]
  intro i _
  cases hs : slot t.data i with
  | none => simp
  | some d =>
    simp only [decide_eq_true_eq]
    exact habs d (mem_entries_slot hs).1

/-- C21: on a table satisfying I1-I4 with an empty slot, `do_find(key)` returns; its result is
a slot exactly when some occupied slot holds an entry with this key and the hash of this key,
the slot it returns is the only such slot, and the result is the one of the full-table scan;
`contains` and `find` report the same. -/
theorem C21_probing_agrees_with_scan (hasher : Key → Nat) (t : Hash Key Val) (hinv : Inv t)
    (hE : HasEmpty t) (key : Key) (fuel : Nat) (hf : t.capacity ≤ fuel) :
    ∃ r, do_find hasher fuel t key = some r ∧
      (r.isSome = true ↔
        ∃ i d, slot t.data i = some d ∧ d.hash = hasher key ∧ d.key = key) ∧
      (∀ i, r = some i → i < t.capacity ∧
        ∃ d, slot t.data i = some d ∧ d.hash = hasher key ∧ d.key = key ∧
          ∀ j e, slot t.data j = some e → e.hash = hasher key → e.key = key → j = i) ∧
      r = find_by_scan hasher t key ∧
      contains hasher fuel t key = some r.isSome ∧
      find hasher fuel t key = some (r.getD t.capacity) := by
  by_cases hp : ∃ d ∈ entries t.data, d.hash = hasher key ∧ d.key = key
  · obtain ⟨d, hd, hh, hk⟩ := hp
    obtain ⟨i, hi, hget⟩ := do_find_present hasher hinv hE hd hh hk hf
    have hs : slot t.data i = some d := slot_eq_of_get hget
    have hl0 : t.length ≠ 0 := length_ne_zero_of_slot hinv hs
    refine ⟨some i, hi, ?_, ?_, (find_by_scan_present hasher hinv hs hh hk).symm, ?_, ?_⟩
    · exact ⟨fun _ => ⟨i, d, hs, hh, hk⟩, fun _ => rfl⟩
    · intro i' hi'
      cases hi'
      refine ⟨by rw [← hinv.1.1]; exact (mem_entries_slot hs).2, d, hs, hh, hk, ?_⟩
      intro j e hj h1 h2
      exact slot_inj hinv.2.2.2.2 hj hs (by rw [h1, h2, hh, hk])
    · simp [contains, hl0, hi]
    · simp [find, hl0, hi]
  · have habs : ∀ d ∈ entries t.data, ¬(d.hash = hasher key ∧ d.key = key) :=
      fun d hd hcon => hp ⟨d, hd, hcon⟩
    have h := do_find_absent hasher hinv hE habs hf
    refine ⟨none, h, ?_, ?_, (find_by_scan_absent hasher habs).symm, ?_, ?_⟩
    · constructor
      · intro hc; simp at hc
      · rintro ⟨i, d, hs, hh, hk⟩
        exact absurd ⟨hh, hk⟩ (habs d (mem_entries_slot hs).1)
    · intro i hi; cases hi
    · by_cases hl0 : t.length = 0
      · simp [contains, hl0]
      · simp [contains, hl0, h]
    · by_cases hl0 : t.length = 0
      · simp [find, hl0]
      · simp [find, hl0, h]

theorem C21_probing_agrees_with_scan_witness :
    Inv sample ∧ HasEmpty sample ∧ sample.capacity ≤ 8 ∧
    ∃ r, do_find (fun k : Nat => k) 8 sample 9 = some r ∧
      (r.isSome = true ↔
        ∃ i d, slot sample.data i = some d ∧ d.hash = (fun k : Nat => k) 9 ∧ d.key = 9) ∧
      (∀ i, r = some i → i < sample.capacity ∧
        ∃ d, slot sample.data i = some d ∧ d.hash = (fun k : Nat => k) 9 ∧ d.key = 9 ∧
          ∀ j e, slot sample.data j = some e → e.hash = (fun k : Nat => k) 9 → e.key = 9 →
            j = i) ∧
      r = find_by_scan (fun k : Nat => k) sample 9 ∧
      contains (fun k : Nat => k) 8 sample 9 = some r.isSome ∧
      find (fun k : Nat => k) 8 sample 9 = some (r.getD sample.capacity) :=
  ⟨by decide, by decide, by decide,
    C21_probing_agrees_with_scan (fun k : Nat => k) sample (by decide) (by decide) 9 8
      (by decide)⟩

/-! ## Erasing while iterating -/

theorem do_remove_frame {t t' : Hash Key Val} (hinv : Inv t) {p : Nat} {d : Data Key Val}
    (hs : slot t.data p = some d) {fuel : Nat} {b : Bool}
    (h : do_remove fuel t d.hash d.key = some (t', b)) :
    ∀ E y, E < t.capacity → y < t.capacity → slot t.data E = none → y ≠ p →
      cdist t.capacity (next t.capacity p) E ≤ cdist t.capacity (next t.capacity p) y →
      slot t'.data y = slot t.data y := by
  intro E y hE hy hEs hyp hdist
  have hl0 : t.length ≠ 0 := length_ne_zero_of_slot hinv hs
  have hc0 := capacity_ne_zero_of_slot hinv hs
  unfold do_remove at h
  rw [if_neg hl0] at h
  cases hp : probe t.data (cmask t.capacity) d.hash d.key fuel
      (d.hash &&& cmask t.capacity) with
  | none => rw [hp] at h; simp at h
  | some r =>
    rw [hp] at h
    obtain ⟨p1, p2⟩ := probe_sound_inv hinv hc0 d.hash d.key hp
    cases r with
    | empty e =>
      exact absurd ⟨rfl, rfl⟩ ((p2 e rfl).2.2.2 d (mem_entries_slot hs).1)
    | found i =>
      simp only at h
      obtain ⟨hic, d', hs', hh, hkk⟩ := p1 i rfl
      have hip : i = p := slot_inj hinv.2.2.2.2 hs' hs (by rw [hh, hkk])
      subst hip
      obtain ⟨k, hk, hc, hlen⟩ := hinv.pow hc0
      have hil : i < t.data.length := (mem_entries_slot hs).2
      have hi : i < 2 ^ k := by rw [← hlen]; exact hil
      have hst : store t.data i none = some (t.data.set i none) := by simp [store, hil]
      rw [hst] at h
      rw [hc] at hE hy hdist
      simp only [rehash_data, hc, step_one hk hi] at h
      cases hscan : scan (t.data.set i none) (cmask (2 ^ k)) fuel (next (2 ^ k) i) with
      | none => rw [hscan] at h; simp at h
      | some j =>
        rw [hscan] at h
        simp only at h
        cases hre : reinsert fuel (cmask (2 ^ k)) fuel (t.data.set i none) j with
        | none => rw [hre] at h; simp at h
        | some data2 =>
          rw [hre] at h
          simp only [Option.some.injEq, Prod.mk.injEq] at h
          obtain ⟨rfl, _⟩ := h
          have h2 : I2 (⟨t.data, t.length, 2 ^ k⟩ : Hash Key Val) := by
            have : I2 (⟨t.data, t.length, t.capacity⟩ : Hash Key Val) := hinv.2.2.1
            rw [hc] at this
            exact this
          obtain ⟨n, hR⟩ := repair_init hk hlen h2 hs hscan
          have hlen1 : (t.data.set i none).length = 2 ^ k := by simpa using hlen
          have hEi : E ≠ i := by
            rintro rfl
            rw [hEs] at hs
            exact absurd hs (by simp)
          have hEs1 : slot (t.data.set i none) E = none := by
            rw [slot_set_ne _ (Ne.symm hEi)]; exact hEs
          obtain ⟨hj, hjE⟩ := scan_before_empty hk hlen1 (next_lt hi) hE hEs1 hscan
          have d1 := cdist_from (next_lt hi) hj hE hjE
          have d2 := cdist_from (next_lt hi) hj hy (le_trans hjE hdist)
          have hfr := reinsert_frame hk fuel _ data2 i j n hR hre E y hE hy hEs1 hEi hyp
            (by omega)
          simp only
          rw [hfr, slot_set_ne _ (Ne.symm hyp)]

theorem erase_spec {t : Hash Key Val} (hinv : Inv t) (hE : HasEmpty t) {p : Nat}
    {d : Data Key Val} (hp : slot t.data p = some d) {fuel : Nat} (hf : t.capacity ≤ fuel)
    (hbefore : ∀ y, y < p → slot t.data y = none) :
    ∃ t' q, erase fuel t p = some (t', q) ∧ Inv t' ∧ HasEmpty t' ∧
      t'.capacity = t.capacity ∧ t'.length + 1 = t.length ∧ p ≤ q ∧ q ≤ t'.capacity ∧
      (q = t'.capacity ∨ (slot t'.data q).isSome = true) ∧
      ∀ y, y < q → slot t'.data y = none := by
  obtain ⟨hd, hpl⟩ := mem_entries_slot hp
  obtain ⟨t', h1, hinv', hE', hc, hl, hperm⟩ := do_remove_present hinv hE hd hf
  have hlen' : t'.data.length = t'.capacity := hinv'.1.1
  have hpc0 : p < t.capacity := by rw [← hinv.1.1]; exact hpl
  have hpc : p < t'.capacity := by rw [hc]; exact hpc0
  have hkeep : ∀ y, y < p → slot t'.data y = none := by
    intro y hy
    have h0 : slot t.data 0 = none := hbefore 0 (by omega)
    rw [do_remove_frame hinv hp h1 0 y (by omega) (by omega) h0 (by omega)
      (by unfold cdist next; split_ifs <;> omega)]
    exact hbefore y hy
  unfold erase
  rw [get_eq_slot hpl, hp]
  simp only [h1]
  rw [get_eq_slot (by rw [hlen']; exact hpc)]
  cases hs : slot t'.data p with
  | some e =>
    refine ⟨t', p, rfl, hinv', hE', hc, hl, Nat.le_refl _, Nat.le_of_lt hpc, Or.inr ?_, hkeep⟩
    rw [hs]; rfl
  | none =>
    obtain ⟨r, e1, e2, e3, e4, e5⟩ := next_loop_spec t'.data hlen' fuel p hpc
      (by rw [hc]; omega)
    simp only [iterator_next, hpc, if_true, e1]
    refine ⟨t', r, rfl, hinv', hE', hc, hl, Nat.le_of_lt e2, e3, e5, ?_⟩
    intro y hy
    rcases Nat.lt_trichotomy y p with h | h | h
    · exact hkeep y h
    · rw [h]; exact hs
    · exact e4 y h hy

theorem erase_loop_spec {fuel0 : Nat} :
    ∀ (n fuel : Nat) (t : Hash Key Val) (it : Nat), t.length = n → Inv t → HasEmpty t →
      t.capacity ≤ fuel0 → it ≤ t.capacity →
      (it = t.capacity ∨ (slot t.data it).isSome = true) →
      (∀ y, y < it → slot t.data y = none) → n < fuel →
      ∃ trace, erase_loop fuel0 fuel t it = some trace ∧ trace.length = n + 1 ∧
        trace.head? = some (t, it) ∧
        (∀ s ∈ trace, ∀ y, y < s.2 → slot s.1.data y = none) ∧
        (∀ s ∈ trace, Inv s.1 ∧ s.1.capacity = t.capacity) ∧
        trace.map (fun s => s.1.length) = (List.range (n + 1)).reverse ∧
        ∃ tl, trace.getLast? = some (tl, end_ tl) ∧ tl.length = 0 ∧
          ∀ y, slot tl.data y = none := by
  intro n
  induction n with
  | zero =>
    intro fuel t it hn hinv hE hf0 hit hocc hbefore hf
    cases fuel with
    | zero => omega
    | succ fuel =>
      have hend : it = end_ t := by
        rcases hocc with h | h
        · exact h
        · obtain ⟨d, hd⟩ := Option.isSome_iff_exists.mp h
          exact absurd hn (length_ne_zero_of_slot hinv hd)
      rw [erase_loop, if_pos hend]
      refine ⟨_, rfl, rfl, rfl, ?_, ?_, by simp only [List.map_cons, List.map_nil, hn]; rfl, t,
        by rw [hend]; rfl, hn, ?_⟩
      · intro s hs y hy
        rw [List.mem_singleton] at hs
        subst hs
        exact hbefore y hy
      · intro s hs
        rw [List.mem_singleton] at hs
        subst hs
        exact ⟨hinv, rfl⟩
      · intro y
        rcases Nat.lt_or_ge y it with h | h
        · exact hbefore y h
        · exact slot_none_of_ge (by rw [hinv.1.1]; unfold end_ at hend; omega)
  | succ n ih =>
    intro fuel t it hn hinv hE hf0 hit hocc hbefore hf
    cases fuel with
    | zero => omega
    | succ fuel =>
      have hne : it ≠ end_ t := by
        intro hend
        unfold end_ at hend
        have hnil : entries t.data = [] := by
          apply entries_eq_nil
          intro y hy
          exact hbefore y (by rw [hend, ← hinv.1.1]; exact hy)
        have h1 : t.length = (entries t.data).length := hinv.2.1
        rw [hnil, hn] at h1
        simp at h1
      have hsome : (slot t.data it).isSome = true := by
        rcases hocc with h | h
        · exact absurd h hne
        · exact h
      obtain ⟨d, hd⟩ := Option.isSome_iff_exists.mp hsome
      obtain ⟨t', q, e1, hinv', hE', hc, hl, hpq, hq, hqo, hqb⟩ :=
        erase_spec hinv hE hd hf0 hbefore
      obtain ⟨trace, r1, r2, r3, r4, r5, r6, tl, r7, r8, r9⟩ :=
        ih fuel t' q (by omega) hinv' hE' (by rw [hc]; exact hf0) hq hqo hqb (by omega)
      rw [erase_loop, if_neg hne]
      simp only [e1, r1]
      refine ⟨_, rfl, by simp [r2], rfl, ?_, ?_, ?_, tl, ?_, r8, r9⟩
      · intro s hs y hy
        rw [List.mem_cons] at hs
        rcases hs with rfl | hs
        · exact hbefore y hy
        · exact r4 s hs y hy
      · intro s hs
        rw [List.mem_cons] at hs
        rcases hs with rfl | hs
        · exact ⟨hinv, rfl⟩
        · exact ⟨(r5 s hs).1, by rw [(r5 s hs).2, hc]⟩
      · rw [List.map_cons, r6, List.range_succ (n + 1), List.reverse_append]
        simp [hn]
      · cases trace with
        | nil => simp at r2
        | cons a rest =>
          rw [List.getLast?_cons_cons]
          exact r7

/-- C22: on a table satisfying I1-I4 with an empty slot and `n = length` entries, the loop
`it = begin(); while (it != end()) it = erase(it);` terminates after exactly `n` calls of
`erase` (the loop condition is tested `n + 1` times, with lengths `n, n - 1, ..., 0`); it ends
with length 0, every slot empty and the capacity unchanged; at every test of the loop condition
every slot physically before the iterator position is empty and I1-I4 hold. -/
theorem C22_erase_while_iterating (t : Hash Key Val) (hinv : Inv t) (hE : HasEmpty t)
    (fuel : Nat) (hf : t.capacity < fuel) :
    ∃ trace, erase_all fuel t = some trace ∧ trace.length = t.length + 1 ∧
      (∃ it, begin fuel t = some it ∧ trace.head? = some (t, it)) ∧
      (∀ s ∈ trace, ∀ y, y < s.2 → slot s.1.data y = none) ∧
      (∀ s ∈ trace, Inv s.1 ∧ s.1.capacity = t.capacity) ∧
      trace.map (fun s => s.1.length) = (List.range (t.length + 1)).reverse ∧
      ∃ tl, trace.getLast? = some (tl, end_ tl) ∧ tl.length = 0 ∧
        ∀ y, slot tl.data y = none := by
  obtain ⟨r, e1, e2, e3, e4, e5⟩ := begin_loop_spec t.data hinv.1.1 fuel 0 (Nat.zero_le _)
    (by omega)
  have hlc := length_le_capacity hinv
  obtain ⟨trace, r1, r2, r3, r4, r5, r6, r7⟩ := erase_loop_spec t.length fuel t r rfl hinv hE
    (Nat.le_of_lt hf) e3 e5 (fun y hy => e4 y (Nat.zero_le _) hy) (by omega)
  refine ⟨trace, ?_, r2, ⟨r, e1, r3⟩, r4, r5, r6, r7⟩
  unfold erase_all begin
  rw [e1]
  exact r1

theorem C22_erase_while_iterating_witness :
    Inv wrapped ∧ HasEmpty wrapped ∧ wrapped.capacity < 9 ∧
    ∃ trace, erase_all 9 wrapped = some trace ∧ trace.length = wrapped.length + 1 ∧
      (∃ it, begin 9 wrapped = some it ∧ trace.head? = some (wrapped, it)) ∧
      (∀ s ∈ trace, ∀ y, y < s.2 → slot s.1.data y = none) ∧
      (∀ s ∈ trace, Inv s.1 ∧ s.1.capacity = wrapped.capacity) ∧
      trace.map (fun s => s.1.length) = (List.range (wrapped.length + 1)).reverse ∧
      ∃ tl, trace.getLast? = some (tl, end_ tl) ∧ tl.length = 0 ∧
        ∀ y, slot tl.data y = none :=
  ⟨by decide, by decide, by decide,
    C22_erase_while_iterating wrapped (by decide) (by decide) 9 (by decide)⟩

/-! ## The shrink target on the whole `Counter` range -/

theorem float_of_exact_mul {m : Nat} (h : m < 2 ^ 24) :
    float_of (m * 256) = m * 256 * FSCALE := by
  unfold float_of
  apply f32_exact
  have hb := (ilog2_bounds (m * 256 * FSCALE)).1
  rcases Nat.eq_zero_or_pos m with h0 | h0
  · subst h0
    simp
  · have h1 : 2 ^ ilog2 (m * 256 * FSCALE) (m * 256 * FSCALE) ≤ m * 256 * FSCALE :=
      hb (Nat.mul_pos (by omega) (by unfold FSCALE; norm_num))
    have h2 : m * 256 * FSCALE < 2 ^ 96 := by
      unfold FSCALE
      calc m * 256 * 2 ^ 64 < 2 ^ 24 * 256 * 2 ^ 64 :=
            Nat.mul_lt_mul_of_pos_right (by omega) (by norm_num)
        _ = 2 ^ 96 := by norm_num
    have h3 : ilog2 (m * 256 * FSCALE) (m * 256 * FSCALE) < 96 :=
      (Nat.pow_lt_pow_iff_right (by norm_num : 1 < 2)).mp (lt_of_le_of_lt h1 h2)
    have h4 : 2 ^ (ilog2 (m * 256 * FSCALE) (m * 256 * FSCALE) - 23) ∣ 2 ^ 72 :=
      Nat.pow_dvd_pow 2 (by omega)
    have h5 : 2 ^ 72 ∣ m * 256 * FSCALE := by
      refine ⟨m, ?_⟩
      unfold FSCALE
      ring
    exact Dvd.dvd.trans h4 h5

theorem target_large {l : Nat} (h1 : 2 ^ 23 ≤ l) (h2 : l ≤ 2 ^ 31) :
    l ≤ target l ∧ target l < 2 ^ 32 := by
  have hLF0 : 0 < HASH_LOAD_FACTOR := by decide
  have hLF1 : 100 * HASH_LOAD_FACTOR ≤ 86 * FSCALE := by decide
  have hLF2 : 2 * FSCALE ≤ 3 * HASH_LOAD_FACTOR := by decide
  have hH : HALF ≤ FSCALE := by decide
  have ha : float_of (l / 256 * 256) = l / 256 * 256 * FSCALE :=
    float_of_exact_mul (by omega)
  have hb : float_of ((l / 256 + 1) * 256) = (l / 256 + 1) * 256 * FSCALE :=
    float_of_exact_mul (by omega)
  have hc : float_of (12582912 * 256) = 12582912 * 256 * FSCALE :=
    float_of_exact_mul (by norm_num)
  have hd : float_of (12582913 * 256) = 12582913 * 256 * FSCALE :=
    float_of_exact_mul (by norm_num)
  have he : float_of (8388608 * 256) = 8388608 * 256 * FSCALE :=
    float_of_exact_mul (by norm_num)
  have hlo : l / 256 * 256 * FSCALE ≤ float_of l := by
    rw [← ha]
    exact float_of_mono (by omega)
  have hhi : float_of l ≤ 8388608 * 256 * FSCALE := by
    rw [← he]
    exact float_of_mono (by omega)
  generalize hx : float_of l = x at hlo hhi
  generalize hA : l / 256 * 256 = A at *
  generalize hB : (l / 256 + 1) * 256 = B at *
  have hAB : 86 * B ≤ 100 * A := by omega
  have hlB : l ≤ B := by omega
  -- lower bound
  have hy1 : B * FSCALE ≤ fdiv x HASH_LOAD_FACTOR := by
    have hcross : B * FSCALE * HASH_LOAD_FACTOR ≤ x * FSCALE * 1 := by
      have e1 : 100 * (B * HASH_LOAD_FACTOR) ≤ 100 * (A * FSCALE) := by
        calc 100 * (B * HASH_LOAD_FACTOR) = B * (100 * HASH_LOAD_FACTOR) := by ring
          _ ≤ B * (86 * FSCALE) := Nat.mul_le_mul_left _ hLF1
          _ = 86 * B * FSCALE := by ring
          _ ≤ 100 * A * FSCALE := Nat.mul_le_mul_right _ hAB
          _ = 100 * (A * FSCALE) := by ring
      have e2 : B * HASH_LOAD_FACTOR ≤ A * FSCALE := by omega
      calc B * FSCALE * HASH_LOAD_FACTOR = B * HASH_LOAD_FACTOR * FSCALE := by ring
        _ ≤ A * FSCALE * FSCALE := Nat.mul_le_mul_right _ e2
        _ ≤ x * FSCALE := Nat.mul_le_mul_right _ hlo
        _ = x * FSCALE * 1 := by ring
    have h := @f32_mono (B * FSCALE) 1 (x * FSCALE) HASH_LOAD_FACTOR (by norm_num) hLF0 hcross
    have hb' : f32 (B * FSCALE) 1 = B * FSCALE := hb
    rw [hb'] at h
    exact h
  have hz1 : B * FSCALE ≤ fadd (fdiv x HASH_LOAD_FACTOR) HALF := by
    have h := @f32_mono (B * FSCALE) 1 (fdiv x HASH_LOAD_FACTOR + HALF) 1
      (by norm_num) (by norm_num) (by omega)
    have hb' : f32 (B * FSCALE) 1 = B * FSCALE := hb
    rw [hb'] at h
    exact h
  -- upper bound
  have hy2 : fdiv x HASH_LOAD_FACTOR ≤ 12582912 * 256 * FSCALE := by
    have hcross : x * FSCALE * 1 ≤ 12582912 * 256 * FSCALE * HASH_LOAD_FACTOR := by
      calc x * FSCALE * 1 = x * FSCALE := by ring
        _ ≤ 8388608 * 256 * FSCALE * FSCALE := Nat.mul_le_mul_right _ hhi
        _ = 4194304 * 256 * FSCALE * (2 * FSCALE) := by ring
        _ ≤ 4194304 * 256 * FSCALE * (3 * HASH_LOAD_FACTOR) := Nat.mul_le_mul_left _ hLF2
        _ = 12582912 * 256 * FSCALE * HASH_LOAD_FACTOR := by ring
    have h := @f32_mono (x * FSCALE) HASH_LOAD_FACTOR (12582912 * 256 * FSCALE) 1 hLF0
      (by norm_num) hcross
    have hc' : f32 (12582912 * 256 * FSCALE) 1 = 12582912 * 256 * FSCALE := hc
    rw [hc'] at h
    exact h
  have hz2 : fadd (fdiv x HASH_LOAD_FACTOR) HALF ≤ 12582913 * 256 * FSCALE := by
    have h := @f32_mono (fdiv x HASH_LOAD_FACTOR + HALF) 1 (12582913 * 256 * FSCALE) 1
      (by norm_num) (by norm_num) (by omega)
    have hd' : f32 (12582913 * 256 * FSCALE) 1 = 12582913 * 256 * FSCALE := hd
    rw [hd'] at h
    exact h
  unfold target counter_of
  rw [hx]
  constructor
  · exact le_trans hlB ((Nat.le_div_iff_mul_le FSCALE_pos).mpr hz1)
  · have hz3 : fadd (fdiv x HASH_LOAD_FACTOR) HALF ≤ FSCALE * (12582913 * 256) := by
      rw [Nat.mul_comm FSCALE (12582913 * 256)]
      exact hz2
    have := Nat.div_le_of_le_mul hz3
    omega

theorem shrink_returns {t : Hash Key Val} (hinv : Inv t) {fuel : Nat}
    (hf : t.capacity ≤ fuel) : ∃ t', shrink fuel t = some t' ∧ Inv t' := by
  have hlc := length_le_capacity hinv
  have hsound : ∀ t', shrink fuel t = some t' → ∃ t'', shrink fuel t = some t'' ∧ Inv t'' :=
    fun t' h => ⟨t', h, shrink_sound hinv h⟩
  by_cases h0 : t.capacity = 0
  · exact hsound t (by simp [shrink, h0])
  · obtain ⟨k', hk', hc, _⟩ := hinv.pow h0
    have hc31 : t.capacity ≤ 2 ^ 31 := by
      rw [hc]
      exact Nat.pow_le_pow_right (by norm_num) (by omega)
    rcases Nat.lt_or_ge t.length (2 ^ 23) with hl | hl
    · obtain ⟨t', h⟩ := shrink_total hinv hl hf
      exact hsound t' h
    · obtain ⟨hb1, hb2⟩ := target_large hl (by omega)
      have hl0 : t.length ≠ 0 := by
        have : 0 < 2 ^ 23 := by norm_num
        omega
      have hcs : ¬COUNTER_SIZE ≤ target t.length := by unfold COUNTER_SIZE; omega
      by_cases hle : t.capacity ≤ target t.length
      · exact hsound t (by simp [shrink, h0, hl0, hcs, hle])
      · obtain ⟨k, hk, hr, hge, hmin⟩ := round_up_ge (by omega : 1 ≤ target t.length)
          (by omega)
        have hkk : 2 ^ k ≤ 2 ^ k' := by
          apply Nat.pow_le_pow_right (by norm_num)
          by_contra hcon
          have h3 : 2 ^ (k' + 1) ≤ 2 ^ k := Nat.pow_le_pow_right (by norm_num) (by omega)
          rw [pow_succ] at h3
          omega
        obtain ⟨t', e1, _⟩ := rehash_spec hinv hk (by omega : t.length ≤ 2 ^ k)
          (by omega : 2 ^ k ≤ fuel)
        apply hsound t'
        simp only [shrink, h0, hl0, hcs, hle, if_false, hr]
        exact e1

theorem reserve_returns {t : Hash Key Val} (hinv : Inv t) {size : Nat}
    (hsize : target size ≤ 2 ^ 31) {fuel : Nat} (hf : round_up (target size) ≤ fuel) :
    ∃ t', reserve fuel t size = some t' ∧ Inv t' := by
  have hsound : ∀ t', reserve fuel t size = some t' →
      ∃ t'', reserve fuel t size = some t'' ∧ Inv t'' :=
    fun t' h => ⟨t', h, reserve_sound hinv h⟩
  have hcs : ¬COUNTER_SIZE ≤ target size := by unfold COUNTER_SIZE; omega
  by_cases hle : target size ≤ t.capacity
  · exact hsound t (by simp [reserve, hcs, hle])
  · obtain ⟨k, hk, hr, hge, _⟩ := round_up_ge (by omega : 1 ≤ target size) hsize
    have hlc := length_le_capacity hinv
    rw [hr] at hf
    obtain ⟨t', e1, _⟩ := rehash_spec hinv hk (by omega : t.length ≤ 2 ^ k) hf
    apply hsound t'
    simp only [reserve, hcs, hle, if_false, hr]
    exact e1

/-! ## Preservation of the invariants inside the `Counter` range -/

/-- C6 (amended): the invariants I1-I4 hold for the initial empty table and are preserved by
every operation whose capacity computation stays inside the 32-bit `Counter`: on a table that
satisfies them, `do_append` with a capacity below `2^31` (so that `capacity << 1` does not
wrap), `do_remove` with its `rehash_data` repair, `reserve(size)` with
`Counter(size / 0.85f + 0.5f) <= 2^31` (so that `round_up` does not wrap), `shrink`, `clear`
and `destroy` leave a table that satisfies them.  The calls return: `shrink`, `clear` and
`destroy` always, `reserve` in the range above, `do_append` and `do_remove` when the table has
an empty slot or is empty. -/
theorem C6_invariants_preserved (hasher : Key → Nat) (t : Hash Key Val) (hinv : Inv t) :
    Inv (Hash.init : Hash Key Val) ∧
    (∀ fuel key val t' d, t.capacity < 2 ^ 31 →
      do_append hasher fuel t key val = some (t', d) → Inv t') ∧
    (∀ fuel hash key t' b, do_remove fuel t hash key = some (t', b) → Inv t') ∧
    (∀ fuel size t', target size ≤ 2 ^ 31 → reserve fuel t size = some t' → Inv t') ∧
    (∀ fuel t', shrink fuel t = some t' → Inv t') ∧
    (∀ t', clear t = some t' → Inv t') ∧
    Inv (destroy t) ∧
    (∀ fuel key val, HasEmpty t ∨ t.capacity = 0 → t.capacity < 2 ^ 31 →
      16 + 2 * t.capacity ≤ fuel →
      ∃ t' d, do_append hasher fuel t key val = some (t', d) ∧ Inv t') ∧
    (∀ fuel hash key, HasEmpty t ∨ t.length = 0 → t.capacity ≤ fuel →
      ∃ t' b, do_remove fuel t hash key = some (t', b) ∧ Inv t') ∧
    (∀ fuel size, target size ≤ 2 ^ 31 → round_up (target size) ≤ fuel →
      ∃ t', reserve fuel t size = some t' ∧ Inv t') ∧
    (∀ fuel, t.capacity ≤ fuel → ∃ t', shrink fuel t = some t' ∧ Inv t') ∧
    (∃ t', clear t = some t' ∧ Inv t') := by
  refine ⟨inv_init, ?_, ?_, ?_, ?_, ?_, inv_init, ?_, ?_, ?_, ?_, ?_⟩
  · intro fuel key val t' d _ h
    exact (do_append_sound hasher hinv h).1
  · intro fuel hash key t' b h
    exact (do_remove_sound hinv h).1
  · intro fuel size t' _ h
    exact reserve_sound hinv h
  · intro fuel t' h
    exact shrink_sound hinv h
  · intro t' h
    obtain ⟨t0, e1, e2, _⟩ := clear_spec hinv
    rw [e1] at h
    simp only [Option.some.injEq] at h
    subst h
    exact e2
  · intro fuel key val hE hcap hf
    obtain ⟨t', d, h⟩ := do_append_total hasher hinv hE hcap key val hf
    exact ⟨t', d, h, (do_append_sound hasher hinv h).1⟩
  · intro fuel hash key hE hf
    obtain ⟨t', b, h⟩ := do_remove_returns hinv hE hash key hf
    exact ⟨t', b, h, (do_remove_sound hinv h).1⟩
  · intro fuel size hsize hf
    exact reserve_returns hinv hsize hf
  · intro fuel hf
    exact shrink_returns hinv hf
  · obtain ⟨t0, e1, e2, _⟩ := clear_spec hinv
    exact ⟨t0, e1, e2⟩

theorem C6_invariants_preserved_witness :
    Inv sample ∧
    (Inv (Hash.init : Hash Nat Nat) ∧
    (∀ fuel key val t' d, sample.capacity < 2 ^ 31 →
      do_append (fun k => k) fuel sample key val = some (t', d) → Inv t') ∧
    (∀ fuel hash key t' b, do_remove fuel sample hash key = some (t', b) → Inv t') ∧
    (∀ fuel size t', target size ≤ 2 ^ 31 → reserve fuel sample size = some t' → Inv t') ∧
    (∀ fuel t', shrink fuel sample = some t' → Inv t') ∧
    (∀ t', clear sample = some t' → Inv t') ∧
    Inv (destroy sample) ∧
    (∀ fuel key val, HasEmpty sample ∨ sample.capacity = 0 → sample.capacity < 2 ^ 31 →
      16 + 2 * sample.capacity ≤ fuel →
      ∃ t' d, do_append (fun k => k) fuel sample key val = some (t', d) ∧ Inv t') ∧
    (∀ fuel hash key, HasEmpty sample ∨ sample.length = 0 → sample.capacity ≤ fuel →
      ∃ t' b, do_remove fuel sample hash key = some (t', b) ∧ Inv t') ∧
    (∀ fuel size, target size ≤ 2 ^ 31 → round_up (target size) ≤ fuel →
      ∃ t', reserve fuel sample size = some t' ∧ Inv t') ∧
    (∀ fuel, sample.capacity ≤ fuel → ∃ t', shrink fuel sample = some t' ∧ Inv t') ∧
    (∃ t', clear sample = some t' ∧ Inv t')) :=
  ⟨by decide, C6_invariants_preserved (fun k => k) sample (by decide)⟩

set_option maxRecDepth 8000 in
/-- C6 as stated fails: the table `sample` satisfies I1-I4, and `reserve(3000000000)` on it
computes `Counter(3000000000 / 0.85f + 0.5f) = 3529411584`, above the capacity, and
`round_up(3529411584) = 0` because `++v` wraps: it calls `rehash(0)`, whose probing reads
outside the array of 0 slots, so the call has no result for any fuel; and the state that the
final assignments of `rehash` set, capacity 0 with length 3, violates the invariants whatever
the slot array holds. -/
theorem C6_reserve_wraps_capacity :
    Inv sample ∧ target 3000000000 = 3529411584 ∧ sample.capacity < target 3000000000 ∧
    target 3000000000 < COUNTER_SIZE ∧ round_up (target 3000000000) = 0 ∧
    (∀ fuel, reserve fuel sample 3000000000 = none) ∧
    ∀ data : List (Option (Data Nat Nat)),
      ¬Inv (⟨data, sample.length, round_up (target 3000000000)⟩ : Hash Nat Nat) := by
  have ht : target 3000000000 = 3529411584 := by decide
  have hr : round_up 3529411584 = 0 := by decide
  refine ⟨by decide, ht, by rw [ht]; decide, by rw [ht]; decide, by rw [ht]; exact hr, ?_, ?_⟩
  · intro fuel
    unfold reserve
    rw [ht, hr]
    simp [COUNTER_SIZE, sample, rehash, rehash_loop, find_empty_nil]
  · intro data hinv
    rw [ht, hr] at hinv
    obtain ⟨⟨hlen, _⟩, h1, _⟩ := hinv
    have hnil : data = [] := List.eq_nil_of_length_eq_zero hlen
    unfold I1 at h1
    simp [hnil, entries, sample] at h1

end Unigine
